import Mathlib

/-!
# Dojo Chess (`src/App.jsx`): a shallow embedding of the rules engine

The React component keeps the game in `useState` cells and defines the engine
as closures over them.  Here every closure becomes a pure function that takes
the cells it reads as explicit arguments, and every handler becomes a function
from `State` to `State`.

Conventions of the embedding

* A piece code (`'K'`, `'p'`, ...) is a `Piece`: its lower-case letter is the
  `Kind`, and `getPieceColor` (upper case = white) is the `Color`.
* A board cell is `Option Piece`; `none` is JavaScript `null`.
* The board is always an 8x8 array in the source (`INITIAL_BOARD`, then
  `board.map(row => [...row])` copies), so `Board` is a total map on
  `Fin 8 × Fin 8`.  Indices computed by the code are `Int`s; `Board.get`
  reads a square and the callers keep the bounds checks of the source.
* A JavaScript `TypeError` (indexing `undefined`, calling a method of `null`)
  is the result `none` of an `Option`-valued function.
* `while` loops run on a fuel of 8 iterations; `slideLoop_fuel` and
  `rayLoop_fuel` show that no larger fuel changes a result.
-/

namespace Chess

/-! ## Board model -/

/-- Side: `'w'` or `'b'`. -/
inductive Color where
  | w
  | b
deriving DecidableEq, Repr

/-- Lower-case piece letter (`piece.toLowerCase()`). -/
inductive Kind where
  | p
  | n
  | b
  | r
  | q
  | k
deriving DecidableEq, Repr

/-- Piece code: upper-case letters are white, lower-case letters are black. -/
structure Piece where
  kind : Kind
  color : Color
deriving DecidableEq, Repr

/-- Board cell: `none` is `null`. -/
abbrev Cell := Option Piece

/-- The 8x8 array `board[r][c]`. -/
def Board := Fin 8 → Fin 8 → Cell

/-- Index test `i >= 0 && i < 8`. -/
def inB (i : Int) : Bool := decide (0 ≤ i) && decide (i < 8)

/-- Bounds test `tr >= 0 && tr < 8 && tc >= 0 && tc < 8`. -/
def inBounds (r c : Int) : Bool := inB r && inB c

/-- Read `board[r][c]` for an index pair inside the board; outside the board the
result is `none` (a falsy value: `undefined`). -/
def Board.get (b : Board) (r c : Int) : Cell :=
  if h : (0 ≤ r ∧ r < 8) ∧ (0 ≤ c ∧ c < 8) then
    b ⟨r.toNat, by omega⟩ ⟨c.toNat, by omega⟩
  else none

/-- Assignment `board[r][c] = v` on a copy of the board (indices inside the board). -/
def Board.set (b : Board) (r c : Int) (v : Cell) : Board :=
  fun i j => if (i.val : Int) = r ∧ (j.val : Int) = c then v else b i j

/-- Board given by its rows, as an array literal. -/
def Board.ofRows (rows : List (List Cell)) : Board :=
  fun i j => (rows.getD i.val []).getD j.val none

/-- Test `board[r][c] === null`: false for `undefined` (column outside the row). -/
def Board.isNull (b : Board) (r c : Int) : Bool :=
  inB c && (b.get r c).isNone

def wP : Cell := some ⟨Kind.p, Color.w⟩
def wN : Cell := some ⟨Kind.n, Color.w⟩
def wB : Cell := some ⟨Kind.b, Color.w⟩
def wR : Cell := some ⟨Kind.r, Color.w⟩
def wQ : Cell := some ⟨Kind.q, Color.w⟩
def wK : Cell := some ⟨Kind.k, Color.w⟩
def bP : Cell := some ⟨Kind.p, Color.b⟩
def bN : Cell := some ⟨Kind.n, Color.b⟩
def bB : Cell := some ⟨Kind.b, Color.b⟩
def bR : Cell := some ⟨Kind.r, Color.b⟩
def bQ : Cell := some ⟨Kind.q, Color.b⟩
def bK : Cell := some ⟨Kind.k, Color.b⟩

/-- The constant `INITIAL_BOARD`. -/
def INITIAL_BOARD : Board := Board.ofRows
  [ [bR, bN, bB, bQ, bK, bB, bN, bR],
    [bP, bP, bP, bP, bP, bP, bP, bP],
    [none, none, none, none, none, none, none, none],
    [none, none, none, none, none, none, none, none],
    [none, none, none, none, none, none, none, none],
    [none, none, none, none, none, none, none, none],
    [wP, wP, wP, wP, wP, wP, wP, wP],
    [wR, wN, wB, wQ, wK, wB, wN, wR] ]

/-- Opposite side, `color === 'w' ? 'b' : 'w'`. -/
def Color.other : Color → Color
  | Color.w => Color.b
  | Color.b => Color.w

/-- A board square `{r, c}`. -/
structure Square where
  r : Int
  c : Int
deriving DecidableEq, Repr

/-- Value of the `isCastle` flag: `'k'` or `'q'`. -/
inductive CastleSide where
  | k
  | q
deriving DecidableEq, Repr

/-- A move object `{r, c, isDoublePush?, isEnPassant?, isCastle?}`; an absent flag
is `false` / `none`. -/
structure Move where
  r : Int
  c : Int
  isDoublePush : Bool
  isEnPassant : Bool
  isCastle : Option CastleSide
deriving DecidableEq, Repr

/-- The plain move `{r, c}`. -/
def Move.plain (r c : Int) : Move := ⟨r, c, false, false, none⟩

/-- The move object `{r, c, isEnPassant: true}`. -/
def Move.enPassant (r c : Int) : Move := ⟨r, c, false, true, none⟩

/-- The move object `{r, c, isDoublePush: true}`. -/
def Move.doublePush (r c : Int) : Move := ⟨r, c, true, false, none⟩

/-- The move object `{r, c, isCastle: side}`. -/
def Move.castle (r c : Int) (side : CastleSide) : Move := ⟨r, c, false, false, some side⟩

/-- The rights of one side, `{kingSide, queenSide}`. -/
structure SideRights where
  kingSide : Bool
  queenSide : Bool
deriving DecidableEq, Repr

/-- The `castlingRights` object `{w: {...}, b: {...}}`. -/
structure CastlingRights where
  w : SideRights
  b : SideRights
deriving DecidableEq, Repr

/-- Lookup `rights[color]`. -/
def CastlingRights.get (rt : CastlingRights) : Color → SideRights
  | Color.w => rt.w
  | Color.b => rt.b

/-- All rights true (the initial `useState` value). -/
def CastlingRights.all : CastlingRights := ⟨⟨true, true⟩, ⟨true, true⟩⟩

/-! ## Geometry generator (`getGeometryMoves`) -/

/-- The direction `forward = color === 'w' ? -1 : 1`. -/
def forward : Color → Int
  | Color.w => -1
  | Color.b => 1

/-- The pawn start row `startRow = color === 'w' ? 6 : 1`. -/
def startRow : Color → Int
  | Color.w => 6
  | Color.b => 1

/-- The helper `tryAdd(tr, tc)`: the moves it pushes. -/
def tryAdd (b : Board) (color : Color) (tr tc : Int) : List Move :=
  if inBounds tr tc then
    match b.get tr tc with
    | none => [Move.plain tr tc]
    | some target => if target.color ≠ color then [Move.plain tr tc] else []
  else []

/-- The `while` loop of `slide(dr, dc)`, from the current `(tr, tc)`. -/
def slideLoop (b : Board) (color : Color) (dr dc : Int) : Nat → Int → Int → List Move
  | 0, _, _ => []
  | fuel + 1, tr, tc =>
    if inBounds tr tc then
      match b.get tr tc with
      | none => Move.plain tr tc :: slideLoop b color dr dc fuel (tr + dr) (tc + dc)
      | some target => if target.color ≠ color then [Move.plain tr tc] else []
    else []

/-- The helper `slide(dr, dc)`: the moves it pushes. -/
def slide (b : Board) (color : Color) (r c dr dc : Int) : List Move :=
  slideLoop b color dr dc 8 (r + dr) (c + dc)

def knightOffsets : List (Int × Int) :=
  [(-2, -1), (-2, 1), (-1, -2), (-1, 2), (1, -2), (1, 2), (2, -1), (2, 1)]

def bishopDirs : List (Int × Int) := [(-1, -1), (-1, 1), (1, -1), (1, 1)]

def rookDirs : List (Int × Int) := [(-1, 0), (1, 0), (0, -1), (0, 1)]

def queenDirs : List (Int × Int) :=
  [(-1, -1), (-1, 1), (1, -1), (1, 1), (-1, 0), (1, 0), (0, -1), (0, 1)]

def kingOffsets : List (Int × Int) :=
  [(-1, -1), (-1, 0), (-1, 1), (0, -1), (0, 1), (1, -1), (1, 0), (1, 1)]

/-- One iteration of the pawn capture `forEach`, for the offset `(forward, dc)`. -/
def pawnCapture (b : Board) (color : Color) (epTarget : Option Square) (r c dc : Int) :
    List Move :=
  let tr := r + forward color
  let tc := c + dc
  if inBounds tr tc then
    (match b.get tr tc with
      | some target => if target.color ≠ color then [Move.plain tr tc] else []
      | none => []) ++
    (match epTarget with
      | some ep => if tr = ep.r ∧ tc = ep.c then [⟨tr, tc, false, true, none⟩] else []
      | none => [])
  else []

/-- The branch `type === 'p'`.  `boardState[r + forward]` is `undefined` when the
pawn stands on its last rank, and indexing it throws. -/
def pawnMoves (b : Board) (color : Color) (epTarget : Option Square) (r c : Int) :
    Option (List Move) :=
  if inB (r + forward color) then
    some ((if (b.get (r + forward color) c).isNone then
            Move.plain (r + forward color) c ::
              (if r = startRow color ∧ (b.get (r + forward color * 2) c).isNone then
                [⟨r + forward color * 2, c, true, false, none⟩]
              else [])
          else []) ++
      pawnCapture b color epTarget r c (-1) ++ pawnCapture b color epTarget r c 1)
  else none

/-- The castling block of the branch `type === 'k'`. -/
def castleMoves (b : Board) (color : Color) (rights : Option CastlingRights) (r c : Int) :
    List Move :=
  match rights with
  | none => []
  | some rt =>
    (if (rt.get color).kingSide ∧ b.isNull r (c + 1) ∧ b.isNull r (c + 2) then
      [⟨r, c + 2, false, false, some CastleSide.k⟩] else []) ++
    (if (rt.get color).queenSide ∧ b.isNull r (c - 1) ∧ b.isNull r (c - 2) ∧
        b.isNull r (c - 3) then
      [⟨r, c - 2, false, false, some CastleSide.q⟩] else [])

/-- The function `getGeometryMoves(boardState, r, c, piece, rights, epTarget)`, for a
square `(r, c)` of the board; `none` when it throws. -/
def getGeometryMoves (b : Board) (r c : Int) (piece : Piece)
    (rights : Option CastlingRights) (epTarget : Option Square) : Option (List Move) :=
  match piece.kind with
  | Kind.p => pawnMoves b piece.color epTarget r c
  | Kind.n => some (knightOffsets.flatMap fun d => tryAdd b piece.color (r + d.1) (c + d.2))
  | Kind.b => some (bishopDirs.flatMap fun d => slide b piece.color r c d.1 d.2)
  | Kind.r => some (rookDirs.flatMap fun d => slide b piece.color r c d.1 d.2)
  | Kind.q => some (queenDirs.flatMap fun d => slide b piece.color r c d.1 d.2)
  | Kind.k => some ((kingOffsets.flatMap fun d => tryAdd b piece.color (r + d.1) (c + d.2)) ++
      castleMoves b piece.color rights r c)

/-! ## Attack detector (`isKingInCheck`) -/

/-- The inner `for` loop of the king search: the first column of row `r` that holds
the king of `kingColor` (the `break` leaves this loop only). -/
def kingInRow (b : Board) (kingColor : Color) (r : Int) : Option Int :=
  ([0, 1, 2, 3, 4, 5, 6, 7] : List Int).find? fun c => b.get r c = some ⟨Kind.k, kingColor⟩

/-- The king search of `isKingInCheck`: the outer loop goes on after a hit, so the
last row that holds a king decides `(kR, kC)`; `none` is `kR === undefined`. -/
def locateKing (b : Board) (kingColor : Color) : Option Square :=
  ([0, 1, 2, 3, 4, 5, 6, 7] : List Int).foldl
    (fun acc r => match kingInRow b kingColor r with
      | some c => some ⟨r, c⟩
      | none => acc) none

/-- The test `p && getPieceColor(p) === opponent && p.toLowerCase() === kind`. -/
def isEnemy (cell : Cell) (opponent : Color) (kind : Kind) : Bool :=
  match cell with
  | some p => decide (p.color = opponent) && decide (p.kind = kind)
  | none => false

/-- The `while` loop of a sliding probe, from the current `(tr, tc)`: `true` when
the first occupied square holds an enemy piece of kind `k1` or `k2`. -/
def rayLoop (b : Board) (opponent : Color) (k1 k2 : Kind) (dr dc : Int) :
    Nat → Int → Int → Bool
  | 0, _, _ => false
  | fuel + 1, tr, tc =>
    if inBounds tr tc then
      match b.get tr tc with
      | some p => decide (p.color = opponent) && (decide (p.kind = k1) || decide (p.kind = k2))
      | none => rayLoop b opponent k1 k2 dr dc fuel (tr + dr) (tc + dc)
    else false

/-- The attack probes of `isKingInCheck` from the king square `(kR, kC)`. -/
def attackedAt (b : Board) (kingColor : Color) (kR kC : Int) : Bool :=
  let opponent := kingColor.other
  (knightOffsets.any fun m =>
      inBounds (kR + m.1) (kC + m.2) && isEnemy (b.get (kR + m.1) (kC + m.2)) opponent Kind.n) ||
  (rookDirs.any fun m =>
      rayLoop b opponent Kind.r Kind.q m.1 m.2 8 (kR + m.1) (kC + m.2)) ||
  (bishopDirs.any fun m =>
      rayLoop b opponent Kind.b Kind.q m.1 m.2 8 (kR + m.1) (kC + m.2)) ||
  (inB (kR - forward kingColor) &&
      (isEnemy (b.get (kR - forward kingColor) (kC - 1)) opponent Kind.p ||
       isEnemy (b.get (kR - forward kingColor) (kC + 1)) opponent Kind.p)) ||
  (kingOffsets.any fun m =>
      inBounds (kR + m.1) (kC + m.2) && isEnemy (b.get (kR + m.1) (kC + m.2)) opponent Kind.k)

/-- The function `isKingInCheck(currentBoard, kingColor)`. -/
def isKingInCheck (b : Board) (kingColor : Color) : Bool :=
  match locateKing b kingColor with
  | none => true
  | some k => attackedAt b kingColor k.r k.c

/-! ## Legality filter (`getValidMoves`) -/

/-- The hypothetical board of the self-check filter. -/
def tempBoard (b : Board) (r c : Int) (piece : Piece) (move : Move) : Board :=
  let t := (b.set move.r move.c (some piece)).set r c none
  if move.isEnPassant then t.set r move.c none else t

/-- The hypothetical board of the castling filter: the king one step along the row. -/
def pathBoard (b : Board) (r c : Int) (piece : Piece) (side : CastleSide) : Board :=
  let dir : Int := if side = CastleSide.k then 1 else -1
  (b.set r (c + dir) (some piece)).set r c none

/-- The predicate of the castling-safety `filter`. -/
def castleSafe (b : Board) (r c : Int) (piece : Piece) (activeColor : Color) (move : Move) :
    Bool :=
  match move.isCastle with
  | none => true
  | some side =>
    if isKingInCheck b activeColor then false
    else if isKingInCheck (pathBoard b r c piece side) activeColor then false
    else true

/-- The function `getValidMoves(r, c, checkCastlingSafety, currentBoard, activeColor)`;
`castlingRights` and `enPassantTarget` are the state cells it closes over. -/
def getValidMoves (castlingRights : CastlingRights) (enPassantTarget : Option Square)
    (r c : Int) (checkCastlingSafety : Bool) (currentBoard : Board) (activeColor : Color) :
    Option (List Move) :=
  match currentBoard.get r c with
  | none => some []
  | some piece =>
    match getGeometryMoves currentBoard r c piece (some castlingRights) enPassantTarget with
    | none => none
    | some moves =>
      let moves := moves.filter fun move =>
        !isKingInCheck (tempBoard currentBoard r c piece move) activeColor
      if checkCastlingSafety ∧ piece.kind = Kind.k then
        some (moves.filter fun move => castleSafe currentBoard r c piece activeColor move)
      else some moves

/-- Row-major list of the 64 squares (the nested `for` loops over `r` and `c`). -/
def allSquares : List (Int × Int) :=
  ([0, 1, 2, 3, 4, 5, 6, 7] : List Int).flatMap fun r =>
    ([0, 1, 2, 3, 4, 5, 6, 7] : List Int).map fun c => (r, c)

/-- The helper `hasAnyValidMoves(currentBoard, color)`, on the squares still to scan;
`none` when a call of `getValidMoves` throws before a piece with a move is found. -/
def hasAnyValidMovesFrom (castlingRights : CastlingRights) (enPassantTarget : Option Square)
    (currentBoard : Board) (color : Color) : List (Int × Int) → Option Bool
  | [] => some false
  | (r, c) :: rest =>
    match currentBoard.get r c with
    | none => hasAnyValidMovesFrom castlingRights enPassantTarget currentBoard color rest
    | some p =>
      if p.color = color then
        match getValidMoves castlingRights enPassantTarget r c true currentBoard color with
        | none => none
        | some moves =>
          if moves.length > 0 then some true
          else hasAnyValidMovesFrom castlingRights enPassantTarget currentBoard color rest
      else hasAnyValidMovesFrom castlingRights enPassantTarget currentBoard color rest

/-- The helper `hasAnyValidMoves(currentBoard, color)`. -/
def hasAnyValidMoves (castlingRights : CastlingRights) (enPassantTarget : Option Square)
    (currentBoard : Board) (color : Color) : Option Bool :=
  hasAnyValidMovesFrom castlingRights enPassantTarget currentBoard color allSquares

/-- The helper `findKing(b, color)`: the first king in row-major order, or `null`. -/
def findKing (b : Board) (color : Color) : Option Square :=
  (allSquares.find? fun s => b.get s.1 s.2 = some ⟨Kind.k, color⟩).map fun s => ⟨s.1, s.2⟩

/-! ## Move executor and state machine -/

/-- The values of `gameState`. -/
inductive GameStatus where
  | playing
  | checkmate
  | stalemate
  | draw
deriving DecidableEq, Repr

/-- The `promotionSquare` object `{r, c, moveStr}`. -/
structure Promotion where
  r : Int
  c : Int
  moveStr : String
deriving DecidableEq, Repr

/-- The `useState` cells of the component. -/
structure State where
  board : Board
  turn : Color
  selected : Option Square
  validMoves : List Move
  history : List String
  gameState : GameStatus
  checkPos : Option Square
  promotionSquare : Option Promotion
  castlingRights : CastlingRights
  enPassantTarget : Option Square

/-- The state of the first render. -/
def State.initial : State :=
  { board := INITIAL_BOARD, turn := Color.w, selected := none, validMoves := [],
    history := [], gameState := GameStatus.playing, checkPos := none,
    promotionSquare := none, castlingRights := CastlingRights.all,
    enPassantTarget := none }

/-- Upper-case piece letter, `piece.toUpperCase()`. -/
def Kind.upper : Kind → String
  | Kind.p => "P"
  | Kind.n => "N"
  | Kind.b => "B"
  | Kind.r => "R"
  | Kind.q => "Q"
  | Kind.k => "K"

/-- File letter `"abcdefgh"[c]`. -/
def fileLetter (c : Int) : String :=
  match c with
  | 0 => "a"
  | 1 => "b"
  | 2 => "c"
  | 3 => "d"
  | 4 => "e"
  | 5 => "f"
  | 6 => "g"
  | 7 => "h"
  | _ => "undefined"

/-- Assignment `newRights[color].kingSide = false`. -/
def CastlingRights.clearKing (rt : CastlingRights) : Color → CastlingRights
  | Color.w => { rt with w := { rt.w with kingSide := false } }
  | Color.b => { rt with b := { rt.b with kingSide := false } }

/-- Assignment `newRights[color].queenSide = false`. -/
def CastlingRights.clearQueen (rt : CastlingRights) : Color → CastlingRights
  | Color.w => { rt with w := { rt.w with queenSide := false } }
  | Color.b => { rt with b := { rt.b with queenSide := false } }

/-- The board computed by `executeMove` (`newBoard`). -/
def moveBoard (board : Board) (startR startC : Int) (piece : Piece) (move : Move) : Board :=
  let b1 := (board.set move.r move.c (some piece)).set startR startC none
  let b2 := if move.isEnPassant then b1.set startR move.c none else b1
  match move.isCastle with
  | none => b2
  | some CastleSide.k => (b2.set startR 5 (b2.get startR 7)).set startR 7 none
  | some CastleSide.q => (b2.set startR 3 (b2.get startR 0)).set startR 0 none

/-- The notation string computed by `executeMove` (`moveStr`). -/
def moveNotation (board : Board) (startC : Int) (piece : Piece) (move : Move) : String :=
  let s0 := if piece.kind = Kind.p then "" else piece.kind.upper
  let s1 := if (board.get move.r move.c).isSome ∨ move.isEnPassant then
      (if piece.kind = Kind.p then fileLetter startC ++ "x" else s0 ++ "x")
    else s0
  let s2 := s1 ++ (fileLetter move.c ++ toString (8 - move.r))
  let s3 := if move.isEnPassant then s2 ++ " e.p." else s2
  match move.isCastle with
  | none => s3
  | some CastleSide.k => "O-O"
  | some CastleSide.q => "O-O-O"

/-- The castling rights computed by `executeMove` (`newRights`). -/
def moveRights (board : Board) (turn : Color) (rights : CastlingRights) (startC : Int)
    (piece : Piece) (move : Move) : CastlingRights :=
  let r1 := if piece.kind = Kind.k then (rights.clearKing turn).clearQueen turn else rights
  let r2 := if piece.kind = Kind.r then
      (let a := if startC = 0 then r1.clearQueen turn else r1
       if startC = 7 then a.clearKing turn else a)
    else r1
  match board.get move.r move.c with
  | some capturedPiece =>
    if capturedPiece.kind = Kind.r then
      let a := if move.r = 0 ∧ move.c = 0 then r2.clearQueen Color.b else r2
      let a := if move.r = 0 ∧ move.c = 7 then a.clearKing Color.b else a
      let a := if move.r = 7 ∧ move.c = 0 then a.clearQueen Color.w else a
      if move.r = 7 ∧ move.c = 7 then a.clearKing Color.w else a
    else r2
  | none => r2

/-- The en-passant target computed by `executeMove` (`newEpTarget`). -/
def moveEpTarget (turn : Color) (move : Move) : Option Square :=
  if move.isDoublePush then
    some ⟨if turn = Color.w then move.r + 1 else move.r - 1, move.c⟩
  else none

/-- The function `finalizeMove(newBoard, nextTurn, epTarget, rights, moveStr)`. -/
def finalizeMove (s : State) (newBoard : Board) (nextTurn : Color) (epTarget : Option Square)
    (rights : CastlingRights) (moveStr : String) : State :=
  let inCheck := isKingInCheck newBoard nextTurn
  { s with
    board := newBoard
    turn := nextTurn
    enPassantTarget := epTarget
    castlingRights := rights
    history := s.history ++ [if inCheck then moveStr ++ "+" else moveStr]
    selected := none
    validMoves := []
    checkPos := if inCheck then findKing newBoard nextTurn else none }

/-- The function `executeMove(startR, startC, move)`; `none` when the start square is
empty (`piece.toUpperCase()` throws). -/
def executeMove (s : State) (startR startC : Int) (move : Move) : Option State :=
  match s.board.get startR startC with
  | none => none
  | some piece =>
    let newBoard := moveBoard s.board startR startC piece move
    let moveStr := moveNotation s.board startC piece move
    let newRights := moveRights s.board s.turn s.castlingRights startC piece move
    let newEpTarget := moveEpTarget s.turn move
    if piece.kind = Kind.p ∧ (move.r = 0 ∨ move.r = 7) then
      some { s with
        board := newBoard
        promotionSquare := some ⟨move.r, move.c, moveStr⟩
        validMoves := []
        selected := none
        enPassantTarget := newEpTarget
        castlingRights := newRights }
    else
      some (finalizeMove s newBoard s.turn.other newEpTarget newRights moveStr)

/-- The function `handlePromotion(type)`; `none` when no promotion is pending
(destructuring `null` throws). -/
def handlePromotion (s : State) (type : Kind) : Option State :=
  match s.promotionSquare with
  | none => none
  | some pr =>
    let newBoard := s.board.set pr.r pr.c (some ⟨type, s.turn⟩)
    some { finalizeMove s newBoard s.turn.other s.enPassantTarget s.castlingRights
            (pr.moveStr ++ "=" ++ type.upper) with promotionSquare := none }

/-- The game-over `useEffect` on `[board, turn]`; `none` when `hasAnyValidMoves` throws. -/
def gameOverCheck (s : State) : Option State :=
  if isKingInCheck s.board s.turn then
    match hasAnyValidMoves s.castlingRights s.enPassantTarget s.board s.turn with
    | none => none
    | some false => some { s with gameState := GameStatus.checkmate }
    | some true => some { s with checkPos := findKing s.board s.turn }
  else
    match hasAnyValidMoves s.castlingRights s.enPassantTarget s.board s.turn with
    | none => none
    | some false => some { s with checkPos := none, gameState := GameStatus.stalemate }
    | some true => some { s with checkPos := none }

/-- The handler `handleSquareClick(r, c)`; `none` when a call inside it throws. -/
def handleSquareClick (s : State) (r c : Int) : Option State :=
  if s.gameState ≠ GameStatus.playing ∨ s.promotionSquare.isSome then some s
  else
    match s.selected, s.validMoves.find? (fun m => decide (m.r = r) && decide (m.c = c)) with
    | some sel, some move => executeMove s sel.r sel.c move
    | _, _ =>
      match s.board.get r c with
      | some piece =>
        if piece.color = s.turn then
          (getValidMoves s.castlingRights s.enPassantTarget r c true s.board s.turn).map
            fun moves => { s with selected := some ⟨r, c⟩, validMoves := moves }
        else some { s with selected := none, validMoves := [] }
      | none => some { s with selected := none, validMoves := [] }

/-- The handler `restart()`. -/
def restart (s : State) : State :=
  { s with board := INITIAL_BOARD, turn := Color.w, history := [],
           gameState := GameStatus.playing, castlingRights := CastlingRights.all }

/-! ## Legal play -/

/-- Number of kings of a colour on the board. -/
def kingCount (b : Board) (color : Color) : Nat :=
  (allSquares.filter fun s => b.get s.1 s.2 = some ⟨Kind.k, color⟩).length

/-- The promotion kinds offered by the modal, `['q', 'r', 'b', 'n']`. -/
def promotionKinds : List Kind := [Kind.q, Kind.r, Kind.b, Kind.n]

/-- One half-move of legal play, as a computation: the piece on `(r, c)` belongs to
the side to move, `move` is among its valid moves, `executeMove` runs, and when
a promotion is pending `handlePromotion` runs with the kind `promo`. -/
def playMove (s : State) (r c : Int) (move : Move) (promo : Kind) : Option State :=
  match s.board.get r c with
  | none => none
  | some piece =>
    if piece.color = s.turn then
      match getValidMoves s.castlingRights s.enPassantTarget r c true s.board s.turn with
      | none => none
      | some moves =>
        if move ∈ moves then
          match executeMove s r c move with
          | none => none
          | some s1 =>
            if s1.promotionSquare.isSome then
              (if promo ∈ promotionKinds then handlePromotion s1 promo else none)
            else some s1
        else none
    else none

/-- A sequence of half-moves of legal play. -/
def playAll (s : State) : List (Int × Int × Move × Kind) → Option State
  | [] => some s
  | (r, c, move, promo) :: rest =>
    match playMove s r c move promo with
    | none => none
    | some s1 => playAll s1 rest

/-- States reachable from the initial state by legal play. -/
inductive Reachable : State → Prop where
  | init : Reachable State.initial
  | step (s s1 : State) (r c : Int) (move : Move) (promo : Kind) :
      Reachable s → playMove s r c move promo = some s1 → Reachable s1

/-- Sum, over the pieces of `color`, of the number of moves `getValidMoves` returns;
`none` when a call throws. -/
def countValidMoves (castlingRights : CastlingRights) (enPassantTarget : Option Square)
    (b : Board) (color : Color) : List (Int × Int) → Option Nat
  | [] => some 0
  | (r, c) :: rest =>
    match b.get r c with
    | none => countValidMoves castlingRights enPassantTarget b color rest
    | some p =>
      if p.color = color then
        match getValidMoves castlingRights enPassantTarget r c true b color,
            countValidMoves castlingRights enPassantTarget b color rest with
        | some moves, some n => some (moves.length + n)
        | _, _ => none
      else countValidMoves castlingRights enPassantTarget b color rest

/-! ## Sample positions and games -/

/-- The game 1.e4 d5 2.Ke2 d4 3.Ke3 dxe3, as clicks of legal play. -/
def kingHunt : List (Int × Int × Move × Kind) :=
  [ (6, 4, Move.doublePush 4 4, Kind.q),
    (1, 3, Move.doublePush 3 3, Kind.q),
    (7, 4, Move.plain 6 4, Kind.q),
    (3, 3, Move.plain 4 3, Kind.q),
    (6, 4, Move.plain 5 4, Kind.q),
    (4, 3, Move.plain 5 4, Kind.q) ]

/-- The game 1.f3 e5 2.g4 Qh4. -/
def foolsMate : List (Int × Int × Move × Kind) :=
  [ (6, 5, Move.plain 5 5, Kind.q),
    (1, 4, Move.doublePush 3 4, Kind.q),
    (6, 6, Move.doublePush 4 6, Kind.q),
    (0, 3, Move.plain 4 7, Kind.q) ]

/-- White king on e1, black pawn on d2 (it attacks e1), black king on e8. -/
def pawnCheckBoard : Board := Board.ofRows
  [ [none, none, none, none, bK, none, none, none],
    [none, none, none, none, none, none, none, none],
    [none, none, none, none, none, none, none, none],
    [none, none, none, none, none, none, none, none],
    [none, none, none, none, none, none, none, none],
    [none, none, none, none, none, none, none, none],
    [none, none, none, bP, none, none, none, none],
    [none, none, none, none, wK, none, none, none] ]

/-- The position after 1.e4 a6 2.e5: black to move, white pawn on e5. -/
def epState : State :=
  { board := Board.ofRows
      [ [bR, bN, bB, bQ, bK, bB, bN, bR],
        [none, bP, bP, bP, bP, bP, bP, bP],
        [bP, none, none, none, none, none, none, none],
        [none, none, none, none, wP, none, none, none],
        [none, none, none, none, none, none, none, none],
        [none, none, none, none, none, none, none, none],
        [wP, wP, wP, wP, none, wP, wP, wP],
        [wR, wN, wB, wQ, wK, wB, wN, wR] ],
    turn := Color.b, selected := none, validMoves := [], history := ["e4", "a6", "e5"],
    gameState := GameStatus.playing, checkPos := none, promotionSquare := none,
    castlingRights := CastlingRights.all, enPassantTarget := none }

/-- White to move with king and both rooks on their home squares and nothing between. -/
def castleState : State :=
  { board := Board.ofRows
      [ [none, none, none, none, bK, none, none, none],
        [none, none, none, none, none, none, none, none],
        [none, none, none, none, none, none, none, none],
        [none, none, none, none, none, none, none, none],
        [none, none, none, none, none, none, none, none],
        [none, none, none, none, none, none, none, none],
        [none, none, none, none, none, none, none, none],
        [wR, none, none, none, wK, none, none, wR] ],
    turn := Color.w, selected := none, validMoves := [], history := [],
    gameState := GameStatus.playing, checkPos := none, promotionSquare := none,
    castlingRights := ⟨⟨true, true⟩, ⟨false, false⟩⟩, enPassantTarget := none }

/-- White king on e1 with its rook on h1, checked by the black rook on e8. -/
def rookCheckBoard : Board := Board.ofRows
  [ [bK, none, none, none, bR, none, none, none],
    [none, none, none, none, none, none, none, none],
    [none, none, none, none, none, none, none, none],
    [none, none, none, none, none, none, none, none],
    [none, none, none, none, none, none, none, none],
    [none, none, none, none, none, none, none, none],
    [none, none, none, none, none, none, none, none],
    [none, none, none, none, wK, none, none, wR] ]

/-- The game 1.e4 e5 2.Nf3 Nc6 3.Bc4 Bc5, after which white may castle king-side. -/
def castleLine : List (Int × Int × Move × Kind) :=
  [ (6, 4, Move.doublePush 4 4, Kind.q),
    (1, 4, Move.doublePush 3 4, Kind.q),
    (7, 6, Move.plain 5 5, Kind.q),
    (0, 1, Move.plain 2 2, Kind.q),
    (7, 5, Move.plain 4 2, Kind.q),
    (0, 5, Move.plain 3 2, Kind.q) ]

/-- White to move with the king on a1 and a pawn on b7; black queen on c2, black king on
h8.  The only white move is the pawn step to b8. -/
def lonePawnState : State :=
  { board := Board.ofRows
      [ [none, none, none, none, none, none, none, bK],
        [none, wP, none, none, none, none, none, none],
        [none, none, none, none, none, none, none, none],
        [none, none, none, none, none, none, none, none],
        [none, none, none, none, none, none, none, none],
        [none, none, none, none, none, none, none, none],
        [none, none, bQ, none, none, none, none, none],
        [wK, none, none, none, none, none, none, none] ],
    turn := Color.w, selected := none, validMoves := [], history := [],
    gameState := GameStatus.playing, checkPos := none, promotionSquare := none,
    castlingRights := ⟨⟨false, false⟩, ⟨false, false⟩⟩, enPassantTarget := none }

/-! ## Predicates used in the statements -/

/-- Home row of a colour: row 7 (rank 1) for white, row 0 (rank 8) for black. -/
def homeRow : Color → Int
  | Color.w => 7
  | Color.b => 0

/-- The squares strictly between `(r, c)` and `(r, c) + (k + 1) (dr, dc)` lie on the
board and are empty. -/
def clearPath (b : Board) (r c dr dc : Int) (k : Nat) : Prop :=
  ∀ j : Nat, j < k →
    inBounds (r + (j + 1) * dr) (c + (j + 1) * dc) = true ∧
    b.get (r + (j + 1) * dr) (c + (j + 1) * dc) = none

/-- No piece of the side to move has any move in `getValidMoves`: for every such piece
the call returns the empty list. -/
def NoValidMoves (s : State) : Prop :=
  ∀ (r c : Int) (p : Piece),
    s.board.get r c = some p → p.color = s.turn →
    getValidMoves s.castlingRights s.enPassantTarget r c true s.board s.turn = some []

/-- The game state once the game-over effect has run: the value it set, or the previous
value when it set none (also when it threw before reaching a `setGameState`). -/
def gameStateAfterCheck (s : State) : GameStatus :=
  match gameOverCheck s with
  | some s1 => s1.gameState
  | none => s.gameState

/-- Every flag that is true in `a` is true in `b`. -/
def RightsLe (a b : CastlingRights) : Prop :=
  ∀ col : Color, ((a.get col).kingSide = true → (b.get col).kingSide = true) ∧
    ((a.get col).queenSide = true → (b.get col).queenSide = true)

/-- Facts that hold in every state between two half-moves of legal play: no promotion is
pending; a side with a castling right has its king only on its home square; a right of a
side implies that side's rook on the matching corner; an en-passant target lies on row 2
or row 5. -/
structure Inv (s : State) : Prop where
  noPromotion : s.promotionSquare = none
  kingHome : ∀ col : Color,
    ((s.castlingRights.get col).kingSide = true ∨ (s.castlingRights.get col).queenSide = true) →
    ∀ r c : Int, s.board.get r c = some ⟨Kind.k, col⟩ → r = homeRow col ∧ c = 4
  rookKing : ∀ col : Color, (s.castlingRights.get col).kingSide = true →
    s.board.get (homeRow col) 7 = some ⟨Kind.r, col⟩
  rookQueen : ∀ col : Color, (s.castlingRights.get col).queenSide = true →
    s.board.get (homeRow col) 0 = some ⟨Kind.r, col⟩
  epRow : ∀ t : Square, s.enPassantTarget = some t → t.r = 2 ∨ t.r = 5

/-- One step of the engine: a call of `executeMove` or of `handlePromotion` that
returns. -/
inductive EngineStep : State → State → Prop where
  | move (s s1 : State) (r c : Int) (m : Move) :
      executeMove s r c m = some s1 → EngineStep s s1
  | promote (s s1 : State) (kind : Kind) :
      handlePromotion s kind = some s1 → EngineStep s s1

/-- The string ends with the character `+`. -/
def endsWithPlus (str : String) : Bool := str.data.getLast? == some '+'

/-- White to move, white pawn on b7, black king on h8, white king on a1: the pawn step to
b8 gives check only once a queen or rook stands on b8. -/
def promoCheckState : State :=
  { board := Board.ofRows
      [ [none, none, none, none, none, none, none, bK],
        [none, wP, none, none, none, none, none, none],
        [none, none, none, none, none, none, none, none],
        [none, none, none, none, none, none, none, none],
        [none, none, none, none, none, none, none, none],
        [none, none, none, none, none, none, none, none],
        [none, none, none, none, none, none, none, none],
        [wK, none, none, none, none, none, none, none] ],
    turn := Color.w, selected := none, validMoves := [], history := [],
    gameState := GameStatus.playing, checkPos := none, promotionSquare := none,
    castlingRights := ⟨⟨false, false⟩, ⟨false, false⟩⟩, enPassantTarget := none }

/-- An L-offset of the knight: one step along one axis and two along the other. -/
def knightJump (dr dc : Int) : Bool :=
  (decide (dr = 1 ∨ dr = -1) && decide (dc = 2 ∨ dc = -2)) ||
  (decide (dr = 2 ∨ dr = -2) && decide (dc = 1 ∨ dc = -1))

/-- An offset to one of the 8 neighbours of a square. -/
def kingStep (dr dc : Int) : Bool :=
  decide (-1 ≤ dr ∧ dr ≤ 1) && decide (-1 ≤ dc ∧ dc ≤ 1) && !(decide (dr = 0) && decide (dc = 0))

/-- The fixed offsets of a knight or a king, in words; no offset for another kind. -/
def stepOffset : Kind → Int → Int → Bool
  | Kind.n, dr, dc => knightJump dr dc
  | Kind.k, dr, dc => kingStep dr dc
  | _, _, _ => false

/-- A unit step along a row or a column. -/
def orthogonalDir (dr dc : Int) : Bool :=
  (decide (dr = 0) && decide (dc = 1 ∨ dc = -1)) || (decide (dc = 0) && decide (dr = 1 ∨ dr = -1))

/-- A unit step along a diagonal. -/
def diagonalDir (dr dc : Int) : Bool :=
  decide (dr = 1 ∨ dr = -1) && decide (dc = 1 ∨ dc = -1)

/-- The ray directions of a sliding piece, in words: orthogonal for a rook, diagonal for a
bishop, both for a queen; none for another kind. -/
def rayDir : Kind → Int → Int → Bool
  | Kind.r, dr, dc => orthogonalDir dr dc
  | Kind.b, dr, dc => diagonalDir dr dc
  | Kind.q, dr, dc => orthogonalDir dr dc || diagonalDir dr dc
  | _, _, _ => false

/-- The file letter of column `c`, read off the string `abcdefgh`. -/
def specFile (c : Int) : String := String.singleton ("abcdefgh".data.getD c.toNat '?')

/-- The rank digit `8 - r` as one character. -/
def specRank (r : Int) : String := String.singleton (Char.ofNat (48 + (8 - r).toNat))

/-- The upper-case piece letter, empty for a pawn. -/
def specLetter : Kind → String
  | Kind.p => ""
  | Kind.n => "N"
  | Kind.b => "B"
  | Kind.r => "R"
  | Kind.q => "Q"
  | Kind.k => "K"

/-- The notation of a move from column `c0`, in the words of the specification: for a
castle `O-O` or `O-O-O`; otherwise the piece letter, the capture mark (for a pawn the
origin file and `x`), the destination file and rank, and the en-passant suffix.
`occupied` says whether the destination held a piece before the move. -/
def specMoveStr (occupied : Bool) (c0 : Int) (kind : Kind) (m : Move) : String :=
  match m.isCastle with
  | some CastleSide.k => "O-O"
  | some CastleSide.q => "O-O-O"
  | none =>
    let capture := occupied || m.isEnPassant
    let lead :=
      if kind = Kind.p then (if capture then specFile c0 ++ "x" else "")
      else (if capture then specLetter kind ++ "x" else specLetter kind)
    let dest := specFile m.c ++ specRank m.r
    if m.isEnPassant then lead ++ dest ++ " e.p." else lead ++ dest

/-- The game 1.a4 b5 2.axb5 a6 3.bxa6 h6 4.a7 h5, after which the white pawn on a7 may
capture the knight on b8. -/
def promotionRun : List (Int × Int × Move × Kind) :=
  [ (6, 0, Move.doublePush 4 0, Kind.q),
    (1, 1, Move.doublePush 3 1, Kind.q),
    (4, 0, Move.plain 3 1, Kind.q),
    (1, 0, Move.plain 2 0, Kind.q),
    (3, 1, Move.plain 2 0, Kind.q),
    (1, 7, Move.plain 2 7, Kind.q),
    (2, 0, Move.plain 1 0, Kind.q),
    (2, 7, Move.plain 3 7, Kind.q) ]

/-- The game 1.h4 a6 2.Rh3 a5 3.Ra3 b6: the white rook from h1 stands on a3, the white
king and the rook on a1 have not moved. -/
def rookWander : List (Int × Int × Move × Kind) :=
  [ (6, 7, Move.doublePush 4 7, Kind.q),
    (1, 0, Move.plain 2 0, Kind.q),
    (7, 7, Move.plain 5 7, Kind.q),
    (2, 0, Move.plain 3 0, Kind.q),
    (5, 7, Move.plain 5 0, Kind.q),
    (1, 1, Move.plain 2 1, Kind.q) ]

/-- White king missing; a white pawn on b8 and a white knight on g1, black king on e8. -/
def kinglessBoard : Board := Board.ofRows
  [ [none, wP, none, none, bK, none, none, none],
    [none, none, none, none, none, none, none, none],
    [none, none, none, none, none, none, none, none],
    [none, none, none, none, none, none, none, none],
    [none, none, none, none, none, none, none, none],
    [none, none, none, none, none, none, none, none],
    [none, none, none, none, none, none, none, none],
    [none, none, none, none, none, none, wN, none] ]

/-- No pawn stands on the last rank of its colour, the row from which `r + forward`
leaves the board. -/
def NoLastRankPawn (b : Board) : Prop :=
  ∀ (r c : Int) (p : Piece), b.get r c = some p → p.kind = Kind.p →
    inB (r + forward p.color) = true

/-- States the application passes through in legal play: the states between two
half-moves, and the states left by `executeMove` (among them those awaiting a promotion
choice, on which the game-over effect also runs). -/
inductive Visited : State → Prop where
  | settled (s : State) : Reachable s → Visited s
  | pending (s sA : State) (r c : Int) (piece : Piece) (moves : List Move) (m : Move) :
      Reachable s → s.board.get r c = some piece → piece.color = s.turn →
      getValidMoves s.castlingRights s.enPassantTarget r c true s.board s.turn = some moves →
      m ∈ moves → executeMove s r c m = some sA → Visited sA

/-- White to move on `kinglessBoard`, no castling rights. -/
def kinglessState : State :=
  { board := kinglessBoard, turn := Color.w, selected := none, validMoves := [],
    history := [], gameState := GameStatus.playing, checkPos := none,
    promotionSquare := none, castlingRights := ⟨⟨false, false⟩, ⟨false, false⟩⟩,
    enPassantTarget := none }

/-! ## Basic facts about the board -/

theorem inB_iff (i : Int) : inB i = true ↔ 0 ≤ i ∧ i < 8 := by
  simp [inB]

theorem inBounds_iff (r c : Int) : inBounds r c = true ↔ (0 ≤ r ∧ r < 8) ∧ (0 ≤ c ∧ c < 8) := by
  simp [inBounds, inB_iff]

theorem Board.get_of_not_inBounds (b : Board) (r c : Int) (h : inBounds r c = false) :
    b.get r c = none := by
  have h1 : ¬ ((0 ≤ r ∧ r < 8) ∧ (0 ≤ c ∧ c < 8)) := by
    intro h2
    rw [(inBounds_iff r c).mpr h2] at h
    exact Bool.noConfusion h
  simp only [Board.get, dif_neg h1]

theorem Board.get_set (b : Board) (r c r1 c1 : Int) (v : Cell) :
    (b.set r c v).get r1 c1 =
      if inBounds r1 c1 = true ∧ r1 = r ∧ c1 = c then v else b.get r1 c1 := by
  by_cases h : (0 ≤ r1 ∧ r1 < 8) ∧ (0 ≤ c1 ∧ c1 < 8)
  · have hb : inBounds r1 c1 = true := (inBounds_iff r1 c1).mpr h
    have e1 : ((r1.toNat : Nat) : Int) = r1 := Int.toNat_of_nonneg h.1.1
    have e2 : ((c1.toNat : Nat) : Int) = c1 := Int.toNat_of_nonneg h.2.1
    simp only [Board.get, dif_pos h, Board.set, e1, e2, hb, true_and]
  · have hb : inBounds r1 c1 = false := by
      cases hx : inBounds r1 c1
      · rfl
      · exact absurd ((inBounds_iff r1 c1).mp hx) h
    simp [Board.get, dif_neg h, hb]

theorem Board.get_set_same (b : Board) (r c : Int) (v : Cell) (h : inBounds r c = true) :
    (b.set r c v).get r c = v := by
  simp [Board.get_set, h]

theorem Board.get_set_ne (b : Board) (r c r1 c1 : Int) (v : Cell) (h : ¬ (r1 = r ∧ c1 = c)) :
    (b.set r c v).get r1 c1 = b.get r1 c1 := by
  rw [Board.get_set]
  exact if_neg fun h1 => h h1.2

theorem Board.ext_get (b1 b2 : Board)
    (h : ∀ r c : Int, inBounds r c = true → b1.get r c = b2.get r c) : b1 = b2 := by
  funext i j
  have hi := i.isLt
  have hj := j.isLt
  have hb : (0 ≤ (i.val : Int) ∧ (i.val : Int) < 8) ∧ (0 ≤ (j.val : Int) ∧ (j.val : Int) < 8) := by
    omega
  have := h i.val j.val ((inBounds_iff _ _).mpr hb)
  simpa [Board.get, dif_pos hb] using this

/-! ## Legal play reaches every state of a played sequence -/

theorem playAll_reachable (l : List (Int × Int × Move × Kind)) :
    ∀ s s1 : State, Reachable s → playAll s l = some s1 → Reachable s1 := by
  induction l with
  | nil =>
    intro s s1 hs h
    simp only [playAll, Option.some.injEq] at h
    exact h ▸ hs
  | cons x rest ih =>
    intro s s1 hs h
    obtain ⟨r, c, move, promo⟩ := x
    simp only [playAll] at h
    cases hp : playMove s r c move promo with
    | none => simp [hp] at h
    | some s2 =>
      simp only [hp] at h
      exact ih s2 s1 (Reachable.step s s2 r c move promo hs hp) h

/-! ## Concrete evaluations -/

/-- C5: on `INITIAL_BOARD` with all castling rights and no en-passant target, the moves
returned by `getValidMoves` for the white pieces number 20 in total, and those for
the black pieces number 20 in total. -/
theorem C5_initial_twenty_moves :
    countValidMoves CastlingRights.all none INITIAL_BOARD Color.w allSquares = some 20 ∧
    countValidMoves CastlingRights.all none INITIAL_BOARD Color.b allSquares = some 20 := by
  decide!

/-- C1 (failing input): the legal-play sequence 1.e4 d5 2.Ke2 d4 3.Ke3 dxe3 reaches a
state whose board holds no white king: the pawn on d4 attacks e3, `isKingInCheck`
does not see it, and the pawn then captures the king. -/
theorem C1_king_captured :
    ∃ s : State, playAll State.initial kingHunt = some s ∧ Reachable s ∧
      kingCount s.board Color.w = 0 ∧ kingCount s.board Color.b = 1 := by
  have h : ((playAll State.initial kingHunt).map fun s =>
      (kingCount s.board Color.w, kingCount s.board Color.b)) = some (0, 1) := by decide!
  cases hp : playAll State.initial kingHunt with
  | none => simp [hp] at h
  | some s =>
    simp only [hp, Option.map_some', Option.some.injEq, Prod.mk.injEq] at h
    exact ⟨s, rfl, playAll_reachable kingHunt State.initial s Reachable.init hp, h.1, h.2⟩

/-- C3 (failing input): on `pawnCheckBoard` the black pawn on d2 stands one row before
the white king on e1 in its own direction of travel and one column to the left, so
its diagonal capture lands on the king (the capture is among its geometry moves),
yet `isKingInCheck` answers `false` for white. -/
theorem C3_pawn_attack_missed :
    kingCount pawnCheckBoard Color.w = 1 ∧
    pawnCheckBoard.get 7 4 = some ⟨Kind.k, Color.w⟩ ∧
    pawnCheckBoard.get 6 3 = some ⟨Kind.p, Color.b⟩ ∧
    (6 + forward Color.b = 7 ∧ (3 : Int) + 1 = 4) ∧
    (getGeometryMoves pawnCheckBoard 6 3 ⟨Kind.p, Color.b⟩ none none).map
      (fun l => decide (Move.plain 7 4 ∈ l)) = some true ∧
    isKingInCheck pawnCheckBoard Color.w = false := by
  decide!

/-! ## What the geometry generator returns -/

theorem mem_tryAdd (b : Board) (color : Color) (tr tc : Int) (m : Move) :
    m ∈ tryAdd b color tr tc ↔
      m = Move.plain tr tc ∧ inBounds tr tc = true ∧
        ∀ t, b.get tr tc = some t → t.color ≠ color := by
  unfold tryAdd
  by_cases hb : inBounds tr tc = true
  · cases hg : b.get tr tc with
    | none => simp [hb]
    | some t =>
      by_cases hc : t.color = color
      · simp [hb, hc]
      · simp [hb, hc]
  · simp [hb]

theorem clearPath_zero (b : Board) (r c dr dc : Int) : clearPath b r c dr dc 0 := by
  intro j hj
  omega

theorem clearPath_succ (b : Board) (r c dr dc : Int) (k : Nat) :
    clearPath b r c dr dc (k + 1) ↔
      (inBounds (r + dr) (c + dc) = true ∧ b.get (r + dr) (c + dc) = none) ∧
        clearPath b (r + dr) (c + dc) dr dc k := by
  constructor
  · intro h
    refine ⟨?_, ?_⟩
    · have := h 0 (by omega)
      simpa using this
    · intro j hj
      have := h (j + 1) (by omega)
      have e1 : r + dr + ((j : Int) + 1) * dr = r + (((j + 1 : Nat) : Int) + 1) * dr := by
        push_cast; ring
      have e2 : c + dc + ((j : Int) + 1) * dc = c + (((j + 1 : Nat) : Int) + 1) * dc := by
        push_cast; ring
      rw [e1, e2]
      exact this
  · rintro ⟨h0, h⟩ j hj
    cases j with
    | zero => simpa using h0
    | succ i =>
      have := h i (by omega)
      have e1 : r + dr + ((i : Int) + 1) * dr = r + (((i + 1 : Nat) : Int) + 1) * dr := by
        push_cast; ring
      have e2 : c + dc + ((i : Int) + 1) * dc = c + (((i + 1 : Nat) : Int) + 1) * dc := by
        push_cast; ring
      rw [e1, e2] at this
      exact this

theorem mem_slideLoop (b : Board) (color : Color) (dr dc : Int) (m : Move) :
    ∀ (n : Nat) (r c : Int),
      m ∈ slideLoop b color dr dc n (r + dr) (c + dc) ↔
        ∃ k : Nat, k < n ∧ m = Move.plain (r + (k + 1) * dr) (c + (k + 1) * dc) ∧
          clearPath b r c dr dc k ∧
          inBounds (r + (k + 1) * dr) (c + (k + 1) * dc) = true ∧
          ∀ t, b.get (r + (k + 1) * dr) (c + (k + 1) * dc) = some t → t.color ≠ color := by
  intro n
  induction n with
  | zero =>
    intro r c
    simp [slideLoop]
  | succ n ih =>
    intro r c
    unfold slideLoop
    by_cases hb : inBounds (r + dr) (c + dc) = true
    · cases hg : b.get (r + dr) (c + dc) with
      | none =>
        simp only [hb, if_true, List.mem_cons]
        rw [ih (r + dr) (c + dc)]
        constructor
        · rintro (h | ⟨k, hk, hm, hcl, hin, ht⟩)
          · refine ⟨0, by omega, ?_, clearPath_zero b r c dr dc, ?_, ?_⟩
            · simpa using h
            · simpa using hb
            · intro t ht
              simp [hg] at ht
          · refine ⟨k + 1, by omega, ?_, ?_, ?_, ?_⟩
            · rw [hm]; congr 1 <;> (push_cast; ring)
            · exact (clearPath_succ b r c dr dc k).mpr ⟨⟨hb, hg⟩, hcl⟩
            · have e1 : r + (((k + 1 : Nat) : Int) + 1) * dr = r + dr + ((k : Int) + 1) * dr := by
                push_cast; ring
              have e2 : c + (((k + 1 : Nat) : Int) + 1) * dc = c + dc + ((k : Int) + 1) * dc := by
                push_cast; ring
              rw [e1, e2]; exact hin
            · have e1 : r + (((k + 1 : Nat) : Int) + 1) * dr = r + dr + ((k : Int) + 1) * dr := by
                push_cast; ring
              have e2 : c + (((k + 1 : Nat) : Int) + 1) * dc = c + dc + ((k : Int) + 1) * dc := by
                push_cast; ring
              rw [e1, e2]; exact ht
        · rintro ⟨k, hk, hm, hcl, hin, ht⟩
          cases k with
          | zero =>
            left
            simpa using hm
          | succ k =>
            right
            have e1 : r + (((k + 1 : Nat) : Int) + 1) * dr = r + dr + ((k : Int) + 1) * dr := by
              push_cast; ring
            have e2 : c + (((k + 1 : Nat) : Int) + 1) * dc = c + dc + ((k : Int) + 1) * dc := by
              push_cast; ring
            rw [e1, e2] at hm hin ht
            exact ⟨k, by omega, hm, ((clearPath_succ b r c dr dc k).mp hcl).2, hin, ht⟩
      | some t =>
        simp only [hb, if_true]
        constructor
        · intro h
          have hc : t.color ≠ color := by
            by_contra hc
            simp [hc] at h
          have hm : m = Move.plain (r + dr) (c + dc) := by
            simpa [hc] using h
          refine ⟨0, by omega, by simpa using hm, clearPath_zero b r c dr dc, by simpa using hb, ?_⟩
          intro t1 ht1
          simp only [Nat.cast_zero, zero_add, one_mul] at ht1
          rw [hg] at ht1
          cases ht1
          exact hc
        · rintro ⟨k, hk, hm, hcl, hin, ht⟩
          cases k with
          | zero =>
            simp only [Nat.cast_zero, zero_add, one_mul] at hm ht
            have hc := ht t hg
            simp [hc, hm]
          | succ k =>
            have := ((clearPath_succ b r c dr dc k).mp hcl).1.2
            rw [hg] at this
            cases this
    · simp only [hb]
      constructor
      · intro h
        simp at h
      · rintro ⟨k, hk, hm, hcl, hin, ht⟩
        cases k with
        | zero =>
          simp only [Nat.cast_zero, zero_add, one_mul] at hin
          exact absurd hin hb
        | succ k =>
          exact absurd ((clearPath_succ b r c dr dc k).mp hcl).1.1 hb

theorem rayLoop_eq_true (b : Board) (opponent : Color) (k1 k2 : Kind) (dr dc : Int) :
    ∀ (n : Nat) (r c : Int),
      rayLoop b opponent k1 k2 dr dc n (r + dr) (c + dc) = true ↔
        ∃ k : Nat, k < n ∧ clearPath b r c dr dc k ∧
          inBounds (r + (k + 1) * dr) (c + (k + 1) * dc) = true ∧
          ∃ p, b.get (r + (k + 1) * dr) (c + (k + 1) * dc) = some p ∧
            p.color = opponent ∧ (p.kind = k1 ∨ p.kind = k2) := by
  intro n
  induction n with
  | zero =>
    intro r c
    simp [rayLoop]
  | succ n ih =>
    intro r c
    unfold rayLoop
    by_cases hb : inBounds (r + dr) (c + dc) = true
    · cases hg : b.get (r + dr) (c + dc) with
      | none =>
        simp only [hb, if_true]
        rw [ih (r + dr) (c + dc)]
        constructor
        · rintro ⟨k, hk, hcl, hin, p, hp, hpc, hpk⟩
          have e1 : r + (((k + 1 : Nat) : Int) + 1) * dr = r + dr + ((k : Int) + 1) * dr := by
            push_cast; ring
          have e2 : c + (((k + 1 : Nat) : Int) + 1) * dc = c + dc + ((k : Int) + 1) * dc := by
            push_cast; ring
          refine ⟨k + 1, by omega, (clearPath_succ b r c dr dc k).mpr ⟨⟨hb, hg⟩, hcl⟩, ?_, p, ?_,
            hpc, hpk⟩
          · rw [e1, e2]; exact hin
          · rw [e1, e2]; exact hp
        · rintro ⟨k, hk, hcl, hin, p, hp, hpc, hpk⟩
          cases k with
          | zero =>
            simp only [Nat.cast_zero, zero_add, one_mul] at hp
            rw [hg] at hp
            cases hp
          | succ k =>
            have e1 : r + (((k + 1 : Nat) : Int) + 1) * dr = r + dr + ((k : Int) + 1) * dr := by
              push_cast; ring
            have e2 : c + (((k + 1 : Nat) : Int) + 1) * dc = c + dc + ((k : Int) + 1) * dc := by
              push_cast; ring
            rw [e1, e2] at hin hp
            exact ⟨k, by omega, ((clearPath_succ b r c dr dc k).mp hcl).2, hin, p, hp, hpc, hpk⟩
      | some t =>
        simp only [hb, if_true]
        constructor
        · intro h
          simp only [Bool.and_eq_true, Bool.or_eq_true, decide_eq_true_eq] at h
          exact ⟨0, by omega, clearPath_zero b r c dr dc, by simpa using hb, t, by simpa using hg,
            h.1, h.2⟩
        · rintro ⟨k, hk, hcl, hin, p, hp, hpc, hpk⟩
          cases k with
          | zero =>
            simp only [Nat.cast_zero, zero_add, one_mul] at hp
            rw [hg] at hp
            cases hp
            simp only [Bool.and_eq_true, Bool.or_eq_true, decide_eq_true_eq]
            exact ⟨hpc, hpk⟩
          | succ k =>
            have := ((clearPath_succ b r c dr dc k).mp hcl).1.2
            rw [hg] at this
            cases this
    · simp only [hb]
      constructor
      · intro h
        simp at h
      · rintro ⟨k, hk, hcl, hin, p, hp, hpc, hpk⟩
        cases k with
        | zero =>
          simp only [Nat.cast_zero, zero_add, one_mul] at hin
          exact absurd hin hb
        | succ k =>
          exact absurd ((clearPath_succ b r c dr dc k).mp hcl).1.1 hb

/-- Seen from the far end, a clear path is a clear path in the opposite direction. -/
theorem clearPath_reverse (b : Board) (r c dr dc : Int) (k : Nat)
    (h : clearPath b r c dr dc k) :
    clearPath b (r + (k + 1) * dr) (c + (k + 1) * dc) (-dr) (-dc) k := by
  intro j hj
  have := h (k - 1 - j) (by omega)
  have hc : (((k - 1 - j : Nat)) : Int) = (k : Int) - 1 - j := by omega
  have e1 : r + ((k : Int) + 1) * dr + ((j : Int) + 1) * (-dr)
      = r + ((((k - 1 - j : Nat)) : Int) + 1) * dr := by
    rw [hc]; ring
  have e2 : c + ((k : Int) + 1) * dc + ((j : Int) + 1) * (-dc)
      = c + ((((k - 1 - j : Nat)) : Int) + 1) * dc := by
    rw [hc]; ring
  rw [e1, e2]
  exact this

theorem mem_slide (b : Board) (color : Color) (r c dr dc : Int) (m : Move) :
    m ∈ slide b color r c dr dc ↔
      ∃ k : Nat, k < 8 ∧ m = Move.plain (r + (k + 1) * dr) (c + (k + 1) * dc) ∧
        clearPath b r c dr dc k ∧
        inBounds (r + (k + 1) * dr) (c + (k + 1) * dc) = true ∧
        ∀ t, b.get (r + (k + 1) * dr) (c + (k + 1) * dc) = some t → t.color ≠ color :=
  mem_slideLoop b color dr dc m 8 r c

/-! ## The king search -/

theorem mem_idx8 (i : Int) : i ∈ ([0, 1, 2, 3, 4, 5, 6, 7] : List Int) ↔ 0 ≤ i ∧ i < 8 := by
  simp only [List.mem_cons, List.mem_singleton, List.not_mem_nil, or_false]
  omega

theorem Board.inBounds_of_get (b : Board) (r c : Int) (p : Piece) (h : b.get r c = some p) :
    inBounds r c = true := by
  cases hb : inBounds r c
  · rw [Board.get_of_not_inBounds b r c hb] at h
    cases h
  · rfl

theorem mem_allSquares (r c : Int) : (r, c) ∈ allSquares ↔ inBounds r c = true := by
  simp only [allSquares, List.mem_flatMap, List.mem_map, Prod.mk.injEq, mem_idx8, inBounds_iff]
  constructor
  · rintro ⟨a, ha, x, hx, rfl, rfl⟩
    exact ⟨ha, hx⟩
  · rintro ⟨h1, h2⟩
    exact ⟨r, h1, c, h2, rfl, rfl⟩

theorem kingInRow_some (b : Board) (kingColor : Color) (r c : Int)
    (h : kingInRow b kingColor r = some c) :
    (0 ≤ c ∧ c < 8) ∧ b.get r c = some ⟨Kind.k, kingColor⟩ := by
  unfold kingInRow at h
  refine ⟨(mem_idx8 c).mp (List.mem_of_find?_eq_some h), ?_⟩
  have := List.find?_some h
  simpa using this

theorem kingInRow_none (b : Board) (kingColor : Color) (r : Int) :
    kingInRow b kingColor r = none ↔ ∀ c : Int, b.get r c ≠ some ⟨Kind.k, kingColor⟩ := by
  unfold kingInRow
  rw [List.find?_eq_none]
  constructor
  · intro h c hc
    have hb := Board.inBounds_of_get b r c _ hc
    have := h c ((mem_idx8 c).mpr ((inBounds_iff r c).mp hb).2)
    simp [hc] at this
  · intro h c _
    simpa using h c

theorem locateKing_fold_some (b : Board) (kingColor : Color) (l : List Int) :
    ∀ (acc : Option Square) (s : Square),
      l.foldl (fun acc r => match kingInRow b kingColor r with
        | some c => some ⟨r, c⟩
        | none => acc) acc = some s →
      acc = some s ∨ ∃ r ∈ l, kingInRow b kingColor r = some s.c ∧ s.r = r := by
  induction l with
  | nil =>
    intro acc s h
    left
    simpa using h
  | cons x rest ih =>
    intro acc s h
    simp only [List.foldl_cons] at h
    rcases ih _ s h with h1 | ⟨r, hr, h2⟩
    · cases hx : kingInRow b kingColor x with
      | none =>
        rw [hx] at h1
        left
        exact h1
      | some c =>
        rw [hx] at h1
        simp only [Option.some.injEq] at h1
        right
        refine ⟨x, List.mem_cons_self _ _, ?_, ?_⟩
        · rw [hx, ← h1]
        · rw [← h1]
    · right
      exact ⟨r, List.mem_cons_of_mem _ hr, h2⟩

theorem locateKing_fold_ne_none (b : Board) (kingColor : Color) (l : List Int) :
    ∀ a : Square,
      l.foldl (fun acc r => match kingInRow b kingColor r with
        | some c => some ⟨r, c⟩
        | none => acc) (some a) ≠ none := by
  induction l with
  | nil =>
    intro a
    simp
  | cons z zs ih =>
    intro a
    simp only [List.foldl_cons]
    cases kingInRow b kingColor z with
    | none => exact ih a
    | some cz => exact ih _

theorem locateKing_fold_none (b : Board) (kingColor : Color) (l : List Int) :
    ∀ (acc : Option Square),
      l.foldl (fun acc r => match kingInRow b kingColor r with
        | some c => some ⟨r, c⟩
        | none => acc) acc = none →
      ∀ r ∈ l, kingInRow b kingColor r = none := by
  induction l with
  | nil =>
    intro acc _ r hr
    cases hr
  | cons x rest ih =>
    intro acc h r hr
    simp only [List.foldl_cons] at h
    rcases List.mem_cons.mp hr with rfl | hr1
    · cases hx : kingInRow b kingColor r with
      | none => rfl
      | some c =>
        rw [hx] at h
        exact absurd h (locateKing_fold_ne_none b kingColor rest _)
    · exact ih _ h r hr1

theorem locateKing_some (b : Board) (kingColor : Color) (s : Square)
    (h : locateKing b kingColor = some s) :
    inBounds s.r s.c = true ∧ b.get s.r s.c = some ⟨Kind.k, kingColor⟩ := by
  unfold locateKing at h
  rcases locateKing_fold_some b kingColor _ none s h with h1 | ⟨r, _, h2, h3⟩
  · cases h1
  · have := kingInRow_some b kingColor r s.c h2
    rw [h3]
    exact ⟨Board.inBounds_of_get b r s.c _ this.2, this.2⟩

theorem locateKing_none (b : Board) (kingColor : Color) (h : locateKing b kingColor = none) :
    ∀ r c : Int, b.get r c ≠ some ⟨Kind.k, kingColor⟩ := by
  intro r c hc
  have hb := Board.inBounds_of_get b r c _ hc
  unfold locateKing at h
  have := locateKing_fold_none b kingColor _ none h r ((mem_idx8 r).mpr ((inBounds_iff r c).mp hb).1)
  exact (kingInRow_none b kingColor r).mp this c hc

theorem locateKing_unique (b : Board) (kingColor : Color) (kR kC : Int)
    (hk : b.get kR kC = some ⟨Kind.k, kingColor⟩)
    (hu : ∀ r c : Int, b.get r c = some ⟨Kind.k, kingColor⟩ → r = kR ∧ c = kC) :
    locateKing b kingColor = some ⟨kR, kC⟩ := by
  cases h : locateKing b kingColor with
  | none => exact absurd hk (locateKing_none b kingColor h kR kC)
  | some s =>
    have := hu s.r s.c (locateKing_some b kingColor s h).2
    cases s
    simp only at this
    rw [this.1, this.2]

theorem kingCount_one (b : Board) (kingColor : Color) (h : kingCount b kingColor = 1) :
    ∃ kR kC : Int, b.get kR kC = some ⟨Kind.k, kingColor⟩ ∧
      ∀ r c : Int, b.get r c = some ⟨Kind.k, kingColor⟩ → r = kR ∧ c = kC := by
  unfold kingCount at h
  obtain ⟨a, ha⟩ := List.length_eq_one.mp h
  have hmem : ∀ r c : Int, b.get r c = some ⟨Kind.k, kingColor⟩ → (r, c) = a := by
    intro r c hc
    have : (r, c) ∈ allSquares.filter fun s => b.get s.1 s.2 = some ⟨Kind.k, kingColor⟩ := by
      rw [List.mem_filter]
      exact ⟨(mem_allSquares r c).mpr (Board.inBounds_of_get b r c _ hc), by simpa using hc⟩
    rw [ha] at this
    simpa using this
  have ha1 : a ∈ allSquares.filter fun s => b.get s.1 s.2 = some ⟨Kind.k, kingColor⟩ := by
    rw [ha]
    exact List.mem_singleton_self a
  rw [List.mem_filter] at ha1
  refine ⟨a.1, a.2, by simpa using ha1.2, ?_⟩
  intro r c hc
  have := hmem r c hc
  rw [← this]
  exact ⟨rfl, rfl⟩

/-! ## The attack probes against forward move enumeration -/

theorem Color.other_ne (c : Color) : c.other ≠ c := by
  cases c <;> decide

theorem Color.other_other (c : Color) : c.other.other = c := by
  cases c <;> rfl

theorem isEnemy_eq_true (cell : Cell) (opponent : Color) (kind : Kind) :
    isEnemy cell opponent kind = true ↔ cell = some ⟨kind, opponent⟩ := by
  cases cell with
  | none => simp [isEnemy]
  | some p =>
    obtain ⟨kd, cl⟩ := p
    simp only [isEnemy, Bool.and_eq_true, decide_eq_true_eq, Option.some.injEq, Piece.mk.injEq]
    exact And.comm

theorem knightOffsets_neg (d : Int × Int) (h : d ∈ knightOffsets) :
    (-d.1, -d.2) ∈ knightOffsets := by
  simp only [knightOffsets, List.mem_cons, List.mem_singleton, List.not_mem_nil, or_false] at h
  rcases h with rfl | rfl | rfl | rfl | rfl | rfl | rfl | rfl <;> decide

theorem kingOffsets_neg (d : Int × Int) (h : d ∈ kingOffsets) :
    (-d.1, -d.2) ∈ kingOffsets := by
  simp only [kingOffsets, List.mem_cons, List.mem_singleton, List.not_mem_nil, or_false] at h
  rcases h with rfl | rfl | rfl | rfl | rfl | rfl | rfl | rfl <;> decide

theorem rookDirs_neg (d : Int × Int) (h : d ∈ rookDirs) : (-d.1, -d.2) ∈ rookDirs := by
  simp only [rookDirs, List.mem_cons, List.mem_singleton, List.not_mem_nil, or_false] at h
  rcases h with rfl | rfl | rfl | rfl <;> decide

theorem bishopDirs_neg (d : Int × Int) (h : d ∈ bishopDirs) : (-d.1, -d.2) ∈ bishopDirs := by
  simp only [bishopDirs, List.mem_cons, List.mem_singleton, List.not_mem_nil, or_false] at h
  rcases h with rfl | rfl | rfl | rfl <;> decide

theorem mem_queenDirs (d : Int × Int) : d ∈ queenDirs ↔ d ∈ bishopDirs ∨ d ∈ rookDirs := by
  simp only [queenDirs, bishopDirs, rookDirs, List.mem_cons, List.mem_singleton,
    List.not_mem_nil, or_false]
  tauto

/-- An enemy piece one fixed offset away is found by the probe over the negated offsets. -/
theorem offset_probe_hit (b : Board) (opponent : Color) (kind : Kind) (offs : List (Int × Int))
    (hneg : ∀ d ∈ offs, (-d.1, -d.2) ∈ offs) (r c kR kC : Int) (d : Int × Int) (hd : d ∈ offs)
    (hr : kR = r + d.1) (hc : kC = c + d.2) (hp : b.get r c = some ⟨kind, opponent⟩) :
    (offs.any fun m =>
      inBounds (kR + m.1) (kC + m.2) && isEnemy (b.get (kR + m.1) (kC + m.2)) opponent kind)
      = true := by
  rw [List.any_eq_true]
  refine ⟨(-d.1, -d.2), hneg d hd, ?_⟩
  have e1 : kR + -d.1 = r := by omega
  have e2 : kC + -d.2 = c := by omega
  simp only [e1, e2, Bool.and_eq_true]
  exact ⟨Board.inBounds_of_get b r c _ hp, (isEnemy_eq_true _ _ _).mpr hp⟩

/-- A sliding move that reaches `(kR, kC)` is seen by the ray probe from `(kR, kC)` in the
opposite direction. -/
theorem slide_probe_hit (b : Board) (color : Color) (k1 k2 : Kind) (r c kR kC : Int)
    (d : Int × Int) (p : Piece) (hp : b.get r c = some p) (hpc : p.color = color)
    (hpk : p.kind = k1 ∨ p.kind = k2) (m : Move) (hm : m ∈ slide b color r c d.1 d.2)
    (hr : m.r = kR) (hc : m.c = kC) :
    rayLoop b color k1 k2 (-d.1) (-d.2) 8 (kR + -d.1) (kC + -d.2) = true := by
  obtain ⟨k, hk, hmk, hcl, hin, _⟩ := (mem_slide b color r c d.1 d.2 m).mp hm
  rw [hmk] at hr hc
  simp only [Move.plain] at hr hc
  rw [rayLoop_eq_true]
  have e1 : kR + ((k : Int) + 1) * -d.1 = r := by rw [← hr]; ring
  have e2 : kC + ((k : Int) + 1) * -d.2 = c := by rw [← hc]; ring
  refine ⟨k, hk, ?_, ?_, p, ?_, hpc, hpk⟩
  · rw [← hr, ← hc]
    exact clearPath_reverse b r c d.1 d.2 k hcl
  · rw [e1, e2]
    exact Board.inBounds_of_get b r c p hp
  · rw [e1, e2]
    exact hp

/-- A ray probe that succeeds from `(kR, kC)` finds a piece whose slide in the opposite
direction reaches `(kR, kC)`, whatever stands there of the other colour. -/
theorem probe_slide_hit (b : Board) (color : Color) (k1 k2 : Kind) (kR kC : Int)
    (d : Int × Int) (king : Piece) (hk : b.get kR kC = some king) (hkc : king.color ≠ color)
    (h : rayLoop b color k1 k2 d.1 d.2 8 (kR + d.1) (kC + d.2) = true) :
    ∃ r c p, b.get r c = some p ∧ p.color = color ∧ (p.kind = k1 ∨ p.kind = k2) ∧
      Move.plain kR kC ∈ slide b color r c (-d.1) (-d.2) := by
  obtain ⟨k, hk8, hcl, hin, p, hp, hpc, hpk⟩ := (rayLoop_eq_true b color k1 k2 d.1 d.2 8 kR kC).mp h
  refine ⟨_, _, p, hp, hpc, hpk, ?_⟩
  rw [mem_slide]
  have e1 : kR + ((k : Int) + 1) * d.1 + ((k : Int) + 1) * -d.1 = kR := by ring
  have e2 : kC + ((k : Int) + 1) * d.2 + ((k : Int) + 1) * -d.2 = kC := by ring
  refine ⟨k, hk8, ?_, clearPath_reverse b kR kC d.1 d.2 k hcl, ?_, ?_⟩
  · rw [e1, e2]
  · rw [e1, e2]
    exact Board.inBounds_of_get b kR kC king hk
  · rw [e1, e2]
    intro t ht
    rw [hk] at ht
    cases ht
    exact hkc

theorem getGeometryMoves_knight (b : Board) (r c : Int) (piece : Piece)
    (rights : Option CastlingRights) (ep : Option Square) (h : piece.kind = Kind.n) :
    getGeometryMoves b r c piece rights ep =
      some (knightOffsets.flatMap fun d => tryAdd b piece.color (r + d.1) (c + d.2)) := by
  simp only [getGeometryMoves, h]

theorem getGeometryMoves_bishop (b : Board) (r c : Int) (piece : Piece)
    (rights : Option CastlingRights) (ep : Option Square) (h : piece.kind = Kind.b) :
    getGeometryMoves b r c piece rights ep =
      some (bishopDirs.flatMap fun d => slide b piece.color r c d.1 d.2) := by
  simp only [getGeometryMoves, h]

theorem getGeometryMoves_rook (b : Board) (r c : Int) (piece : Piece)
    (rights : Option CastlingRights) (ep : Option Square) (h : piece.kind = Kind.r) :
    getGeometryMoves b r c piece rights ep =
      some (rookDirs.flatMap fun d => slide b piece.color r c d.1 d.2) := by
  simp only [getGeometryMoves, h]

theorem getGeometryMoves_queen (b : Board) (r c : Int) (piece : Piece)
    (rights : Option CastlingRights) (ep : Option Square) (h : piece.kind = Kind.q) :
    getGeometryMoves b r c piece rights ep =
      some (queenDirs.flatMap fun d => slide b piece.color r c d.1 d.2) := by
  simp only [getGeometryMoves, h]

theorem getGeometryMoves_king (b : Board) (r c : Int) (piece : Piece)
    (rights : Option CastlingRights) (ep : Option Square) (h : piece.kind = Kind.k) :
    getGeometryMoves b r c piece rights ep =
      some ((kingOffsets.flatMap fun d => tryAdd b piece.color (r + d.1) (c + d.2)) ++
        castleMoves b piece.color rights r c) := by
  simp only [getGeometryMoves, h]

theorem getGeometryMoves_pawn (b : Board) (r c : Int) (piece : Piece)
    (rights : Option CastlingRights) (ep : Option Square) (h : piece.kind = Kind.p) :
    getGeometryMoves b r c piece rights ep = pawnMoves b piece.color ep r c := by
  simp only [getGeometryMoves, h]

/-- C4: on a board with exactly one king of colour `kingColor` (standing on `(kR, kC)`)
and no pawn of the opposite colour, `isKingInCheck` is true exactly when some knight,
bishop, rook, queen or king of the opposite colour, standing on some square `(r, c)`,
has the king square among its `getGeometryMoves` (no castling rights, no en-passant
target): the reverse probes from the king agree with forward move enumeration. -/
theorem C4_probe_agrees_with_enumeration (b : Board) (kingColor : Color) (kR kC : Int)
    (hone : kingCount b kingColor = 1)
    (hk : b.get kR kC = some ⟨Kind.k, kingColor⟩)
    (hnp : ∀ r c : Int, b.get r c ≠ some ⟨Kind.p, kingColor.other⟩) :
    isKingInCheck b kingColor = true ↔
      ∃ (r c : Int) (piece : Piece) (moves : List Move),
        b.get r c = some piece ∧ piece.color = kingColor.other ∧ piece.kind ≠ Kind.p ∧
        getGeometryMoves b r c piece none none = some moves ∧
        ∃ m ∈ moves, m.r = kR ∧ m.c = kC := by
  obtain ⟨kR1, kC1, _, hu⟩ := kingCount_one b kingColor hone
  have hloc : locateKing b kingColor = some ⟨kR, kC⟩ :=
    locateKing_unique b kingColor kR kC hk (fun r c h => by
      have h1 := hu r c h
      have h2 := hu kR kC hk
      exact ⟨h1.1.trans h2.1.symm, h1.2.trans h2.2.symm⟩)
  have hkb := Board.inBounds_of_get b kR kC _ hk
  have hne : (⟨Kind.k, kingColor⟩ : Piece).color ≠ kingColor.other :=
    fun h => Color.other_ne kingColor h.symm
  simp only [isKingInCheck, hloc]
  constructor
  · intro h
    simp only [attackedAt, Bool.or_eq_true, List.any_eq_true, Bool.and_eq_true] at h
    rcases h with (((h | h) | h) | h) | h
    · -- a knight
      obtain ⟨d, hd, _, he⟩ := h
      rw [isEnemy_eq_true] at he
      refine ⟨_, _, _, _, he, rfl, (by simp), getGeometryMoves_knight b _ _ _ none none rfl,
        Move.plain kR kC, ?_, rfl, rfl⟩
      rw [List.mem_flatMap]
      refine ⟨(-d.1, -d.2), knightOffsets_neg d hd, ?_⟩
      rw [mem_tryAdd]
      have e1 : kR + d.1 + -d.1 = kR := by omega
      have e2 : kC + d.2 + -d.2 = kC := by omega
      simp only [e1, e2, hkb, true_and]
      intro t ht
      rw [hk] at ht
      cases ht
      exact hne
    · -- a rook or a queen on a row or a column
      obtain ⟨d, hd, hray⟩ := h
      obtain ⟨r, c, p, hp, hpc, hpk, hm⟩ :=
        probe_slide_hit b kingColor.other Kind.r Kind.q kR kC d _ hk hne hray
      rcases hpk with hpk | hpk
      · refine ⟨r, c, p, _, hp, hpc, (by rw [hpk]; decide),
          getGeometryMoves_rook b r c p none none hpk, Move.plain kR kC, ?_, rfl, rfl⟩
        rw [List.mem_flatMap]
        exact ⟨(-d.1, -d.2), rookDirs_neg d hd, by rw [hpc]; exact hm⟩
      · refine ⟨r, c, p, _, hp, hpc, (by rw [hpk]; decide),
          getGeometryMoves_queen b r c p none none hpk, Move.plain kR kC, ?_, rfl, rfl⟩
        rw [List.mem_flatMap]
        exact ⟨(-d.1, -d.2), (mem_queenDirs _).mpr (Or.inr (rookDirs_neg d hd)),
          by rw [hpc]; exact hm⟩
    · -- a bishop or a queen on a diagonal
      obtain ⟨d, hd, hray⟩ := h
      obtain ⟨r, c, p, hp, hpc, hpk, hm⟩ :=
        probe_slide_hit b kingColor.other Kind.b Kind.q kR kC d _ hk hne hray
      rcases hpk with hpk | hpk
      · refine ⟨r, c, p, _, hp, hpc, (by rw [hpk]; decide),
          getGeometryMoves_bishop b r c p none none hpk, Move.plain kR kC, ?_, rfl, rfl⟩
        rw [List.mem_flatMap]
        exact ⟨(-d.1, -d.2), bishopDirs_neg d hd, by rw [hpc]; exact hm⟩
      · refine ⟨r, c, p, _, hp, hpc, (by rw [hpk]; decide),
          getGeometryMoves_queen b r c p none none hpk, Move.plain kR kC, ?_, rfl, rfl⟩
        rw [List.mem_flatMap]
        exact ⟨(-d.1, -d.2), (mem_queenDirs _).mpr (Or.inl (bishopDirs_neg d hd)),
          by rw [hpc]; exact hm⟩
    · -- a pawn: excluded by hypothesis
      obtain ⟨_, h | h⟩ := h
      · rw [isEnemy_eq_true] at h
        exact absurd h (hnp _ _)
      · rw [isEnemy_eq_true] at h
        exact absurd h (hnp _ _)
    · -- the other king
      obtain ⟨d, hd, _, he⟩ := h
      rw [isEnemy_eq_true] at he
      refine ⟨_, _, _, _, he, rfl, (by simp), getGeometryMoves_king b _ _ _ none none rfl,
        Move.plain kR kC, ?_, rfl, rfl⟩
      rw [List.mem_append]
      left
      rw [List.mem_flatMap]
      refine ⟨(-d.1, -d.2), kingOffsets_neg d hd, ?_⟩
      rw [mem_tryAdd]
      have e1 : kR + d.1 + -d.1 = kR := by omega
      have e2 : kC + d.2 + -d.2 = kC := by omega
      simp only [e1, e2, hkb, true_and]
      intro t ht
      rw [hk] at ht
      cases ht
      exact hne
  · rintro ⟨r, c, piece, moves, hp, hpc, hpk, hgeo, m, hm, hmr, hmc⟩
    obtain ⟨kind, color⟩ := piece
    simp only at hpc hpk
    subst hpc
    simp only [attackedAt, Bool.or_eq_true]
    cases kind with
    | p => exact absurd rfl hpk
    | n =>
      simp only [getGeometryMoves, Option.some.injEq] at hgeo
      subst hgeo
      obtain ⟨d, hd, hmd⟩ := List.mem_flatMap.mp hm
      obtain ⟨hmp, _, _⟩ := (mem_tryAdd _ _ _ _ _).mp hmd
      rw [hmp] at hmr hmc
      simp only [Move.plain] at hmr hmc
      exact Or.inl (Or.inl (Or.inl (Or.inl
        (offset_probe_hit b _ Kind.n knightOffsets knightOffsets_neg r c kR kC d hd
          hmr.symm hmc.symm hp))))
    | b =>
      simp only [getGeometryMoves, Option.some.injEq] at hgeo
      subst hgeo
      obtain ⟨d, hd, hmd⟩ := List.mem_flatMap.mp hm
      refine Or.inl (Or.inl (Or.inr ?_))
      rw [List.any_eq_true]
      exact ⟨(-d.1, -d.2), bishopDirs_neg d hd,
        slide_probe_hit b _ Kind.b Kind.q r c kR kC d _ hp rfl (Or.inl rfl) m hmd hmr hmc⟩
    | r =>
      simp only [getGeometryMoves, Option.some.injEq] at hgeo
      subst hgeo
      obtain ⟨d, hd, hmd⟩ := List.mem_flatMap.mp hm
      refine Or.inl (Or.inl (Or.inl (Or.inr ?_)))
      rw [List.any_eq_true]
      exact ⟨(-d.1, -d.2), rookDirs_neg d hd,
        slide_probe_hit b _ Kind.r Kind.q r c kR kC d _ hp rfl (Or.inl rfl) m hmd hmr hmc⟩
    | q =>
      simp only [getGeometryMoves, Option.some.injEq] at hgeo
      subst hgeo
      obtain ⟨d, hd, hmd⟩ := List.mem_flatMap.mp hm
      rcases (mem_queenDirs d).mp hd with hd1 | hd1
      · refine Or.inl (Or.inl (Or.inr ?_))
        rw [List.any_eq_true]
        exact ⟨(-d.1, -d.2), bishopDirs_neg d hd1,
          slide_probe_hit b _ Kind.b Kind.q r c kR kC d _ hp rfl (Or.inr rfl) m hmd hmr hmc⟩
      · refine Or.inl (Or.inl (Or.inl (Or.inr ?_)))
        rw [List.any_eq_true]
        exact ⟨(-d.1, -d.2), rookDirs_neg d hd1,
          slide_probe_hit b _ Kind.r Kind.q r c kR kC d _ hp rfl (Or.inr rfl) m hmd hmr hmc⟩
    | k =>
      simp only [getGeometryMoves, castleMoves, List.append_nil, Option.some.injEq] at hgeo
      subst hgeo
      obtain ⟨d, hd, hmd⟩ := List.mem_flatMap.mp hm
      obtain ⟨hmp, _, _⟩ := (mem_tryAdd _ _ _ _ _).mp hmd
      rw [hmp] at hmr hmc
      simp only [Move.plain] at hmr hmc
      exact Or.inr
        (offset_probe_hit b _ Kind.k kingOffsets kingOffsets_neg r c kR kC d hd
          hmr.symm hmc.symm hp)

theorem mem_pawnCapture (b : Board) (color : Color) (ep : Option Square) (r c dc : Int)
    (m : Move) :
    m ∈ pawnCapture b color ep r c dc ↔
      inBounds (r + forward color) (c + dc) = true ∧
        ((m = Move.plain (r + forward color) (c + dc) ∧
            ∃ t, b.get (r + forward color) (c + dc) = some t ∧ t.color ≠ color) ∨
          (m = ⟨r + forward color, c + dc, false, true, none⟩ ∧
            ep = some ⟨r + forward color, c + dc⟩)) := by
  unfold pawnCapture
  by_cases hb : inBounds (r + forward color) (c + dc) = true
  · simp only [hb, if_true, List.mem_append, true_and]
    apply or_congr
    · cases hg : b.get (r + forward color) (c + dc) with
      | none => simp
      | some t =>
        by_cases hc : t.color = color
        · simp [hc]
        · simp [hc]
    · cases ep with
      | none => simp
      | some e =>
        obtain ⟨er, ec⟩ := e
        by_cases he : r + forward color = er ∧ c + dc = ec
        · simp [he.1, he.2]
        · simp only [he, if_false, List.not_mem_nil, Option.some.injEq, Square.mk.injEq]
          constructor
          · intro hf; exact hf.elim
          · rintro ⟨_, h1, h2⟩
            exact he ⟨h1.symm, h2.symm⟩
  · simp [hb]

theorem mem_pawnMoves (b : Board) (color : Color) (ep : Option Square) (r c : Int)
    (l : List Move) (h : pawnMoves b color ep r c = some l) (m : Move) :
    m ∈ l ↔
      (m = Move.plain (r + forward color) c ∧ b.get (r + forward color) c = none) ∨
      (m = ⟨r + forward color * 2, c, true, false, none⟩ ∧
        b.get (r + forward color) c = none ∧ r = startRow color ∧
        b.get (r + forward color * 2) c = none) ∨
      m ∈ pawnCapture b color ep r c (-1) ∨ m ∈ pawnCapture b color ep r c 1 := by
  unfold pawnMoves at h
  by_cases hb : inB (r + forward color) = true
  · simp only [hb, if_true, Option.some.injEq] at h
    subst h
    have key : (m ∈ (if (b.get (r + forward color) c).isNone = true then
          Move.plain (r + forward color) c ::
            (if r = startRow color ∧ (b.get (r + forward color * 2) c).isNone = true then
              [⟨r + forward color * 2, c, true, false, none⟩]
            else [])
        else [])) ↔
        ((m = Move.plain (r + forward color) c ∧ b.get (r + forward color) c = none) ∨
          (m = ⟨r + forward color * 2, c, true, false, none⟩ ∧
            b.get (r + forward color) c = none ∧ r = startRow color ∧
            b.get (r + forward color * 2) c = none)) := by
      cases hg : b.get (r + forward color) c with
      | some t => simp
      | none =>
        by_cases h2 : r = startRow color ∧ (b.get (r + forward color * 2) c).isNone = true
        · have h3 : b.get (r + forward color * 2) c = none := by simpa using h2.2
          have h4 := h2.1
          simp only [Option.isNone_none, if_true]
          rw [if_pos h2]
          simp only [List.mem_cons, List.not_mem_nil, or_false]
          constructor
          · rintro (h | h)
            · exact Or.inl ⟨h, trivial⟩
            · exact Or.inr ⟨h, trivial, h4, h3⟩
          · rintro (h | h)
            · exact Or.inl h.1
            · exact Or.inr h.1
        · simp only [Option.isNone_none, if_true, h2, if_false, List.mem_cons,
            List.not_mem_nil, or_false, true_and, and_true]
          constructor
          · intro hf; exact Or.inl hf
          · rintro (hf | ⟨_, h4, h5⟩)
            · exact hf
            · exact absurd ⟨h4, by simp [h5]⟩ h2
    simp only [List.mem_append]
    rw [key]
    tauto
  · simp [hb] at h

theorem pawnMoves_isSome (b : Board) (color : Color) (ep : Option Square) (r c : Int) :
    (pawnMoves b color ep r c).isSome = inB (r + forward color) := by
  unfold pawnMoves
  by_cases hb : inB (r + forward color) = true
  · simp [hb]
  · simp [hb]

theorem mem_castleMoves (b : Board) (color : Color) (rights : Option CastlingRights)
    (r c : Int) (m : Move) :
    m ∈ castleMoves b color rights r c ↔
      ∃ rt, rights = some rt ∧
        ((m = ⟨r, c + 2, false, false, some CastleSide.k⟩ ∧ (rt.get color).kingSide = true ∧
            b.isNull r (c + 1) = true ∧ b.isNull r (c + 2) = true) ∨
         (m = ⟨r, c - 2, false, false, some CastleSide.q⟩ ∧ (rt.get color).queenSide = true ∧
            b.isNull r (c - 1) = true ∧ b.isNull r (c - 2) = true ∧
            b.isNull r (c - 3) = true)) := by
  unfold castleMoves
  cases rights with
  | none => simp
  | some rt =>
    simp only [List.mem_append, Option.some.injEq, exists_eq_left']
    apply or_congr
    · by_cases h : (rt.get color).kingSide = true ∧ b.isNull r (c + 1) = true ∧
          b.isNull r (c + 2) = true
      · simp [h]
      · simp only [h, if_false, List.not_mem_nil, and_false]
    · by_cases h : (rt.get color).queenSide = true ∧ b.isNull r (c - 1) = true ∧
          b.isNull r (c - 2) = true ∧ b.isNull r (c - 3) = true
      · simp [h]
      · simp only [h, if_false, List.not_mem_nil, and_false]

theorem Board.isNull_iff (b : Board) (r c : Int) :
    b.isNull r c = true ↔ (0 ≤ c ∧ c < 8) ∧ b.get r c = none := by
  simp [Board.isNull, inB_iff]

/-- Every move of the geometry generator has one of five shapes: a plain move onto a board
square that does not hold a piece of the mover's colour, a pawn double push, an en-passant
capture, a king-side castle, or a queen-side castle. -/
theorem geometry_cases (b : Board) (r c : Int) (piece : Piece) (rights : Option CastlingRights)
    (ep : Option Square) (geo : List Move) (m : Move) (hb : inBounds r c = true)
    (h : getGeometryMoves b r c piece rights ep = some geo) (hm : m ∈ geo) :
    (m = Move.plain m.r m.c ∧ inBounds m.r m.c = true ∧
        ∀ t, b.get m.r m.c = some t → t.color ≠ piece.color) ∨
    (piece.kind = Kind.p ∧ m = ⟨r + forward piece.color * 2, c, true, false, none⟩ ∧
        r = startRow piece.color ∧ b.get (r + forward piece.color) c = none ∧
        b.get (r + forward piece.color * 2) c = none) ∨
    (piece.kind = Kind.p ∧ m = ⟨m.r, m.c, false, true, none⟩ ∧
        m.r = r + forward piece.color ∧ (m.c = c + -1 ∨ m.c = c + 1) ∧
        inBounds m.r m.c = true ∧ ep = some ⟨m.r, m.c⟩) ∨
    (piece.kind = Kind.k ∧ m = ⟨r, c + 2, false, false, some CastleSide.k⟩ ∧
        ∃ rt, rights = some rt ∧ (rt.get piece.color).kingSide = true ∧
          b.isNull r (c + 1) = true ∧ b.isNull r (c + 2) = true) ∨
    (piece.kind = Kind.k ∧ m = ⟨r, c - 2, false, false, some CastleSide.q⟩ ∧
        ∃ rt, rights = some rt ∧ (rt.get piece.color).queenSide = true ∧
          b.isNull r (c - 1) = true ∧ b.isNull r (c - 2) = true ∧ b.isNull r (c - 3) = true) := by
  have plainTry : ∀ (offs : List (Int × Int)),
      m ∈ (offs.flatMap fun d => tryAdd b piece.color (r + d.1) (c + d.2)) →
      (m = Move.plain m.r m.c ∧ inBounds m.r m.c = true ∧
        ∀ t, b.get m.r m.c = some t → t.color ≠ piece.color) := by
    intro offs hmem
    obtain ⟨d, _, hd⟩ := List.mem_flatMap.mp hmem
    obtain ⟨h1, h2, h3⟩ := (mem_tryAdd _ _ _ _ _).mp hd
    subst h1
    exact ⟨rfl, h2, h3⟩
  have plainSlide : ∀ (dirs : List (Int × Int)),
      m ∈ (dirs.flatMap fun d => slide b piece.color r c d.1 d.2) →
      (m = Move.plain m.r m.c ∧ inBounds m.r m.c = true ∧
        ∀ t, b.get m.r m.c = some t → t.color ≠ piece.color) := by
    intro dirs hmem
    obtain ⟨d, _, hd⟩ := List.mem_flatMap.mp hmem
    obtain ⟨k, _, h1, _, h2, h3⟩ := (mem_slide _ _ _ _ _ _ _).mp hd
    subst h1
    exact ⟨rfl, h2, h3⟩
  cases hk : piece.kind with
  | p =>
    rw [getGeometryMoves_pawn b r c piece rights ep hk] at h
    have hs := pawnMoves_isSome b piece.color ep r c
    rw [h] at hs
    have hin : inB (r + forward piece.color) = true := by simpa using hs.symm
    have hcin : inB c = true := by
      simp only [inBounds, Bool.and_eq_true] at hb
      exact hb.2
    rcases (mem_pawnMoves b piece.color ep r c geo h m).mp hm with h1 | h1 | h1 | h1
    · left
      obtain ⟨h1, h2⟩ := h1
      subst h1
      refine ⟨rfl, ?_, ?_⟩
      · simp only [Move.plain, inBounds, hin, hcin, Bool.and_self]
      · intro t ht
        simp only [Move.plain] at ht
        rw [h2] at ht
        cases ht
    · right; left
      exact ⟨rfl, h1.1, h1.2.2.1, h1.2.1, h1.2.2.2⟩
    · obtain ⟨h2, h3 | h3⟩ := (mem_pawnCapture _ _ _ _ _ _ _).mp h1
      · left
        obtain ⟨h3, t, ht, htc⟩ := h3
        subst h3
        refine ⟨rfl, h2, ?_⟩
        intro t1 ht1
        simp only [Move.plain] at ht1
        rw [ht] at ht1
        cases ht1
        exact htc
      · right; right; left
        obtain ⟨h3, h4⟩ := h3
        subst h3
        exact ⟨rfl, rfl, rfl, Or.inl rfl, h2, h4⟩
    · obtain ⟨h2, h3 | h3⟩ := (mem_pawnCapture _ _ _ _ _ _ _).mp h1
      · left
        obtain ⟨h3, t, ht, htc⟩ := h3
        subst h3
        refine ⟨rfl, h2, ?_⟩
        intro t1 ht1
        simp only [Move.plain] at ht1
        rw [ht] at ht1
        cases ht1
        exact htc
      · right; right; left
        obtain ⟨h3, h4⟩ := h3
        subst h3
        exact ⟨rfl, rfl, rfl, Or.inr rfl, h2, h4⟩
  | n =>
    rw [getGeometryMoves_knight b r c piece rights ep hk] at h
    cases h
    exact Or.inl (plainTry _ hm)
  | b =>
    rw [getGeometryMoves_bishop b r c piece rights ep hk] at h
    cases h
    exact Or.inl (plainSlide _ hm)
  | r =>
    rw [getGeometryMoves_rook b r c piece rights ep hk] at h
    cases h
    exact Or.inl (plainSlide _ hm)
  | q =>
    rw [getGeometryMoves_queen b r c piece rights ep hk] at h
    cases h
    exact Or.inl (plainSlide _ hm)
  | k =>
    rw [getGeometryMoves_king b r c piece rights ep hk] at h
    cases h
    rcases List.mem_append.mp hm with h1 | h1
    · exact Or.inl (plainTry _ h1)
    · obtain ⟨rt, hrt, h2 | h2⟩ := (mem_castleMoves _ _ _ _ _ _).mp h1
      · right; right; right; left
        exact ⟨rfl, h2.1, rt, hrt, h2.2⟩
      · right; right; right; right
        exact ⟨rfl, h2.1, rt, hrt, h2.2⟩

/-! ## What the legality filter returns -/

theorem getValidMoves_eq (rights : CastlingRights) (ep : Option Square) (r c : Int)
    (safety : Bool) (b : Board) (color : Color) (piece : Piece) (geo : List Move)
    (hp : b.get r c = some piece)
    (hg : getGeometryMoves b r c piece (some rights) ep = some geo) :
    getValidMoves rights ep r c safety b color =
      some (if safety = true ∧ piece.kind = Kind.k then
        (geo.filter fun move => !isKingInCheck (tempBoard b r c piece move) color).filter
          fun move => castleSafe b r c piece color move
        else geo.filter fun move => !isKingInCheck (tempBoard b r c piece move) color) := by
  simp only [getValidMoves, hp, hg]
  split <;> rfl

theorem getValidMoves_some (rights : CastlingRights) (ep : Option Square) (r c : Int)
    (safety : Bool) (b : Board) (color : Color) (piece : Piece) (moves : List Move)
    (hp : b.get r c = some piece)
    (hv : getValidMoves rights ep r c safety b color = some moves) :
    ∃ geo, getGeometryMoves b r c piece (some rights) ep = some geo ∧
      ∀ m ∈ moves, m ∈ geo ∧ isKingInCheck (tempBoard b r c piece m) color = false ∧
        (safety = true → piece.kind = Kind.k → castleSafe b r c piece color m = true) := by
  cases hg : getGeometryMoves b r c piece (some rights) ep with
  | none => simp [getValidMoves, hp, hg] at hv
  | some geo =>
    refine ⟨geo, rfl, ?_⟩
    rw [getValidMoves_eq rights ep r c safety b color piece geo hp hg] at hv
    simp only [Option.some.injEq] at hv
    subst hv
    intro m hm
    by_cases hcond : safety = true ∧ piece.kind = Kind.k
    · rw [if_pos hcond] at hm
      obtain ⟨h1, h2⟩ := List.mem_filter.mp hm
      obtain ⟨h3, h4⟩ := List.mem_filter.mp h1
      exact ⟨h3, by simpa using h4, fun _ _ => h2⟩
    · rw [if_neg hcond] at hm
      obtain ⟨h3, h4⟩ := List.mem_filter.mp hm
      exact ⟨h3, by simpa using h4, fun h5 h6 => absurd ⟨h5, h6⟩ hcond⟩

/-! ## What `executeMove` and `handlePromotion` write -/

theorem executeMove_some (s : State) (r c : Int) (move : Move) (piece : Piece)
    (hp : s.board.get r c = some piece) :
    ∃ s1, executeMove s r c move = some s1 ∧
      s1.board = moveBoard s.board r c piece move ∧
      s1.castlingRights = moveRights s.board s.turn s.castlingRights c piece move ∧
      s1.enPassantTarget = moveEpTarget s.turn move ∧
      (piece.kind = Kind.p ∧ (move.r = 0 ∨ move.r = 7) →
        s1.turn = s.turn ∧ s1.history = s.history ∧
        s1.promotionSquare = some ⟨move.r, move.c, moveNotation s.board c piece move⟩) ∧
      (¬ (piece.kind = Kind.p ∧ (move.r = 0 ∨ move.r = 7)) →
        s1.turn = s.turn.other ∧ s1.promotionSquare = s.promotionSquare) := by
  by_cases hpr : piece.kind = Kind.p ∧ (move.r = 0 ∨ move.r = 7)
  · simp only [executeMove, hp, if_pos hpr]
    refine ⟨_, rfl, rfl, rfl, rfl, ?_, ?_⟩
    · intro _
      exact ⟨rfl, rfl, rfl⟩
    · intro h
      exact absurd hpr h
  · simp only [executeMove, hp, if_neg hpr]
    refine ⟨_, rfl, rfl, rfl, rfl, ?_, ?_⟩
    · intro h
      exact absurd h hpr
    · intro _
      exact ⟨rfl, rfl⟩

theorem handlePromotion_some (s : State) (type : Kind) (pr : Promotion)
    (hp : s.promotionSquare = some pr) :
    ∃ s2, handlePromotion s type = some s2 ∧
      s2.board = s.board.set pr.r pr.c (some ⟨type, s.turn⟩) ∧
      s2.castlingRights = s.castlingRights ∧
      s2.enPassantTarget = s.enPassantTarget ∧
      s2.turn = s.turn.other ∧ s2.promotionSquare = none := by
  simp only [handlePromotion, hp]
  exact ⟨_, rfl, rfl, rfl, rfl, rfl, rfl⟩

/-! ## Castling safety filter -/

/-- C10: for every board, king square `(r, c)` and colour, `getValidMoves` with castling
safety enabled returns no move flagged `isCastle` when `isKingInCheck(board, colour)` is
true, and no castling move of a side whose path board (the king moved one column toward
that side's rook, origin emptied) has `isKingInCheck` true; the moves not flagged
`isCastle` are the same with and without the extra filter. -/
theorem C10_castling_safety_filter (rights : CastlingRights) (ep : Option Square) (b : Board)
    (r c : Int) (color : Color) (king : Piece)
    (hk : b.get r c = some king) (hkind : king.kind = Kind.k) :
    ∃ moves raw : List Move,
      getValidMoves rights ep r c true b color = some moves ∧
      getValidMoves rights ep r c false b color = some raw ∧
      (isKingInCheck b color = true → ∀ m ∈ moves, m.isCastle = none) ∧
      (∀ side : CastleSide, isKingInCheck (pathBoard b r c king side) color = true →
        ∀ m ∈ moves, m.isCastle ≠ some side) ∧
      (moves.filter fun m => m.isCastle.isNone) = (raw.filter fun m => m.isCastle.isNone) := by
  have hg := getGeometryMoves_king b r c king (some rights) ep hkind
  refine ⟨_, _, getValidMoves_eq rights ep r c true b color king _ hk hg,
    getValidMoves_eq rights ep r c false b color king _ hk hg, ?_, ?_, ?_⟩
  · intro hchk m hm
    rw [if_pos ⟨rfl, hkind⟩] at hm
    have hs := (List.mem_filter.mp hm).2
    cases hc : m.isCastle with
    | none => rfl
    | some side => simp [castleSafe, hc, hchk] at hs
  · intro side hchk m hm hc
    rw [if_pos ⟨rfl, hkind⟩] at hm
    have hs := (List.mem_filter.mp hm).2
    simp [castleSafe, hc, hchk] at hs
  · rw [if_pos ⟨rfl, hkind⟩, if_neg (by simp), List.filter_filter]
    apply List.filter_congr
    intro m _
    cases hc : m.isCastle with
    | none => simp [castleSafe, hc]
    | some side => simp

/-! ## En-passant target -/

/-- C8: for every executed move of legal play from `(r0, c0)`, the en-passant target of the
resulting state is the square midway between origin and destination rows, in the origin
column, when the move is flagged `isDoublePush`, and is `none` otherwise; a half-move that
is not a double push and is completed through `handlePromotion` also ends with no target. -/
theorem C8_en_passant_target (s : State) (r0 c0 : Int) (piece : Piece) (moves : List Move)
    (m : Move) (hp : s.board.get r0 c0 = some piece) (hc : piece.color = s.turn)
    (hv : getValidMoves s.castlingRights s.enPassantTarget r0 c0 true s.board s.turn = some moves)
    (hm : m ∈ moves) :
    ∃ s1, executeMove s r0 c0 m = some s1 ∧
      (m.isDoublePush = true →
        ∃ mid : Int, mid + mid = r0 + m.r ∧ m.c = c0 ∧ s1.enPassantTarget = some ⟨mid, c0⟩) ∧
      (m.isDoublePush = false → s1.enPassantTarget = none ∧
        ∀ (kind : Kind) (s2 : State), handlePromotion s1 kind = some s2 →
          s2.enPassantTarget = none) := by
  obtain ⟨s1, he, _, _, hep, _, _⟩ := executeMove_some s r0 c0 m piece hp
  obtain ⟨geo, hg, hall⟩ := getValidMoves_some _ _ _ _ _ _ _ piece moves hp hv
  have hmg := (hall m hm).1
  have hb := Board.inBounds_of_get _ _ _ _ hp
  refine ⟨s1, he, ?_, ?_⟩
  · intro hd
    rcases geometry_cases _ _ _ _ _ _ _ m hb hg hmg with h | h | h | h | h
    · rw [h.1] at hd
      cases hd
    · obtain ⟨_, hm2, hr, _, _⟩ := h
      rw [hep, hm2]
      simp only [moveEpTarget, if_true]
      rw [← hc]
      cases hcol : piece.color with
      | w =>
        rw [hcol] at hr
        simp only [forward, startRow] at hr ⊢
        exact ⟨r0 + -1 * 2 + 1, by omega, trivial, by simp⟩
      | b =>
        rw [hcol] at hr
        simp only [forward, startRow] at hr ⊢
        exact ⟨r0 + 1 * 2 - 1, by omega, trivial, by simp⟩
    · rw [h.2.1] at hd
      cases hd
    · rw [h.2.1] at hd
      cases hd
    · rw [h.2.1] at hd
      cases hd
  · intro hd
    have h1 : s1.enPassantTarget = none := by
      rw [hep]
      simp [moveEpTarget, hd]
    refine ⟨h1, ?_⟩
    intro kind s2 h2
    cases hpr : s1.promotionSquare with
    | none => simp [handlePromotion, hpr] at h2
    | some pr =>
      obtain ⟨s3, h3, _, _, h4, _⟩ := handlePromotion_some s1 kind pr hpr
      rw [h3] at h2
      cases h2
      rw [h4, h1]

/-! ## Castling -/

theorem moveBoard_castle_k (b : Board) (r c mr mc : Int) (piece : Piece) (dp : Bool) :
    moveBoard b r c piece ⟨mr, mc, dp, false, some CastleSide.k⟩ =
      ((((b.set mr mc (some piece)).set r c none).set r 5
        (((b.set mr mc (some piece)).set r c none).get r 7)).set r 7 none) := rfl

theorem moveBoard_castle_q (b : Board) (r c mr mc : Int) (piece : Piece) (dp : Bool) :
    moveBoard b r c piece ⟨mr, mc, dp, false, some CastleSide.q⟩ =
      ((((b.set mr mc (some piece)).set r c none).set r 3
        (((b.set mr mc (some piece)).set r c none).get r 0)).set r 0 none) := rfl

theorem moveBoard_plain (b : Board) (r c mr mc : Int) (piece : Piece) (dp : Bool) :
    moveBoard b r c piece ⟨mr, mc, dp, false, none⟩ =
      (b.set mr mc (some piece)).set r c none := rfl

theorem moveBoard_en_passant (b : Board) (r c mr mc : Int) (piece : Piece) (dp : Bool) :
    moveBoard b r c piece ⟨mr, mc, dp, true, none⟩ =
      ((b.set mr mc (some piece)).set r c none).set r mc none := rfl

theorem clear_rights_get (rt : CastlingRights) (color : Color) :
    ((rt.clearKing color).clearQueen color).get color = ⟨false, false⟩ := by
  cases color <;> rfl

/-- C9: with the king of the side to move on its home square (column 4 of the home row),
not in check, the king-side right true, the own rook on column 7, columns 5 and 6 empty,
and `isKingInCheck` false on the boards with the king moved to column 5 and to column 6:
`getValidMoves` contains the move to column 6 flagged `isCastle 'k'`, and `executeMove` of
it leaves the king on column 6, the rook on column 5, columns 4 and 7 empty, every other
square unchanged and both rights of the mover false.  The same holds queen-side (king to
column 2, rook from column 0 to column 3, columns 1, 2, 3 empty), for white on row 7 and
for black on row 0. -/
theorem C9_castling (s : State) (col : Color) (hturn : s.turn = col)
    (hk : s.board.get (homeRow col) 4 = some ⟨Kind.k, col⟩)
    (hnc : isKingInCheck s.board col = false) :
    ((s.board.get (homeRow col) 7 = some ⟨Kind.r, col⟩ ∧
      s.board.get (homeRow col) 5 = none ∧ s.board.get (homeRow col) 6 = none ∧
      (s.castlingRights.get col).kingSide = true ∧
      isKingInCheck ((s.board.set (homeRow col) 5 (some ⟨Kind.k, col⟩)).set (homeRow col) 4 none)
        col = false ∧
      isKingInCheck ((s.board.set (homeRow col) 6 (some ⟨Kind.k, col⟩)).set (homeRow col) 4 none)
        col = false) →
      ∃ (moves : List Move) (s1 : State),
        getValidMoves s.castlingRights s.enPassantTarget (homeRow col) 4 true s.board col
          = some moves ∧
        (⟨homeRow col, 6, false, false, some CastleSide.k⟩ : Move) ∈ moves ∧
        executeMove s (homeRow col) 4 ⟨homeRow col, 6, false, false, some CastleSide.k⟩
          = some s1 ∧
        s1.board.get (homeRow col) 6 = some ⟨Kind.k, col⟩ ∧
        s1.board.get (homeRow col) 5 = some ⟨Kind.r, col⟩ ∧
        s1.board.get (homeRow col) 4 = none ∧
        s1.board.get (homeRow col) 7 = none ∧
        (∀ r c : Int, ¬ (r = homeRow col ∧ (c = 4 ∨ c = 5 ∨ c = 6 ∨ c = 7)) →
          s1.board.get r c = s.board.get r c) ∧
        s1.castlingRights.get col = ⟨false, false⟩) ∧
    ((s.board.get (homeRow col) 0 = some ⟨Kind.r, col⟩ ∧
      s.board.get (homeRow col) 1 = none ∧ s.board.get (homeRow col) 2 = none ∧
      s.board.get (homeRow col) 3 = none ∧
      (s.castlingRights.get col).queenSide = true ∧
      isKingInCheck ((s.board.set (homeRow col) 3 (some ⟨Kind.k, col⟩)).set (homeRow col) 4 none)
        col = false ∧
      isKingInCheck ((s.board.set (homeRow col) 2 (some ⟨Kind.k, col⟩)).set (homeRow col) 4 none)
        col = false) →
      ∃ (moves : List Move) (s1 : State),
        getValidMoves s.castlingRights s.enPassantTarget (homeRow col) 4 true s.board col
          = some moves ∧
        (⟨homeRow col, 2, false, false, some CastleSide.q⟩ : Move) ∈ moves ∧
        executeMove s (homeRow col) 4 ⟨homeRow col, 2, false, false, some CastleSide.q⟩
          = some s1 ∧
        s1.board.get (homeRow col) 2 = some ⟨Kind.k, col⟩ ∧
        s1.board.get (homeRow col) 3 = some ⟨Kind.r, col⟩ ∧
        s1.board.get (homeRow col) 4 = none ∧
        s1.board.get (homeRow col) 0 = none ∧
        (∀ r c : Int, ¬ (r = homeRow col ∧ (c = 0 ∨ c = 2 ∨ c = 3 ∨ c = 4)) →
          s1.board.get r c = s.board.get r c) ∧
        s1.castlingRights.get col = ⟨false, false⟩) := by
  have hg := getGeometryMoves_king s.board (homeRow col) 4 ⟨Kind.k, col⟩
    (some s.castlingRights) s.enPassantTarget rfl
  have hv := getValidMoves_eq s.castlingRights s.enPassantTarget (homeRow col) 4 true s.board col
    ⟨Kind.k, col⟩ _ hk hg
  rw [if_pos ⟨rfl, rfl⟩] at hv
  have hh : homeRow col = 7 ∨ homeRow col = 0 := by
    cases col
    · exact Or.inl rfl
    · exact Or.inr rfl
  have hb : ∀ c : Int, 0 ≤ c → c < 8 → inBounds (homeRow col) c = true := by
    intro c h1 h2
    rw [inBounds_iff]
    rcases hh with h | h <;> rw [h] <;> omega
  constructor
  · rintro ⟨hrook, h5, h6, hright, hpath, hdest⟩
    obtain ⟨s1, he, hbd, hrt, _, _, _⟩ := executeMove_some s (homeRow col) 4
      ⟨homeRow col, 6, false, false, some CastleSide.k⟩ _ hk
    refine ⟨_, s1, hv, ?_, he, ?_, ?_, ?_, ?_, ?_, ?_⟩
    · rw [List.mem_filter, List.mem_filter]
      refine ⟨⟨?_, ?_⟩, ?_⟩
      · rw [List.mem_append]
        right
        rw [mem_castleMoves]
        refine ⟨_, rfl, Or.inl ⟨rfl, hright, ?_, ?_⟩⟩
        · rw [Board.isNull_iff]
          exact ⟨by omega, h5⟩
        · rw [Board.isNull_iff]
          exact ⟨by omega, h6⟩
      · have : tempBoard s.board (homeRow col) 4 ⟨Kind.k, col⟩
            ⟨homeRow col, 6, false, false, some CastleSide.k⟩ =
            (s.board.set (homeRow col) 6 (some ⟨Kind.k, col⟩)).set (homeRow col) 4 none := rfl
        rw [this, hdest]
        rfl
      · have : pathBoard s.board (homeRow col) 4 ⟨Kind.k, col⟩ CastleSide.k =
            (s.board.set (homeRow col) 5 (some ⟨Kind.k, col⟩)).set (homeRow col) 4 none := rfl
        simp only [castleSafe, hnc, this, hpath]
        rfl
    · rw [hbd]
      simp [moveBoard, Board.get_set, hb]
    · rw [hbd]
      simp [moveBoard, Board.get_set, hb, hrook]
    · rw [hbd]
      simp [moveBoard, Board.get_set, hb]
    · rw [hbd]
      simp [moveBoard, Board.get_set, hb]
    · intro r c hne
      rw [hbd, moveBoard_castle_k]
      rw [Board.get_set_ne _ _ _ _ _ _ (by omega), Board.get_set_ne _ _ _ _ _ _ (by omega),
        Board.get_set_ne _ _ _ _ _ _ (by omega), Board.get_set_ne _ _ _ _ _ _ (by omega)]
    · rw [hrt, ← hturn]
      simp only [moveRights, if_true]
      rw [hturn, h6]
      simp only [Kind.noConfusion, if_false]
      rw [← hturn]
      exact clear_rights_get _ _
  · rintro ⟨hrook, h1, h2, h3, hright, hpath, hdest⟩
    obtain ⟨s1, he, hbd, hrt, _, _, _⟩ := executeMove_some s (homeRow col) 4
      ⟨homeRow col, 2, false, false, some CastleSide.q⟩ _ hk
    refine ⟨_, s1, hv, ?_, he, ?_, ?_, ?_, ?_, ?_, ?_⟩
    · rw [List.mem_filter, List.mem_filter]
      refine ⟨⟨?_, ?_⟩, ?_⟩
      · rw [List.mem_append]
        right
        rw [mem_castleMoves]
        refine ⟨_, rfl, Or.inr ⟨rfl, hright, ?_, ?_, ?_⟩⟩
        · rw [Board.isNull_iff]
          exact ⟨by omega, h3⟩
        · rw [Board.isNull_iff]
          exact ⟨by omega, h2⟩
        · rw [Board.isNull_iff]
          exact ⟨by omega, h1⟩
      · have : tempBoard s.board (homeRow col) 4 ⟨Kind.k, col⟩
            ⟨homeRow col, 2, false, false, some CastleSide.q⟩ =
            (s.board.set (homeRow col) 2 (some ⟨Kind.k, col⟩)).set (homeRow col) 4 none := rfl
        rw [this, hdest]
        rfl
      · have : pathBoard s.board (homeRow col) 4 ⟨Kind.k, col⟩ CastleSide.q =
            (s.board.set (homeRow col) 3 (some ⟨Kind.k, col⟩)).set (homeRow col) 4 none := rfl
        simp only [castleSafe, hnc, this, hpath]
        rfl
    · rw [hbd]
      simp [moveBoard, Board.get_set, hb]
    · rw [hbd]
      simp [moveBoard, Board.get_set, hb, hrook]
    · rw [hbd]
      simp [moveBoard, Board.get_set, hb]
    · rw [hbd]
      simp [moveBoard, Board.get_set, hb]
    · intro r c hne
      rw [hbd, moveBoard_castle_q]
      rw [Board.get_set_ne _ _ _ _ _ _ (by omega), Board.get_set_ne _ _ _ _ _ _ (by omega),
        Board.get_set_ne _ _ _ _ _ _ (by omega), Board.get_set_ne _ _ _ _ _ _ (by omega)]
    · rw [hrt, ← hturn]
      simp only [moveRights, if_true]
      rw [hturn, h2]
      simp only [Kind.noConfusion, if_false]
      rw [← hturn]
      exact clear_rights_get _ _

/-! ## En passant -/

theorem forward_other (color : Color) : forward color.other = -forward color := by
  cases color <;> rfl

/-- After a double push from `(r0, c)` executed into `s1`, an enemy pawn beside the landing
square has the en-passant capture onto the passed-over square: in its geometry moves, in
its valid moves exactly when the resulting board leaves its king safe, and executed by
`executeMove` with the three expected squares rewritten and no other. -/
theorem en_passant_after_double_push (s s1 : State) (r0 c : Int) (pawn : Piece) (moves : List Move) (m : Move)
    (hp : s.board.get r0 c = some pawn) (hcol : pawn.color = s.turn)
    (hv : getValidMoves s.castlingRights s.enPassantTarget r0 c true s.board s.turn = some moves)
    (hm : m ∈ moves) (hd : m.isDoublePush = true)
    (he : executeMove s r0 c m = some s1)
    (dc : Int) (hdc : dc = -1 ∨ dc = 1)
    (henemy : s1.board.get m.r (c + dc) = some ⟨Kind.p, s.turn.other⟩) :
    s1.turn = s.turn.other ∧ s1.board.get m.r c = some pawn ∧
    (∃ geo, getGeometryMoves s1.board m.r (c + dc) ⟨Kind.p, s.turn.other⟩
        (some s1.castlingRights) s1.enPassantTarget = some geo ∧
      Move.enPassant (r0 + forward s.turn) c ∈ geo) ∧
    (∃ valid, getValidMoves s1.castlingRights s1.enPassantTarget m.r (c + dc) true s1.board
        s1.turn = some valid ∧
      (Move.enPassant (r0 + forward s.turn) c ∈ valid ↔
        isKingInCheck (moveBoard s1.board m.r (c + dc) ⟨Kind.p, s.turn.other⟩
          (Move.enPassant (r0 + forward s.turn) c)) s1.turn = false)) ∧
    (∃ s2, executeMove s1 m.r (c + dc) (Move.enPassant (r0 + forward s.turn) c) = some s2 ∧
      s2.board.get (r0 + forward s.turn) c = some ⟨Kind.p, s.turn.other⟩ ∧
      s2.board.get m.r (c + dc) = none ∧
      s2.board.get m.r c = none ∧
      ∀ r1 c1 : Int, ¬ (r1 = r0 + forward s.turn ∧ c1 = c) → ¬ (r1 = m.r ∧ c1 = c + dc) →
        ¬ (r1 = m.r ∧ c1 = c) → s2.board.get r1 c1 = s1.board.get r1 c1) := by
  obtain ⟨s1a, he1, hbd, _, hep, _, hturn⟩ := executeMove_some s r0 c m pawn hp
  rw [he] at he1
  cases he1
  obtain ⟨geo0, hg0, hall⟩ := getValidMoves_some _ _ _ _ _ _ _ pawn moves hp hv
  have hb0 := Board.inBounds_of_get _ _ _ _ hp
  have hbe := Board.inBounds_of_get _ _ _ _ henemy
  have hshape : m = ⟨r0 + forward s.turn * 2, c, true, false, none⟩ ∧ r0 = startRow s.turn := by
    rcases geometry_cases _ _ _ _ _ _ _ m hb0 hg0 (hall m hm).1 with h | h | h | h | h
    · rw [h.1] at hd
      cases hd
    · rw [← hcol]
      exact ⟨h.2.1, h.2.2.1⟩
    · rw [h.2.1] at hd
      cases hd
    · rw [h.2.1] at hd
      cases hd
    · rw [h.2.1] at hd
      cases hd
  obtain ⟨hm2, hr0⟩ := hshape
  subst hm2
  dsimp only at henemy hbe hbd hep hturn ⊢
  -- the facts about rows, per colour
  have hrows : (r0 + forward s.turn * 2 ≠ 0 ∧ r0 + forward s.turn * 2 ≠ 7) ∧
      (0 ≤ r0 + forward s.turn ∧ r0 + forward s.turn < 8) ∧
      (0 ≤ r0 + forward s.turn * 2 ∧ r0 + forward s.turn * 2 < 8) ∧
      (forward s.turn = 1 ∨ forward s.turn = -1) ∧
      moveEpTarget s.turn ⟨r0 + forward s.turn * 2, c, true, false, none⟩
        = some ⟨r0 + forward s.turn, c⟩ := by
    cases ht : s.turn with
    | w =>
      rw [ht] at hr0
      simp only [startRow] at hr0
      subst hr0
      simp [forward, moveEpTarget]
    | b =>
      rw [ht] at hr0
      simp only [startRow] at hr0
      subst hr0
      simp [forward, moveEpTarget]
  obtain ⟨hnot, hin1, hin2, hf, hept⟩ := hrows
  have hturn1 : s1.turn = s.turn.other := by
    refine (hturn ?_).1
    rintro ⟨_, h | h⟩
    · exact hnot.1 h
    · exact hnot.2 h
  have hcb : 0 ≤ c ∧ c < 8 := ((inBounds_iff _ _).mp hb0).2
  have hcdb : 0 ≤ c + dc ∧ c + dc < 8 := ((inBounds_iff _ _).mp hbe).2
  have hep1 : s1.enPassantTarget = some ⟨r0 + forward s.turn, c⟩ := by rw [hep, hept]
  have hin : inBounds (r0 + forward s.turn) c = true := (inBounds_iff _ _).mpr ⟨hin1, hcb⟩
  have hfo : r0 + forward s.turn * 2 + forward s.turn.other = r0 + forward s.turn := by
    rw [forward_other]; ring
  -- the geometry of the capturing pawn
  have hgeo : ∃ geo, getGeometryMoves s1.board (r0 + forward s.turn * 2) (c + dc)
      ⟨Kind.p, s.turn.other⟩ (some s1.castlingRights) s1.enPassantTarget = some geo ∧
      Move.enPassant (r0 + forward s.turn) c ∈ geo := by
    rw [getGeometryMoves_pawn _ _ _ _ _ _ rfl]
    cases hpm : pawnMoves s1.board s.turn.other s1.enPassantTarget
        (r0 + forward s.turn * 2) (c + dc) with
    | none =>
      have := pawnMoves_isSome s1.board s.turn.other s1.enPassantTarget
        (r0 + forward s.turn * 2) (c + dc)
      rw [hpm, hfo] at this
      have h2 : inB (r0 + forward s.turn) = true := (inB_iff _).mpr hin1
      rw [h2] at this
      cases this
    | some geo =>
      refine ⟨geo, rfl, ?_⟩
      rw [mem_pawnMoves _ _ _ _ _ geo hpm]
      rcases hdc with h | h
      · right; right; right
        rw [mem_pawnCapture, hfo]
        subst h
        have e : c + -1 + 1 = c := by ring
        rw [e]
        exact ⟨hin, Or.inr ⟨rfl, hep1⟩⟩
      · right; right; left
        rw [mem_pawnCapture, hfo]
        subst h
        have e : c + 1 + -1 = c := by ring
        rw [e]
        exact ⟨hin, Or.inr ⟨rfl, hep1⟩⟩
  obtain ⟨geo, hgeo1, hgeo2⟩ := hgeo
  refine ⟨hturn1, ?_, ⟨geo, hgeo1, hgeo2⟩, ?_, ?_⟩
  · rw [hbd, moveBoard_plain, Board.get_set_ne _ _ _ _ _ _ (by omega), Board.get_set_same]
    exact (inBounds_iff _ _).mpr ⟨hin2, hcb⟩
  · refine ⟨_, getValidMoves_eq _ _ _ _ _ _ _ ⟨Kind.p, s.turn.other⟩ geo henemy hgeo1, ?_⟩
    rw [if_neg (by simp), List.mem_filter]
    have : tempBoard s1.board (r0 + forward s.turn * 2) (c + dc) ⟨Kind.p, s.turn.other⟩
        (Move.enPassant (r0 + forward s.turn) c) =
        moveBoard s1.board (r0 + forward s.turn * 2) (c + dc) ⟨Kind.p, s.turn.other⟩
        (Move.enPassant (r0 + forward s.turn) c) := rfl
    rw [this]
    simp [hgeo2]
  · obtain ⟨s2, he2, hbd2, _⟩ := executeMove_some s1 (r0 + forward s.turn * 2) (c + dc)
      (Move.enPassant (r0 + forward s.turn) c) _ henemy
    refine ⟨s2, he2, ?_, ?_, ?_, ?_⟩
    · rw [hbd2, Move.enPassant, moveBoard_en_passant, Board.get_set_ne _ _ _ _ _ _ (by omega),
        Board.get_set_ne _ _ _ _ _ _ (by omega), Board.get_set_same _ _ _ _ hin]
    · rw [hbd2, Move.enPassant, moveBoard_en_passant, Board.get_set_ne _ _ _ _ _ _ (by omega),
        Board.get_set_same _ _ _ _ hbe]
    · rw [hbd2, Move.enPassant, moveBoard_en_passant, Board.get_set_same]
      exact (inBounds_iff _ _).mpr ⟨hin2, hcb⟩
    · intro r1 c1 h1 h2 h3
      rw [hbd2, Move.enPassant, moveBoard_en_passant, Board.get_set_ne _ _ _ _ _ _ h3,
        Board.get_set_ne _ _ _ _ _ _ h2, Board.get_set_ne _ _ _ _ _ _ h1]

/-! ## The game-over check -/

theorem getValidMoves_total (rights : CastlingRights) (ep : Option Square) (r c : Int)
    (safety : Bool) (b : Board) (color : Color) (p : Piece) (hp : b.get r c = some p)
    (hrank : p.kind = Kind.p → inB (r + forward p.color) = true) :
    ∃ moves, getValidMoves rights ep r c safety b color = some moves := by
  have hg : ∃ geo, getGeometryMoves b r c p (some rights) ep = some geo := by
    cases hk : p.kind with
    | p =>
      rw [getGeometryMoves_pawn _ _ _ _ _ _ hk]
      have := pawnMoves_isSome b p.color ep r c
      rw [hrank hk] at this
      exact Option.isSome_iff_exists.mp this
    | n => exact ⟨_, getGeometryMoves_knight _ _ _ _ _ _ hk⟩
    | b => exact ⟨_, getGeometryMoves_bishop _ _ _ _ _ _ hk⟩
    | r => exact ⟨_, getGeometryMoves_rook _ _ _ _ _ _ hk⟩
    | q => exact ⟨_, getGeometryMoves_queen _ _ _ _ _ _ hk⟩
    | k => exact ⟨_, getGeometryMoves_king _ _ _ _ _ _ hk⟩
  obtain ⟨geo, hgeo⟩ := hg
  exact ⟨_, getValidMoves_eq rights ep r c safety b color p geo hp hgeo⟩

theorem forall_squares (P : Int → Int → Bool)
    (h : allSquares.all (fun sq => P sq.1 sq.2) = true) :
    ∀ r c : Int, inBounds r c = true → P r c = true := by
  intro r c hb
  exact List.all_eq_true.mp h (r, c) ((mem_allSquares r c).mpr hb)

/-! ## Changing one square: what the attack detector can notice -/

theorem kingInRow_congr (b1 b2 : Board) (kingColor : Color) (r : Int)
    (h : ∀ c : Int, b1.get r c = some ⟨Kind.k, kingColor⟩ ↔
      b2.get r c = some ⟨Kind.k, kingColor⟩) :
    kingInRow b1 kingColor r = kingInRow b2 kingColor r := by
  unfold kingInRow
  congr 1
  funext c
  exact decide_eq_decide.mpr (h c)

theorem locateKing_congr (b1 b2 : Board) (kingColor : Color)
    (h : ∀ r c : Int, b1.get r c = some ⟨Kind.k, kingColor⟩ ↔
      b2.get r c = some ⟨Kind.k, kingColor⟩) :
    locateKing b1 kingColor = locateKing b2 kingColor := by
  unfold locateKing
  congr 1
  funext acc r
  rw [kingInRow_congr b1 b2 kingColor r (h r)]

/-- Writing a value that is not an enemy piece on a square cannot create an attack on
`(kR, kC)`, provided that, when the square is emptied, no ray from `(kR, kC)` continues
on the board behind it. -/
theorem attackedAt_set_mono (b : Board) (kingColor : Color) (kR kC qr qc : Int) (v : Cell)
    (hv : ∀ kind : Kind, isEnemy v kingColor.other kind = false)
    (hedge : v = none → ∀ d ∈ queenDirs, ∀ j : Nat,
      qr = kR + (j + 1) * d.1 → qc = kC + (j + 1) * d.2 →
      inBounds (qr + d.1) (qc + d.2) = false)
    (h : attackedAt (b.set qr qc v) kingColor kR kC = true) :
    attackedAt b kingColor kR kC = true := by
  -- a probe of one cell
  have cell : ∀ (r c : Int) (kind : Kind),
      isEnemy ((b.set qr qc v).get r c) kingColor.other kind = true →
      isEnemy (b.get r c) kingColor.other kind = true := by
    intro r c kind hc
    rw [Board.get_set] at hc
    by_cases hq : inBounds r c = true ∧ r = qr ∧ c = qc
    · rw [if_pos hq, hv kind] at hc
      cases hc
    · rw [if_neg hq] at hc
      exact hc
  -- a ray probe
  have ray : ∀ (k1 k2 : Kind) (d : Int × Int), d ∈ queenDirs →
      rayLoop (b.set qr qc v) kingColor.other k1 k2 d.1 d.2 8 (kR + d.1) (kC + d.2) = true →
      rayLoop b kingColor.other k1 k2 d.1 d.2 8 (kR + d.1) (kC + d.2) = true := by
    intro k1 k2 d hd hr
    rw [rayLoop_eq_true] at hr ⊢
    obtain ⟨k, hk, hcl, hin, p, hp, hpc, hpk⟩ := hr
    have hpb : b.get (kR + (k + 1) * d.1) (kC + (k + 1) * d.2) = some p := by
      rw [Board.get_set] at hp
      by_cases hq : inBounds (kR + (k + 1) * d.1) (kC + (k + 1) * d.2) = true ∧
          kR + (k + 1) * d.1 = qr ∧ kC + (k + 1) * d.2 = qc
      · rw [if_pos hq] at hp
        have := hv p.kind
        rw [hp] at this
        simp [isEnemy, hpc] at this
      · rw [if_neg hq] at hp
        exact hp
    refine ⟨k, hk, ?_, hin, p, hpb, hpc, hpk⟩
    intro j hj
    obtain ⟨hjin, hjg⟩ := hcl j hj
    refine ⟨hjin, ?_⟩
    rw [Board.get_set] at hjg
    by_cases hq : inBounds (kR + (j + 1) * d.1) (kC + (j + 1) * d.2) = true ∧
        kR + (j + 1) * d.1 = qr ∧ kC + (j + 1) * d.2 = qc
    · rw [if_pos hq] at hjg
      exfalso
      have hnext := hedge hjg d hd j hq.2.1.symm hq.2.2.symm
      have hin2 : inBounds (kR + ((j + 1 : Nat) + 1) * d.1) (kC + ((j + 1 : Nat) + 1) * d.2)
          = true := by
        by_cases hjk : j + 1 < k
        · exact (hcl (j + 1) hjk).1
        · have : j + 1 = k := by omega
          rw [this]
          exact hin
      have e1 : qr + d.1 = kR + (((j + 1 : Nat) : Int) + 1) * d.1 := by
        rw [← hq.2.1]; push_cast; ring
      have e2 : qc + d.2 = kC + (((j + 1 : Nat) : Int) + 1) * d.2 := by
        rw [← hq.2.2]; push_cast; ring
      rw [e1, e2, hin2] at hnext
      cases hnext
    · rw [if_neg hq] at hjg
      exact hjg
  simp only [attackedAt, Bool.or_eq_true, List.any_eq_true, Bool.and_eq_true] at h ⊢
  rcases h with (((h | h) | h) | h) | h
  · obtain ⟨d, hd, hin, he⟩ := h
    exact Or.inl (Or.inl (Or.inl (Or.inl ⟨d, hd, hin, cell _ _ _ he⟩)))
  · obtain ⟨d, hd, hr⟩ := h
    exact Or.inl (Or.inl (Or.inl (Or.inr
      ⟨d, hd, ray _ _ d ((mem_queenDirs d).mpr (Or.inr hd)) hr⟩)))
  · obtain ⟨d, hd, hr⟩ := h
    exact Or.inl (Or.inl (Or.inr ⟨d, hd, ray _ _ d ((mem_queenDirs d).mpr (Or.inl hd)) hr⟩))
  · obtain ⟨hin, he | he⟩ := h
    · exact Or.inl (Or.inr ⟨hin, Or.inl (cell _ _ _ he)⟩)
    · exact Or.inl (Or.inr ⟨hin, Or.inr (cell _ _ _ he)⟩)
  · obtain ⟨d, hd, hin, he⟩ := h
    exact Or.inr ⟨d, hd, hin, cell _ _ _ he⟩

/-- Replacing a piece that is not the king of `kingColor` by a piece of that colour that
is not a king never turns `isKingInCheck` from false to true. -/
theorem isKingInCheck_set_own (b : Board) (kingColor : Color) (qr qc : Int) (kind : Kind)
    (hq : b.get qr qc ≠ some ⟨Kind.k, kingColor⟩) (hkind : kind ≠ Kind.k)
    (h : isKingInCheck b kingColor = false) :
    isKingInCheck (b.set qr qc (some ⟨kind, kingColor⟩)) kingColor = false := by
  have hloc : locateKing (b.set qr qc (some ⟨kind, kingColor⟩)) kingColor
      = locateKing b kingColor := by
    apply locateKing_congr
    intro r c
    rw [Board.get_set]
    by_cases hx : inBounds r c = true ∧ r = qr ∧ c = qc
    · rw [if_pos hx, hx.2.1, hx.2.2]
      constructor
      · intro h1
        simp only [Option.some.injEq, Piece.mk.injEq] at h1
        exact absurd h1.1 hkind
      · intro h1
        exact absurd h1 hq
    · rw [if_neg hx]
  unfold isKingInCheck at h ⊢
  rw [hloc]
  cases hl : locateKing b kingColor with
  | none => simp [hl] at h
  | some k =>
    simp only [hl] at h ⊢
    cases ha : attackedAt (b.set qr qc (some ⟨kind, kingColor⟩)) kingColor k.r k.c with
    | false => rfl
    | true =>
      have := attackedAt_set_mono b kingColor k.r k.c qr qc _ (by
        intro kd
        simp only [isEnemy, Bool.and_eq_false_imp, decide_eq_true_eq]
        intro hc
        exact absurd hc.symm (Color.other_ne kingColor)) (by
        intro hn
        cases hn) ha
      rw [h] at this
      cases this

theorem isKingInCheck_clear_edge (b : Board) (kingColor : Color) (kR kC qr qc : Int)
    (hloc : locateKing b kingColor = some ⟨kR, kC⟩)
    (hq : b.get qr qc ≠ some ⟨Kind.k, kingColor⟩)
    (hedge : ∀ d ∈ queenDirs, ∀ j : Nat,
      qr = kR + (j + 1) * d.1 → qc = kC + (j + 1) * d.2 →
      inBounds (qr + d.1) (qc + d.2) = false)
    (h : isKingInCheck b kingColor = false) :
    isKingInCheck (b.set qr qc none) kingColor = false := by
  have hloc2 : locateKing (b.set qr qc none) kingColor = locateKing b kingColor := by
    apply locateKing_congr
    intro r c
    rw [Board.get_set]
    by_cases hx : inBounds r c = true ∧ r = qr ∧ c = qc
    · rw [if_pos hx, hx.2.1, hx.2.2]
      constructor
      · intro h1
        cases h1
      · intro h1
        exact absurd h1 hq
    · rw [if_neg hx]
  unfold isKingInCheck at h ⊢
  rw [hloc2, hloc] at *
  simp only at h ⊢
  cases ha : attackedAt (b.set qr qc none) kingColor kR kC with
  | false => rfl
  | true =>
    have := attackedAt_set_mono b kingColor kR kC qr qc none (by
      intro kd
      rfl) (fun _ => hedge) ha
    rw [h] at this
    cases this

/-! ## Castling rights bookkeeping -/

theorem RightsLe.refl (a : CastlingRights) : RightsLe a a :=
  fun _ => ⟨id, id⟩

theorem RightsLe.trans {a b c : CastlingRights} (h1 : RightsLe a b) (h2 : RightsLe b c) :
    RightsLe a c :=
  fun col => ⟨fun h => (h2 col).1 ((h1 col).1 h), fun h => (h2 col).2 ((h1 col).2 h)⟩

theorem clearKing_le (rt : CastlingRights) (color : Color) : RightsLe (rt.clearKing color) rt := by
  intro col
  cases color <;> cases col <;> simp [CastlingRights.clearKing, CastlingRights.get]

theorem clearQueen_le (rt : CastlingRights) (color : Color) :
    RightsLe (rt.clearQueen color) rt := by
  intro col
  cases color <;> cases col <;> simp [CastlingRights.clearQueen, CastlingRights.get]

theorem clearKing_get (rt : CastlingRights) (color : Color) :
    ((rt.clearKing color).get color).kingSide = false := by
  cases color <;> rfl

theorem clearQueen_get (rt : CastlingRights) (color : Color) :
    ((rt.clearQueen color).get color).queenSide = false := by
  cases color <;> rfl

theorem ite_le (p : Prop) [Decidable p] (a b : CastlingRights) (h : RightsLe a b) :
    RightsLe (if p then a else b) b := by
  by_cases hp : p
  · rw [if_pos hp]; exact h
  · rw [if_neg hp]; exact RightsLe.refl b

/-- The rights after the king and rook steps of `executeMove`. -/
theorem moveRights_le (board : Board) (turn : Color) (rights : CastlingRights) (startC : Int)
    (piece : Piece) (move : Move) :
    RightsLe (moveRights board turn rights startC piece move) rights := by
  unfold moveRights
  have h1 : RightsLe (if piece.kind = Kind.k then (rights.clearKing turn).clearQueen turn
      else rights) rights :=
    ite_le _ _ _ ((clearQueen_le _ _).trans (clearKing_le _ _))
  have h2 : ∀ r1 : CastlingRights, RightsLe (if piece.kind = Kind.r then
      (if startC = 7 then (if startC = 0 then r1.clearQueen turn else r1).clearKing turn
        else (if startC = 0 then r1.clearQueen turn else r1)) else r1) r1 := by
    intro r1
    apply ite_le
    by_cases h7 : startC = 7
    · rw [if_pos h7]
      exact (clearKing_le _ _).trans (ite_le _ _ _ (clearQueen_le _ _))
    · rw [if_neg h7]
      exact ite_le _ _ _ (clearQueen_le _ _)
  have h3 : ∀ r2 : CastlingRights, RightsLe
      (if move.r = 7 ∧ move.c = 7 then
        (if move.r = 7 ∧ move.c = 0 then
          (if move.r = 0 ∧ move.c = 7 then
            (if move.r = 0 ∧ move.c = 0 then r2.clearQueen Color.b else r2).clearKing Color.b
          else (if move.r = 0 ∧ move.c = 0 then r2.clearQueen Color.b else r2)).clearQueen Color.w
        else (if move.r = 0 ∧ move.c = 7 then
            (if move.r = 0 ∧ move.c = 0 then r2.clearQueen Color.b else r2).clearKing Color.b
          else (if move.r = 0 ∧ move.c = 0 then r2.clearQueen Color.b else r2))).clearKing Color.w
      else
        (if move.r = 7 ∧ move.c = 0 then
          (if move.r = 0 ∧ move.c = 7 then
            (if move.r = 0 ∧ move.c = 0 then r2.clearQueen Color.b else r2).clearKing Color.b
          else (if move.r = 0 ∧ move.c = 0 then r2.clearQueen Color.b else r2)).clearQueen Color.w
        else (if move.r = 0 ∧ move.c = 7 then
            (if move.r = 0 ∧ move.c = 0 then r2.clearQueen Color.b else r2).clearKing Color.b
          else (if move.r = 0 ∧ move.c = 0 then r2.clearQueen Color.b else r2)))) r2 := by
    intro r2
    have a0 : RightsLe (if move.r = 0 ∧ move.c = 0 then r2.clearQueen Color.b else r2) r2 :=
      ite_le _ _ _ (clearQueen_le _ _)
    have a1 : RightsLe (if move.r = 0 ∧ move.c = 7 then
            (if move.r = 0 ∧ move.c = 0 then r2.clearQueen Color.b else r2).clearKing Color.b
          else (if move.r = 0 ∧ move.c = 0 then r2.clearQueen Color.b else r2)) r2 := by
      by_cases h : move.r = 0 ∧ move.c = 7
      · rw [if_pos h]; exact (clearKing_le _ _).trans a0
      · rw [if_neg h]; exact a0
    have a2 : RightsLe (if move.r = 7 ∧ move.c = 0 then
          (if move.r = 0 ∧ move.c = 7 then
            (if move.r = 0 ∧ move.c = 0 then r2.clearQueen Color.b else r2).clearKing Color.b
          else (if move.r = 0 ∧ move.c = 0 then r2.clearQueen Color.b else r2)).clearQueen Color.w
        else (if move.r = 0 ∧ move.c = 7 then
            (if move.r = 0 ∧ move.c = 0 then r2.clearQueen Color.b else r2).clearKing Color.b
          else (if move.r = 0 ∧ move.c = 0 then r2.clearQueen Color.b else r2))) r2 := by
      by_cases h : move.r = 7 ∧ move.c = 0
      · rw [if_pos h]; exact (clearQueen_le _ _).trans a1
      · rw [if_neg h]; exact a1
    by_cases h : move.r = 7 ∧ move.c = 7
    · rw [if_pos h]; exact (clearKing_le _ _).trans a2
    · rw [if_neg h]; exact a2
  cases hcap : board.get move.r move.c with
  | none => exact (h2 _).trans h1
  | some cp =>
    simp only
    by_cases hk : cp.kind = Kind.r
    · rw [if_pos hk]
      exact ((h3 _).trans (h2 _)).trans h1
    · rw [if_neg hk]
      exact (h2 _).trans h1

theorem clearKing_kingSide (rt : CastlingRights) (a col : Color) :
    ((rt.clearKing a).get col).kingSide = (decide (col ≠ a) && (rt.get col).kingSide) := by
  cases a <;> cases col <;> simp [CastlingRights.clearKing, CastlingRights.get]

theorem clearKing_queenSide (rt : CastlingRights) (a col : Color) :
    ((rt.clearKing a).get col).queenSide = (rt.get col).queenSide := by
  cases a <;> cases col <;> simp [CastlingRights.clearKing, CastlingRights.get]

theorem clearQueen_queenSide (rt : CastlingRights) (a col : Color) :
    ((rt.clearQueen a).get col).queenSide = (decide (col ≠ a) && (rt.get col).queenSide) := by
  cases a <;> cases col <;> simp [CastlingRights.clearQueen, CastlingRights.get]

theorem clearQueen_kingSide (rt : CastlingRights) (a col : Color) :
    ((rt.clearQueen a).get col).kingSide = (rt.get col).kingSide := by
  cases a <;> cases col <;> simp [CastlingRights.clearQueen, CastlingRights.get]

theorem get_ite_kingSide (p : Prop) [Decidable p] (a b : CastlingRights) (col : Color) :
    ((if p then a else b).get col).kingSide =
      if p then (a.get col).kingSide else (b.get col).kingSide := by
  split <;> rfl

theorem get_ite_queenSide (p : Prop) [Decidable p] (a b : CastlingRights) (col : Color) :
    ((if p then a else b).get col).queenSide =
      if p then (a.get col).queenSide else (b.get col).queenSide := by
  split <;> rfl

/-- The king-side flag of `col` after `executeMove`: it was true, the mover's piece is
neither a king nor a rook from column 7 while `col` is the side to move, and no rook was
captured on the king-side corner of `col`. -/
theorem moveRights_kingSide (board : Board) (turn : Color) (rights : CastlingRights)
    (startC : Int) (piece : Piece) (move : Move) (col : Color) :
    ((moveRights board turn rights startC piece move).get col).kingSide = true ↔
      (rights.get col).kingSide = true ∧ ¬ (piece.kind = Kind.k ∧ col = turn) ∧
      ¬ (piece.kind = Kind.r ∧ startC = 7 ∧ col = turn) ∧
      ¬ ((∃ cp, board.get move.r move.c = some cp ∧ cp.kind = Kind.r) ∧
          move.r = homeRow col ∧ move.c = 7) := by
  unfold moveRights
  cases hcap : board.get move.r move.c with
  | none =>
    simp only [get_ite_kingSide, clearKing_kingSide, clearQueen_kingSide, ite_self,
      exists_false, false_and, not_false_eq_true, and_true, reduceCtorEq]
    split_ifs <;> simp_all <;> tauto
  | some cp =>
    simp only [get_ite_kingSide, clearKing_kingSide, clearQueen_kingSide, ite_self,
      Option.some.injEq, exists_eq_left']
    cases col <;> simp only [homeRow] <;> split_ifs <;> simp_all <;> first | omega | tauto

theorem moveRights_queenSide (board : Board) (turn : Color) (rights : CastlingRights)
    (startC : Int) (piece : Piece) (move : Move) (col : Color) :
    ((moveRights board turn rights startC piece move).get col).queenSide = true ↔
      (rights.get col).queenSide = true ∧ ¬ (piece.kind = Kind.k ∧ col = turn) ∧
      ¬ (piece.kind = Kind.r ∧ startC = 0 ∧ col = turn) ∧
      ¬ ((∃ cp, board.get move.r move.c = some cp ∧ cp.kind = Kind.r) ∧
          move.r = homeRow col ∧ move.c = 0) := by
  unfold moveRights
  cases hcap : board.get move.r move.c with
  | none =>
    simp only [get_ite_queenSide, clearKing_queenSide, clearQueen_queenSide, ite_self,
      exists_false, false_and, not_false_eq_true, and_true, reduceCtorEq]
    split_ifs <;> simp_all <;> tauto
  | some cp =>
    simp only [get_ite_queenSide, clearKing_queenSide, clearQueen_queenSide, ite_self,
      Option.some.injEq, exists_eq_left']
    cases col <;> simp only [homeRow] <;> split_ifs <;> simp_all <;> first | omega | tauto

/-! ## Invariants of legal play -/

theorem homeRow_ne (c1 c2 : Color) (h : c1 ≠ c2) : homeRow c1 ≠ homeRow c2 := by
  cases c1 <;> cases c2 <;> simp [homeRow] at h ⊢

theorem homeRow_cases (a : Color) : homeRow a = 7 ∨ homeRow a = 0 := by
  cases a
  · exact Or.inl rfl
  · exact Or.inr rfl

theorem inv_initial : Inv State.initial := by
  refine ⟨rfl, ?_, ?_, ?_, ?_⟩
  · intro col _ r c h
    have hb := Board.inBounds_of_get _ _ _ _ h
    cases col with
    | w =>
      have := forall_squares (fun r c => decide (State.initial.board.get r c
        = some ⟨Kind.k, Color.w⟩ → r = homeRow Color.w ∧ c = 4)) (by decide!) r c hb
      exact of_decide_eq_true this h
    | b =>
      have := forall_squares (fun r c => decide (State.initial.board.get r c
        = some ⟨Kind.k, Color.b⟩ → r = homeRow Color.b ∧ c = 4)) (by decide!) r c hb
      exact of_decide_eq_true this h
  · intro col _
    cases col <;> decide!
  · intro col _
    cases col <;> decide!
  · intro t h
    cases h

/-- Squares that `executeMove` may write, for a move of the geometry generator. -/
theorem moveBoard_get_other (b : Board) (r c : Int) (piece : Piece) (m : Move) (x y : Int)
    (h1 : ¬ (x = m.r ∧ y = m.c)) (h2 : ¬ (x = r ∧ y = c))
    (h3 : m.isEnPassant = true → ¬ (x = r ∧ y = m.c))
    (h4 : m.isCastle = some CastleSide.k → ¬ (x = r ∧ (y = 5 ∨ y = 7)))
    (h5 : m.isCastle = some CastleSide.q → ¬ (x = r ∧ (y = 3 ∨ y = 0))) :
    (moveBoard b r c piece m).get x y = b.get x y := by
  obtain ⟨mr, mc, dp, ep, cs⟩ := m
  simp only at h1 h3 h4 h5
  have base : ((b.set mr mc (some piece)).set r c none).get x y = b.get x y := by
    rw [Board.get_set_ne _ _ _ _ _ _ h2, Board.get_set_ne _ _ _ _ _ _ h1]
  have base2 : (if ep = true then ((b.set mr mc (some piece)).set r c none).set r mc none
      else (b.set mr mc (some piece)).set r c none).get x y = b.get x y := by
    cases ep with
    | false => exact base
    | true =>
      simp only [if_true]
      rw [Board.get_set_ne _ _ _ _ _ _ (h3 rfl)]
      exact base
  cases cs with
  | none => exact base2
  | some side =>
    cases side with
    | k =>
      have := h4 rfl
      show ((_ : Board).set r 5 _ |>.set r 7 none).get x y = b.get x y
      rw [Board.get_set_ne _ _ _ _ _ _ (by omega), Board.get_set_ne _ _ _ _ _ _ (by omega)]
      exact base2
    | q =>
      have := h5 rfl
      show ((_ : Board).set r 3 _ |>.set r 0 none).get x y = b.get x y
      rw [Board.get_set_ne _ _ _ _ _ _ (by omega), Board.get_set_ne _ _ _ _ _ _ (by omega)]
      exact base2
theorem Board.get_set_some (b : Board) (r c x y : Int) (w : Cell) (v : Piece)
    (h : (b.set r c w).get x y = some v) :
    (w = some v ∧ x = r ∧ y = c) ∨ b.get x y = some v := by
  rw [Board.get_set] at h
  by_cases hq : inBounds x y = true ∧ x = r ∧ y = c
  · rw [if_pos hq] at h
    exact Or.inl ⟨h, hq.2⟩
  · rw [if_neg hq] at h
    exact Or.inr h

/-- Where a piece on the board after `executeMove` comes from. -/
theorem moveBoard_get_some (b : Board) (r c : Int) (piece : Piece) (m : Move) (x y : Int)
    (v : Piece) (h : (moveBoard b r c piece m).get x y = some v) :
    b.get x y = some v ∨ v = piece ∨
      (m.isCastle = some CastleSide.k ∧ b.get r 7 = some v) ∨
      (m.isCastle = some CastleSide.q ∧ b.get r 0 = some v) := by
  obtain ⟨mr, mc, dp, ep, cs⟩ := m
  have base : ∀ x y : Int, ((b.set mr mc (some piece)).set r c none).get x y = some v →
      b.get x y = some v ∨ v = piece := by
    intro x y h
    rcases Board.get_set_some _ _ _ _ _ _ _ h with h1 | h1
    · cases h1.1
    · rcases Board.get_set_some _ _ _ _ _ _ _ h1 with h2 | h2
      · simp only [Option.some.injEq] at h2
        exact Or.inr h2.1.symm
      · exact Or.inl h2
  have base2 : ∀ x y : Int,
      (if ep = true then ((b.set mr mc (some piece)).set r c none).set r mc none
        else (b.set mr mc (some piece)).set r c none).get x y = some v →
      b.get x y = some v ∨ v = piece := by
    intro x y h
    cases ep with
    | false => exact base x y h
    | true =>
      simp only [if_true] at h
      rcases Board.get_set_some _ _ _ _ _ _ _ h with h1 | h1
      · cases h1.1
      · exact base x y h1
  cases cs with
  | none =>
    rcases base2 x y h with h1 | h1
    · exact Or.inl h1
    · exact Or.inr (Or.inl h1)
  | some side =>
    cases side with
    | k =>
      change ((_ : Board).set r 5 _ |>.set r 7 none).get x y = some v at h
      rcases Board.get_set_some _ _ _ _ _ _ _ h with h1 | h1
      · cases h1.1
      · rcases Board.get_set_some _ _ _ _ _ _ _ h1 with h2 | h2
        · rcases base2 r 7 h2.1 with h3 | h3
          · exact Or.inr (Or.inr (Or.inl ⟨rfl, h3⟩))
          · exact Or.inr (Or.inl h3)
        · rcases base2 x y h2 with h3 | h3
          · exact Or.inl h3
          · exact Or.inr (Or.inl h3)
    | q =>
      change ((_ : Board).set r 3 _ |>.set r 0 none).get x y = some v at h
      rcases Board.get_set_some _ _ _ _ _ _ _ h with h1 | h1
      · cases h1.1
      · rcases Board.get_set_some _ _ _ _ _ _ _ h1 with h2 | h2
        · rcases base2 r 0 h2.1 with h3 | h3
          · exact Or.inr (Or.inr (Or.inr ⟨rfl, h3⟩))
          · exact Or.inr (Or.inl h3)
        · rcases base2 x y h2 with h3 | h3
          · exact Or.inl h3
          · exact Or.inr (Or.inl h3)

/-- The flags of a move of the geometry generator determine its shape. -/
theorem geometry_flags (b : Board) (r c : Int) (piece : Piece) (rights : CastlingRights)
    (ep : Option Square) (geo : List Move) (m : Move) (hb : inBounds r c = true)
    (h : getGeometryMoves b r c piece (some rights) ep = some geo) (hm : m ∈ geo) :
    inBounds m.r m.c = true ∧
    (m.isEnPassant = true → m.r = r + forward piece.color ∧ ep = some ⟨m.r, m.c⟩) ∧
    (m.isCastle = some CastleSide.k → piece.kind = Kind.k ∧ m.r = r ∧ m.c = c + 2 ∧
      m.isEnPassant = false ∧
      (rights.get piece.color).kingSide = true ∧ b.get r (c + 1) = none) ∧
    (m.isCastle = some CastleSide.q → piece.kind = Kind.k ∧ m.r = r ∧ m.c = c - 2 ∧
      m.isEnPassant = false ∧
      (rights.get piece.color).queenSide = true ∧ b.get r (c - 1) = none ∧
      b.get r (c - 3) = none) ∧
    (m.isDoublePush = true → r = startRow piece.color ∧ m.r = r + forward piece.color * 2) := by
  have hrc := (inBounds_iff r c).mp hb
  rcases geometry_cases b r c piece (some rights) ep geo m hb h hm with h1 | h1 | h1 | h1 | h1
  · obtain ⟨h2, h3, _⟩ := h1
    rw [h2]
    refine ⟨h3, ?_, ?_, ?_, ?_⟩ <;> intro hf <;> cases hf
  · obtain ⟨_, h2, h3, h4, h5⟩ := h1
    rw [h2]
    refine ⟨?_, ?_, ?_, ?_, ?_⟩
    · rw [inBounds_iff]
      cases hcl : piece.color <;> rw [hcl] at h3 <;> simp only [startRow] at h3 <;>
        simp only [forward] <;> omega
    · intro hf; cases hf
    · intro hf; cases hf
    · intro hf; cases hf
    · intro _
      exact ⟨h3, rfl⟩
  · obtain ⟨_, h2, h3, _, h5, h6⟩ := h1
    refine ⟨h5, ?_, ?_, ?_, ?_⟩
    · intro _
      exact ⟨h3, h6⟩
    · intro hf; rw [h2] at hf; cases hf
    · intro hf; rw [h2] at hf; cases hf
    · intro hf; rw [h2] at hf; cases hf
  · obtain ⟨h2, h3, rt, hrt, h4, h5, h6⟩ := h1
    cases hrt
    rw [h3]
    rw [Board.isNull_iff] at h5 h6
    refine ⟨?_, ?_, ?_, ?_, ?_⟩
    · rw [inBounds_iff]
      exact ⟨hrc.1, h6.1⟩
    · intro hf; cases hf
    · intro _
      exact ⟨h2, rfl, rfl, rfl, h4, h5.2⟩
    · intro hf; cases hf
    · intro hf; cases hf
  · obtain ⟨h2, h3, rt, hrt, h4, h5, h6, h7⟩ := h1
    cases hrt
    rw [h3]
    rw [Board.isNull_iff] at h5 h6 h7
    refine ⟨?_, ?_, ?_, ?_, ?_⟩
    · rw [inBounds_iff]
      exact ⟨hrc.1, h6.1⟩
    · intro hf; cases hf
    · intro hf; cases hf
    · intro _
      exact ⟨h2, rfl, rfl, rfl, h4, h5.2, h7.2⟩
    · intro hf; cases hf
/-- The board, rights and en-passant target written by `executeMove` for a geometry move
of a piece of the side to move keep the facts of `Inv`, and the destination square is
not a corner whose castling right survives. -/
theorem inv_move (s : State) (r c : Int) (piece : Piece) (geo : List Move) (m : Move)
    (hinv : Inv s) (hp : s.board.get r c = some piece) (hc : piece.color = s.turn)
    (hg : getGeometryMoves s.board r c piece (some s.castlingRights) s.enPassantTarget
      = some geo)
    (hm : m ∈ geo) :
    (∀ col : Color,
      (((moveRights s.board s.turn s.castlingRights c piece m).get col).kingSide = true ∨
       ((moveRights s.board s.turn s.castlingRights c piece m).get col).queenSide = true) →
      ∀ x y : Int, (moveBoard s.board r c piece m).get x y = some ⟨Kind.k, col⟩ →
        x = homeRow col ∧ y = 4) ∧
    (∀ col : Color,
      ((moveRights s.board s.turn s.castlingRights c piece m).get col).kingSide = true →
      (moveBoard s.board r c piece m).get (homeRow col) 7 = some ⟨Kind.r, col⟩ ∧
        ¬ (m.r = homeRow col ∧ m.c = 7)) ∧
    (∀ col : Color,
      ((moveRights s.board s.turn s.castlingRights c piece m).get col).queenSide = true →
      (moveBoard s.board r c piece m).get (homeRow col) 0 = some ⟨Kind.r, col⟩ ∧
        ¬ (m.r = homeRow col ∧ m.c = 0)) ∧
    (∀ t : Square, moveEpTarget s.turn m = some t → t.r = 2 ∨ t.r = 5) := by
  have hb := Board.inBounds_of_get _ _ _ _ hp
  obtain ⟨hmb, hfep, hfk, hfq, hfd⟩ :=
    geometry_flags s.board r c piece s.castlingRights s.enPassantTarget geo m hb hg hm
  obtain ⟨kd, cl⟩ := piece
  simp only at hc hfep hfk hfq hfd
  subst hc
  -- a castling move starts on the home square of the mover
  have hhome : ∀ side : CastleSide, m.isCastle = some side → r = homeRow s.turn ∧ c = 4 ∧
      kd = Kind.k := by
    intro side hside
    cases side with
    | k =>
      obtain ⟨h1, _, _, _, h2, _⟩ := hfk hside
      subst h1
      exact ⟨(hinv.kingHome s.turn (Or.inl h2) r c hp).1,
        (hinv.kingHome s.turn (Or.inl h2) r c hp).2, rfl⟩
    | q =>
      obtain ⟨h1, _, _, _, h2, _⟩ := hfq hside
      subst h1
      exact ⟨(hinv.kingHome s.turn (Or.inr h2) r c hp).1,
        (hinv.kingHome s.turn (Or.inr h2) r c hp).2, rfl⟩
  -- the rows an en-passant capture touches
  have hepr : m.isEnPassant = true → r ≠ 0 ∧ r ≠ 7 := by
    intro h
    obtain ⟨h1, h2⟩ := hfep h
    have := hinv.epRow _ h2
    simp only at this
    cases hcl : s.turn <;> rw [hcl] at h1 <;> simp only [forward] at h1 <;> omega
  -- a corner whose right survives is not written
  have corner : ∀ (col : Color) (y : Int), (y = 7 ∨ y = 0) →
      s.board.get (homeRow col) y = some ⟨Kind.r, col⟩ →
      ¬ (kd = Kind.k ∧ col = s.turn) → ¬ (kd = Kind.r ∧ c = y ∧ col = s.turn) →
      ¬ ((∃ cp, s.board.get m.r m.c = some cp ∧ cp.kind = Kind.r) ∧
          m.r = homeRow col ∧ m.c = y) →
      (moveBoard s.board r c ⟨kd, s.turn⟩ m).get (homeRow col) y = some ⟨Kind.r, col⟩ ∧
        ¬ (m.r = homeRow col ∧ m.c = y) := by
    intro col y hy hrook hnk hnr hncap
    have h1 : ¬ (homeRow col = m.r ∧ y = m.c) := by
      rintro ⟨e1, e2⟩
      apply hncap
      refine ⟨⟨⟨Kind.r, col⟩, ?_, rfl⟩, e1.symm, e2.symm⟩
      rw [← e1, ← e2]
      exact hrook
    have h2 : ¬ (homeRow col = r ∧ y = c) := by
      rintro ⟨e1, e2⟩
      rw [e1, e2, hp] at hrook
      simp only [Option.some.injEq, Piece.mk.injEq] at hrook
      exact hnr ⟨hrook.1, e2.symm, hrook.2.symm⟩
    have hrow : ∀ side : CastleSide, m.isCastle = some side → homeRow col ≠ r := by
      intro side hside
      obtain ⟨e1, _, e3⟩ := hhome side hside
      rw [e1]
      apply homeRow_ne
      intro e
      exact hnk ⟨e3, e⟩
    refine ⟨?_, fun h => h1 ⟨h.1.symm, h.2.symm⟩⟩
    rw [moveBoard_get_other _ _ _ _ _ _ _ h1 h2]
    · exact hrook
    · intro hep h
      have := hepr hep
      rcases homeRow_cases col with e | e <;> omega
    · intro hside h
      exact hrow _ hside h.1
    · intro hside h
      exact hrow _ hside h.1
  refine ⟨?_, ?_, ?_, ?_⟩
  · intro col hflag x y hking
    -- the flag was already true, and the mover's piece is not the king of `col`
    have hold : ((s.castlingRights.get col).kingSide = true ∨
        (s.castlingRights.get col).queenSide = true) ∧ ¬ (kd = Kind.k ∧ col = s.turn) := by
      rcases hflag with h | h
      · have := (moveRights_kingSide _ _ _ _ _ _ _).mp h
        exact ⟨Or.inl this.1, this.2.1⟩
      · have := (moveRights_queenSide _ _ _ _ _ _ _).mp h
        exact ⟨Or.inr this.1, this.2.1⟩
    rcases moveBoard_get_some _ _ _ _ _ _ _ _ hking with h | h | h | h
    · exact hinv.kingHome col hold.1 x y h
    · simp only [Piece.mk.injEq] at h
      exact absurd ⟨h.1.symm, h.2⟩ hold.2
    · have := hinv.kingHome col hold.1 r 7 h.2
      omega
    · have := hinv.kingHome col hold.1 r 0 h.2
      omega
  · intro col hflag
    obtain ⟨h1, h2, h3, h4⟩ := (moveRights_kingSide _ _ _ _ _ _ _).mp hflag
    exact corner col 7 (Or.inl rfl) (hinv.rookKing col h1) h2 h3 h4
  · intro col hflag
    obtain ⟨h1, h2, h3, h4⟩ := (moveRights_queenSide _ _ _ _ _ _ _).mp hflag
    exact corner col 0 (Or.inr rfl) (hinv.rookQueen col h1) h2 h3 h4
  · intro t ht
    unfold moveEpTarget at ht
    cases hd : m.isDoublePush with
    | false => simp [hd] at ht
    | true =>
      obtain ⟨h1, h2⟩ := hfd hd
      simp only [hd, if_true, Option.some.injEq] at ht
      rw [← ht]
      cases hcl : s.turn <;> rw [hcl] at h1 h2 <;> simp only [startRow, forward] at h1 h2 <;>
        simp <;> omega
theorem playMove_some (s s1 : State) (r c : Int) (move : Move) (promo : Kind)
    (h : playMove s r c move promo = some s1) :
    ∃ (piece : Piece) (moves : List Move) (sA : State),
      s.board.get r c = some piece ∧ piece.color = s.turn ∧
      getValidMoves s.castlingRights s.enPassantTarget r c true s.board s.turn = some moves ∧
      move ∈ moves ∧ executeMove s r c move = some sA ∧
      ((sA.promotionSquare = none ∧ s1 = sA) ∨
        (sA.promotionSquare.isSome = true ∧ promo ∈ promotionKinds ∧
          handlePromotion sA promo = some s1)) := by
  unfold playMove at h
  cases hp : s.board.get r c with
  | none => simp [hp] at h
  | some piece =>
    simp only [hp] at h
    by_cases hc : piece.color = s.turn
    · rw [if_pos hc] at h
      cases hv : getValidMoves s.castlingRights s.enPassantTarget r c true s.board s.turn with
      | none => simp [hv] at h
      | some moves =>
        simp only [hv] at h
        by_cases hm : move ∈ moves
        · rw [if_pos hm] at h
          cases he : executeMove s r c move with
          | none => simp [he] at h
          | some sA =>
            simp only [he] at h
            refine ⟨piece, moves, sA, rfl, hc, rfl, hm, rfl, ?_⟩
            cases hpr : sA.promotionSquare with
            | none =>
              simp only [hpr, Option.isSome_none, Bool.false_eq_true, if_false,
                Option.some.injEq] at h
              exact Or.inl ⟨rfl, h.symm⟩
            | some pr =>
              simp only [hpr, Option.isSome_some, if_true] at h
              by_cases hk : promo ∈ promotionKinds
              · rw [if_pos hk] at h
                exact Or.inr ⟨rfl, hk, h⟩
              · rw [if_neg hk] at h
                cases h
        · rw [if_neg hm] at h
          cases h
    · rw [if_neg hc] at h
      cases h

theorem inv_step (s s1 : State) (r c : Int) (move : Move) (promo : Kind) (hinv : Inv s)
    (h : playMove s r c move promo = some s1) : Inv s1 := by
  obtain ⟨piece, moves, sA, hp, hc, hv, hm, he, hrest⟩ := playMove_some s s1 r c move promo h
  obtain ⟨geo, hg, hall⟩ := getValidMoves_some _ _ _ _ _ _ _ piece moves hp hv
  obtain ⟨hK, hRK, hRQ, hE⟩ := inv_move s r c piece geo move hinv hp hc hg (hall move hm).1
  obtain ⟨sB, he2, hbd, hrt, hep, hpromo, hnopromo⟩ := executeMove_some s r c move piece hp
  rw [he] at he2
  cases he2
  rcases hrest with ⟨hnone, rfl⟩ | ⟨hsome, hkind, hh⟩
  · refine ⟨hnone, ?_, ?_, ?_, ?_⟩
    · rw [hbd, hrt]; exact hK
    · rw [hbd, hrt]; exact fun col hf => (hRK col hf).1
    · rw [hbd, hrt]; exact fun col hf => (hRQ col hf).1
    · rw [hep]; exact hE
  · have hpr : piece.kind = Kind.p ∧ (move.r = 0 ∨ move.r = 7) := by
      by_contra hcon
      have := (hnopromo hcon).2
      rw [hinv.noPromotion] at this
      rw [this] at hsome
      cases hsome
    obtain ⟨hturn, _, hsq⟩ := hpromo hpr
    obtain ⟨s2, hh2, hbd2, hrt2, hep2, _, hnone2⟩ := handlePromotion_some sA promo _ hsq
    rw [hh] at hh2
    cases hh2
    have hnk : promo ≠ Kind.k := by
      intro e
      rw [e] at hkind
      simp [promotionKinds] at hkind
    refine ⟨hnone2, ?_, ?_, ?_, ?_⟩
    · intro col hflag x y hking
      rw [hrt2, hrt] at hflag
      rw [hbd2, hbd] at hking
      rcases Board.get_set_some _ _ _ _ _ _ _ hking with h1 | h1
      · simp only [Option.some.injEq, Piece.mk.injEq] at h1
        exact absurd h1.1.1 hnk
      · exact hK col hflag x y h1
    · intro col hflag
      rw [hrt2, hrt] at hflag
      obtain ⟨h1, h2⟩ := hRK col hflag
      rw [hbd2, hbd, Board.get_set_ne _ _ _ _ _ _ (fun h => h2 ⟨h.1.symm, h.2.symm⟩)]
      exact h1
    · intro col hflag
      rw [hrt2, hrt] at hflag
      obtain ⟨h1, h2⟩ := hRQ col hflag
      rw [hbd2, hbd, Board.get_set_ne _ _ _ _ _ _ (fun h => h2 ⟨h.1.symm, h.2.symm⟩)]
      exact h1
    · rw [hep2, hep]; exact hE

theorem reachable_inv (s : State) (h : Reachable s) : Inv s := by
  induction h with
  | init => exact inv_initial
  | step s s1 r c move promo _ hstep ih => exact inv_step s s1 r c move promo ih hstep
theorem Board.get_set_some_ne (b : Board) (r c x y : Int) (w : Cell) (v : Piece)
    (h : (b.set r c w).get x y = some v) :
    (w = some v ∧ x = r ∧ y = c) ∨ (¬ (x = r ∧ y = c) ∧ b.get x y = some v) := by
  have hin := Board.inBounds_of_get _ _ _ _ h
  rw [Board.get_set] at h
  by_cases hq : inBounds x y = true ∧ x = r ∧ y = c
  · rw [if_pos hq] at h
    exact Or.inl ⟨h, hq.2⟩
  · rw [if_neg hq] at h
    exact Or.inr ⟨fun h1 => hq ⟨hin, h1⟩, h⟩

theorem moveBoard_eq_tempBoard (b : Board) (r c : Int) (piece : Piece) (m : Move)
    (h : m.isCastle = none) : moveBoard b r c piece m = tempBoard b r c piece m := by
  obtain ⟨mr, mc, dp, ep, cs⟩ := m
  simp only at h
  subst h
  rfl

/-- The rook relocation of a castle does not put the castled king in check: king on column
`kc`, the rook taken from the corner column `fr` and put on column `tc` next to the
king, where the corner is the last square of its ray from the king. -/
theorem castle_relocation_safe (t : Board) (turn : Color) (r kc tc fr : Int)
    (hking : t.get r kc = some ⟨Kind.k, turn⟩)
    (huniq : ∀ x y : Int, t.get x y = some ⟨Kind.k, turn⟩ → x = r ∧ y = kc)
    (hrook : t.get r fr = some ⟨Kind.r, turn⟩)
    (hto : t.get r tc = none) (hne : tc ≠ kc) (hne2 : fr ≠ kc) (hne3 : fr ≠ tc)
    (hedge : ∀ d ∈ queenDirs, ∀ j : Nat,
      r = r + (j + 1) * d.1 → fr = kc + (j + 1) * d.2 →
      inBounds (r + d.1) (fr + d.2) = false)
    (h : isKingInCheck t turn = false) :
    isKingInCheck ((t.set r tc (t.get r fr)).set r fr none) turn = false := by
  rw [hrook]
  have hA : isKingInCheck (t.set r tc (some ⟨Kind.r, turn⟩)) turn = false :=
    isKingInCheck_set_own t turn r tc Kind.r (by rw [hto]; simp) (by decide) h
  have hkin := Board.inBounds_of_get _ _ _ _ hking
  have hloc : locateKing (t.set r tc (some ⟨Kind.r, turn⟩)) turn = some ⟨r, kc⟩ := by
    apply locateKing_unique
    · rw [Board.get_set_ne _ _ _ _ _ _ (by omega)]
      exact hking
    · intro x y hxy
      rcases Board.get_set_some_ne _ _ _ _ _ _ _ hxy with h1 | h1
      · simp at h1
      · exact huniq x y h1.2
  refine isKingInCheck_clear_edge _ turn r kc r fr hloc ?_ hedge hA
  rw [Board.get_set_ne _ _ _ _ _ _ (by omega), hrook]
  simp

/-- C2: in every state reachable from the initial state by legal play, for every piece of
the side to move and every move `m` returned for it by `getValidMoves`, `executeMove`
runs and the board it produces (with the en-passant removal and the castling rook
relocation) has `isKingInCheck(newBoard, mover) = false`, and so has the board produced
by `handlePromotion`, for each of the four promotion kinds, when `m` is a promotion. -/
theorem C2_valid_move_leaves_king_safe (s : State) (hreach : Reachable s) (r c : Int)
    (piece : Piece) (moves : List Move) (m : Move)
    (hp : s.board.get r c = some piece) (hc : piece.color = s.turn)
    (hv : getValidMoves s.castlingRights s.enPassantTarget r c true s.board s.turn = some moves)
    (hm : m ∈ moves) :
    ∃ s1, executeMove s r c m = some s1 ∧ isKingInCheck s1.board s.turn = false ∧
      ∀ kind ∈ promotionKinds, ∀ s2, handlePromotion s1 kind = some s2 →
        isKingInCheck s2.board s.turn = false := by
  have hinv := reachable_inv s hreach
  obtain ⟨geo, hg, hall⟩ := getValidMoves_some _ _ _ _ _ _ _ piece moves hp hv
  obtain ⟨hmg, htemp, _⟩ := hall m hm
  obtain ⟨s1, he, hbd, _, _, hpromo, hnopromo⟩ := executeMove_some s r c m piece hp
  have hb := Board.inBounds_of_get _ _ _ _ hp
  obtain ⟨hmb, hfep, hfk, hfq, hfd⟩ :=
    geometry_flags s.board r c piece s.castlingRights s.enPassantTarget geo m hb hg hmg
  obtain ⟨kd, cl⟩ := piece
  simp only at hc hfep hfk hfq hfd
  subst hc
  have hrb : ∀ y : Int, 0 ≤ y → y < 8 → inBounds r y = true := by
    intro y h1 h2
    rw [inBounds_iff]
    exact ⟨((inBounds_iff r c).mp hb).1, h1, h2⟩
  have hsafe : isKingInCheck (moveBoard s.board r c ⟨kd, s.turn⟩ m) s.turn = false := by
    cases hcs : m.isCastle with
    | none =>
      rw [moveBoard_eq_tempBoard _ _ _ _ _ hcs]
      exact htemp
    | some side =>
      obtain ⟨mr, mc, dp, ep, cs⟩ := m
      simp only at hcs hfk hfq
      subst hcs
      cases side with
      | k =>
        obtain ⟨h1, h2, h3, h4, h5, h6⟩ := hfk rfl
        have h2s := h2.symm
        subst h1 h2s h4
        obtain ⟨e1, e2⟩ := hinv.kingHome s.turn (Or.inl h5) r c hp
        have hmc : mc = 6 := by omega
        have h6 : s.board.get r 5 = none := by
          have e : c + 1 = 5 := by omega
          rw [← e]
          exact h6
        subst e2 hmc
        have hrk := hinv.rookKing s.turn h5
        rw [← e1] at hrk
        have htb : tempBoard s.board r 4 ⟨Kind.k, s.turn⟩
            ⟨r, 6, dp, false, some CastleSide.k⟩ =
            (s.board.set r 6 (some ⟨Kind.k, s.turn⟩)).set r 4 none := rfl
        rw [htb] at htemp
        rw [moveBoard_castle_k]
        refine castle_relocation_safe _ s.turn r 6 5 7 ?_ ?_ ?_ ?_ (by omega) (by omega)
          (by omega) ?_ htemp
        · rw [Board.get_set_ne _ _ _ _ _ _ (by omega), Board.get_set_same _ _ _ _ (hrb 6
            (by omega) (by omega))]
        · intro x y hxy
          rcases Board.get_set_some_ne _ _ _ _ _ _ _ hxy with h7 | h7
          · simp at h7
          · rcases Board.get_set_some_ne _ _ _ _ _ _ _ h7.2 with h8 | h8
            · exact h8.2
            · exact absurd (hinv.kingHome s.turn (Or.inl h5) x y h8.2)
                (fun h9 => h7.1 ⟨h9.1.trans e1.symm, h9.2⟩)
        · rw [Board.get_set_ne _ _ _ _ _ _ (by omega), Board.get_set_ne _ _ _ _ _ _ (by omega)]
          exact hrk
        · rw [Board.get_set_ne _ _ _ _ _ _ (by omega), Board.get_set_ne _ _ _ _ _ _ (by omega)]
          exact h6
        · intro d hd j h7 h8
          simp only [queenDirs, List.mem_cons, List.mem_singleton, List.not_mem_nil,
            or_false] at hd
          rw [Bool.eq_false_iff]
          intro hcon
          rw [inBounds_iff] at hcon
          rcases hd with rfl | rfl | rfl | rfl | rfl | rfl | rfl | rfl <;>
            simp only at h7 h8 hcon <;> omega
      | q =>
        obtain ⟨h1, h2, h3, h4, h5, h6, h6b⟩ := hfq rfl
        have h2s := h2.symm
        subst h1 h2s h4
        obtain ⟨e1, e2⟩ := hinv.kingHome s.turn (Or.inr h5) r c hp
        have hmc : mc = 2 := by omega
        have h6 : s.board.get r 3 = none := by
          have e : c - 1 = 3 := by omega
          rw [← e]
          exact h6
        subst e2 hmc
        have hrk := hinv.rookQueen s.turn h5
        rw [← e1] at hrk
        have htb : tempBoard s.board r 4 ⟨Kind.k, s.turn⟩
            ⟨r, 2, dp, false, some CastleSide.q⟩ =
            (s.board.set r 2 (some ⟨Kind.k, s.turn⟩)).set r 4 none := rfl
        rw [htb] at htemp
        rw [moveBoard_castle_q]
        refine castle_relocation_safe _ s.turn r 2 3 0 ?_ ?_ ?_ ?_ (by omega) (by omega)
          (by omega) ?_ htemp
        · rw [Board.get_set_ne _ _ _ _ _ _ (by omega), Board.get_set_same _ _ _ _ (hrb 2
            (by omega) (by omega))]
        · intro x y hxy
          rcases Board.get_set_some_ne _ _ _ _ _ _ _ hxy with h7 | h7
          · simp at h7
          · rcases Board.get_set_some_ne _ _ _ _ _ _ _ h7.2 with h8 | h8
            · exact h8.2
            · exact absurd (hinv.kingHome s.turn (Or.inr h5) x y h8.2)
                (fun h9 => h7.1 ⟨h9.1.trans e1.symm, h9.2⟩)
        · rw [Board.get_set_ne _ _ _ _ _ _ (by omega), Board.get_set_ne _ _ _ _ _ _ (by omega)]
          exact hrk
        · rw [Board.get_set_ne _ _ _ _ _ _ (by omega), Board.get_set_ne _ _ _ _ _ _ (by omega)]
          exact h6
        · intro d hd j h7 h8
          simp only [queenDirs, List.mem_cons, List.mem_singleton, List.not_mem_nil,
            or_false] at hd
          rw [Bool.eq_false_iff]
          intro hcon
          rw [inBounds_iff] at hcon
          rcases hd with rfl | rfl | rfl | rfl | rfl | rfl | rfl | rfl <;>
            simp only at h7 h8 hcon <;> omega
  refine ⟨s1, he, by rw [hbd]; exact hsafe, ?_⟩
  intro kind hkind s2 h2
  have hpr : kd = Kind.p ∧ (m.r = 0 ∨ m.r = 7) := by
    by_contra hcon
    have := (hnopromo hcon).2
    rw [hinv.noPromotion] at this
    simp [handlePromotion, this] at h2
  obtain ⟨hturn, _, hsq⟩ := hpromo hpr
  obtain ⟨s3, h3, hbd3, _⟩ := handlePromotion_some s1 kind _ hsq
  rw [h2] at h3
  cases h3
  rw [hbd3, hturn]
  have hnk : kind ≠ Kind.k := by
    intro e
    rw [e] at hkind
    simp [promotionKinds] at hkind
  apply isKingInCheck_set_own _ _ _ _ _ _ hnk (by rw [hbd]; exact hsafe)
  -- the promotion square holds the pawn, not the king
  intro hking
  rw [hbd] at hking
  obtain ⟨hkp, hrank⟩ := hpr
  subst hkp
  rcases moveBoard_get_some _ _ _ _ _ _ _ _ hking with h4 | h4 | h4 | h4
  · rcases geometry_cases _ _ _ _ _ _ _ m hb hg hmg with h5 | h5 | h5 | h5 | h5
    · exact h5.2.2 _ h4 rfl
    · obtain ⟨_, h6, h7, _⟩ := h5
      rw [h6] at hrank
      simp only at h7 hrank
      cases hcl : s.turn <;> rw [hcl] at h7 hrank <;> simp only [startRow, forward] at h7 hrank <;>
        omega
    · obtain ⟨_, _, _, _, _, h6⟩ := h5
      have := hinv.epRow _ h6
      simp only at this
      omega
    · exact Kind.noConfusion h5.1
    · exact Kind.noConfusion h5.1
  · cases h4
  · exact Kind.noConfusion (hfk h4.1).1
  · exact Kind.noConfusion (hfq h4.1).1

/-- C7: when a piece of the side to move (necessarily a pawn: only the pawn branch flags a
move `isDoublePush`) has just made a double push from `(r0, c)`, landing on `(m.r, c)`, and an enemy pawn stands on `(m.r, c + dc)` with `dc = -1` or `dc = 1`, then
in the resulting state `getGeometryMoves` for that enemy pawn contains the move to the
passed-over square `(r0 + forward, c)` flagged `isEnPassant`; that move is in
`getValidMoves` exactly when the board it produces does not leave the capturer's king in
check; and `executeMove` of it puts the capturing pawn on the passed-over square, empties
the capturer's origin and the square of the double-pushed pawn, and changes no other
square. -/
theorem C7_en_passant (s : State) (r0 c : Int) (pawn : Piece) (moves : List Move) (m : Move)
    (hp : s.board.get r0 c = some pawn) (hcol : pawn.color = s.turn)
    (hv : getValidMoves s.castlingRights s.enPassantTarget r0 c true s.board s.turn = some moves)
    (hm : m ∈ moves) (hd : m.isDoublePush = true) :
    ∃ s1, executeMove s r0 c m = some s1 ∧
      s1.turn = s.turn.other ∧ s1.board.get m.r c = some pawn ∧
      ∀ dc : Int, (dc = -1 ∨ dc = 1) →
        s1.board.get m.r (c + dc) = some ⟨Kind.p, s.turn.other⟩ →
        (∃ geo, getGeometryMoves s1.board m.r (c + dc) ⟨Kind.p, s.turn.other⟩
            (some s1.castlingRights) s1.enPassantTarget = some geo ∧
          Move.enPassant (r0 + forward s.turn) c ∈ geo) ∧
        (∃ valid, getValidMoves s1.castlingRights s1.enPassantTarget m.r (c + dc) true
            s1.board s1.turn = some valid ∧
          (Move.enPassant (r0 + forward s.turn) c ∈ valid ↔
            isKingInCheck (moveBoard s1.board m.r (c + dc) ⟨Kind.p, s.turn.other⟩
              (Move.enPassant (r0 + forward s.turn) c)) s1.turn = false)) ∧
        (∃ s2, executeMove s1 m.r (c + dc) (Move.enPassant (r0 + forward s.turn) c) = some s2 ∧
          s2.board.get (r0 + forward s.turn) c = some ⟨Kind.p, s.turn.other⟩ ∧
          s2.board.get m.r (c + dc) = none ∧
          s2.board.get m.r c = none ∧
          ∀ r1 c1 : Int, ¬ (r1 = r0 + forward s.turn ∧ c1 = c) →
            ¬ (r1 = m.r ∧ c1 = c + dc) → ¬ (r1 = m.r ∧ c1 = c) →
            s2.board.get r1 c1 = s1.board.get r1 c1) := by
  obtain ⟨s1, he, _⟩ := executeMove_some s r0 c m pawn hp
  have hdc1 : (1 : Int) = -1 ∨ (1 : Int) = 1 := Or.inr rfl
  refine ⟨s1, he, ?_, ?_, ?_⟩
  · by_cases h : s1.board.get m.r (c + 1) = some ⟨Kind.p, s.turn.other⟩
    · exact (en_passant_after_double_push s s1 r0 c pawn moves m hp hcol hv hm hd he 1 hdc1 h).1
    · -- the turn does not depend on the neighbour: redo the projection
      obtain ⟨geo0, hg0, hall⟩ := getValidMoves_some _ _ _ _ _ _ _ pawn moves hp hv
      have hb0 := Board.inBounds_of_get _ _ _ _ hp
      obtain ⟨_, _, _, _, hfd⟩ :=
        geometry_flags s.board r0 c pawn s.castlingRights s.enPassantTarget geo0 m hb0 hg0
          (hall m hm).1
      obtain ⟨h1, h2⟩ := hfd hd
      obtain ⟨s1a, he1, _, _, _, _, hturn⟩ := executeMove_some s r0 c m pawn hp
      rw [he] at he1
      cases he1
      refine (hturn ?_).1
      rintro ⟨_, h3 | h3⟩ <;>
        (rw [hcol] at h1 h2; cases hcl : s.turn <;> rw [hcl] at h1 h2 <;>
          simp only [startRow, forward] at h1 h2 <;> omega)
  · obtain ⟨geo0, hg0, hall⟩ := getValidMoves_some _ _ _ _ _ _ _ pawn moves hp hv
    have hb0 := Board.inBounds_of_get _ _ _ _ hp
    obtain ⟨hmb, _, _, _, hfd⟩ :=
      geometry_flags s.board r0 c pawn s.castlingRights s.enPassantTarget geo0 m hb0 hg0
        (hall m hm).1
    obtain ⟨h1, h2⟩ := hfd hd
    obtain ⟨s1a, he1, hbd, _⟩ := executeMove_some s r0 c m pawn hp
    rw [he] at he1
    cases he1
    rcases geometry_cases _ _ _ _ _ _ _ m hb0 hg0 (hall m hm).1 with h | h | h | h | h
    · rw [h.1] at hd
      cases hd
    · obtain ⟨_, hm2, _⟩ := h
      have hmr : m.r ≠ r0 := by
        rw [hcol] at h1 h2
        cases hcl : s.turn <;> rw [hcl] at h1 h2 <;> simp only [startRow, forward] at h1 h2 <;>
          omega
      have hmc : m.c = c := by rw [hm2]
      rw [hm2] at hbd
      rw [hbd, moveBoard_plain, Board.get_set_ne _ _ _ _ _ _ (by
        rintro ⟨e, _⟩
        exact hmr e), h2, Board.get_set_same]
      rw [h2, hmc] at hmb
      exact hmb
    · rw [h.2.1] at hd
      cases hd
    · rw [h.2.1] at hd
      cases hd
    · rw [h.2.1] at hd
      cases hd
  · intro dc hdc henemy
    exact (en_passant_after_double_push s s1 r0 c pawn moves m hp hcol hv hm hd he dc hdc
      henemy).2.2

/-- C7 (witness): in `epState` (white pawn on e5) black plays d7-d5; the white pawn then has
the en-passant capture e5xd6 among its valid moves, and executing it leaves d5 empty. -/
theorem C7_en_passant_witness :
    epState.board.get 1 3 = some ⟨Kind.p, Color.b⟩ ∧
    Move.doublePush 3 3 ∈ [Move.plain 2 3, Move.doublePush 3 3] ∧
    ∃ s1, executeMove epState 1 3 (Move.doublePush 3 3) = some s1 ∧
      s1.board.get 3 4 = some ⟨Kind.p, Color.w⟩ ∧
      (∃ valid, getValidMoves s1.castlingRights s1.enPassantTarget 3 4 true s1.board s1.turn
          = some valid ∧ Move.enPassant 2 3 ∈ valid) ∧
      ∃ s2, executeMove s1 3 4 (Move.enPassant 2 3) = some s2 ∧
        s2.board.get 2 3 = some ⟨Kind.p, Color.w⟩ ∧ s2.board.get 3 4 = none ∧
        s2.board.get 3 3 = none := by
  obtain ⟨s1, he, hturn, _, hall⟩ := C7_en_passant epState 1 3 ⟨Kind.p, Color.b⟩
    [Move.plain 2 3, Move.doublePush 3 3] (Move.doublePush 3 3)
    (by decide!) rfl (by decide!) (by decide!) rfl
  have hcomp : ((executeMove epState 1 3 (Move.doublePush 3 3)).map fun s1 =>
      (s1.board.get 3 4,
        isKingInCheck (moveBoard s1.board 3 4 ⟨Kind.p, Color.w⟩ (Move.enPassant 2 3)) s1.turn))
      = some (some ⟨Kind.p, Color.w⟩, false) := by decide!
  rw [he] at hcomp
  simp only [Option.map_some', Option.some.injEq, Prod.mk.injEq] at hcomp
  obtain ⟨_, ⟨valid, hvalid, hiff⟩, s2, he2, h1, h2, h3, _⟩ :=
    hall 1 (Or.inr rfl) hcomp.1
  exact ⟨by decide!, by decide!, s1, he, hcomp.1, ⟨valid, hvalid, hiff.mpr hcomp.2⟩, s2, he2,
    h1, h2, h3⟩

/-! ## Witnesses -/

/-- C2 (witness): after 1.e4 e5 2.Nf3 Nc6 3.Bc4 Bc5 white castles king-side; the king stays
safe on the board that `executeMove` produces. -/
theorem C2_valid_move_leaves_king_safe_witness :
    ∃ s : State, playAll State.initial castleLine = some s ∧ Reachable s ∧
      s.board.get 7 4 = some ⟨Kind.k, Color.w⟩ ∧ s.turn = Color.w ∧
      ∃ s1, executeMove s 7 4 (Move.castle 7 6 CastleSide.k) = some s1 ∧
        isKingInCheck s1.board s.turn = false ∧
        ∀ kind ∈ promotionKinds, ∀ s2, handlePromotion s1 kind = some s2 →
          isKingInCheck s2.board s.turn = false := by
  have h : ((playAll State.initial castleLine).map fun s =>
      (s.board.get 7 4, s.turn,
        (getValidMoves s.castlingRights s.enPassantTarget 7 4 true s.board s.turn).map
          fun l => decide (Move.castle 7 6 CastleSide.k ∈ l))) =
      some (some ⟨Kind.k, Color.w⟩, Color.w, some true) := by decide!
  cases hp : playAll State.initial castleLine with
  | none => simp [hp] at h
  | some s =>
    simp only [hp, Option.map_some', Option.some.injEq, Prod.mk.injEq] at h
    obtain ⟨h1, h2, h3⟩ := h
    cases hv : getValidMoves s.castlingRights s.enPassantTarget 7 4 true s.board s.turn with
    | none => simp [hv] at h3
    | some moves =>
      simp only [hv, Option.map_some', Option.some.injEq, decide_eq_true_eq] at h3
      have hreach := playAll_reachable castleLine State.initial s Reachable.init hp
      exact ⟨s, rfl, hreach, h1, h2,
        C2_valid_move_leaves_king_safe s hreach 7 4 ⟨Kind.k, Color.w⟩ moves
          (Move.castle 7 6 CastleSide.k) h1 h2.symm hv h3⟩

/-- C4 (witness): on `rookCheckBoard` the white king is in check, and the black rook on e8
has the king square e1 among its geometry moves. -/
theorem C4_probe_agrees_with_enumeration_witness :
    kingCount rookCheckBoard Color.w = 1 ∧
    rookCheckBoard.get 7 4 = some ⟨Kind.k, Color.w⟩ ∧
    (isKingInCheck rookCheckBoard Color.w = true ↔
      ∃ (r c : Int) (piece : Piece) (moves : List Move),
        rookCheckBoard.get r c = some piece ∧ piece.color = Color.w.other ∧
        piece.kind ≠ Kind.p ∧
        getGeometryMoves rookCheckBoard r c piece none none = some moves ∧
        ∃ m ∈ moves, m.r = 7 ∧ m.c = 4) :=
  ⟨by decide!, by decide!,
    C4_probe_agrees_with_enumeration rookCheckBoard Color.w 7 4 (by decide!) (by decide!) (by
      intro r c h
      have hb := Board.inBounds_of_get _ _ _ _ h
      have := forall_squares
        (fun r c => decide (rookCheckBoard.get r c ≠ some ⟨Kind.p, Color.w.other⟩))
        (by decide!) r c hb
      exact of_decide_eq_true this h)⟩

/-- C8 (witness): the double push e2-e4 from the initial state sets the en-passant target
to e3. -/
theorem C8_en_passant_target_witness :
    State.initial.board.get 6 4 = some ⟨Kind.p, Color.w⟩ ∧
    ∃ s1, executeMove State.initial 6 4 (Move.doublePush 4 4) = some s1 ∧
      ((Move.doublePush 4 4).isDoublePush = true →
        ∃ mid : Int, mid + mid = 6 + (Move.doublePush 4 4).r ∧ (Move.doublePush 4 4).c = 4 ∧
          s1.enPassantTarget = some ⟨mid, 4⟩) ∧
      ((Move.doublePush 4 4).isDoublePush = false → s1.enPassantTarget = none ∧
        ∀ (kind : Kind) (s2 : State), handlePromotion s1 kind = some s2 →
          s2.enPassantTarget = none) :=
  ⟨by decide!,
    C8_en_passant_target State.initial 6 4 ⟨Kind.p, Color.w⟩
      [Move.plain 5 4, Move.doublePush 4 4] (Move.doublePush 4 4)
      (by decide!) rfl (by decide!) (by decide!)⟩

/-- C9 (witness): in `castleState` white castles king-side. -/
theorem C9_castling_witness :
    castleState.turn = Color.w ∧
    ∃ (moves : List Move) (s1 : State),
      getValidMoves castleState.castlingRights castleState.enPassantTarget (homeRow Color.w) 4
        true castleState.board Color.w = some moves ∧
      (⟨homeRow Color.w, 6, false, false, some CastleSide.k⟩ : Move) ∈ moves ∧
      executeMove castleState (homeRow Color.w) 4
        ⟨homeRow Color.w, 6, false, false, some CastleSide.k⟩ = some s1 ∧
      s1.board.get (homeRow Color.w) 6 = some ⟨Kind.k, Color.w⟩ ∧
      s1.board.get (homeRow Color.w) 5 = some ⟨Kind.r, Color.w⟩ ∧
      s1.board.get (homeRow Color.w) 4 = none ∧
      s1.board.get (homeRow Color.w) 7 = none ∧
      (∀ r c : Int, ¬ (r = homeRow Color.w ∧ (c = 4 ∨ c = 5 ∨ c = 6 ∨ c = 7)) →
        s1.board.get r c = castleState.board.get r c) ∧
      s1.castlingRights.get Color.w = ⟨false, false⟩ :=
  ⟨rfl, (C9_castling castleState Color.w rfl (by decide!) (by decide!)).1 (by decide!)⟩

/-- C10 (witness): on `rookCheckBoard` the white king is in check, so no castling move is
returned although the king-side geometry allows it. -/
theorem C10_castling_safety_filter_witness :
    rookCheckBoard.get 7 4 = some ⟨Kind.k, Color.w⟩ ∧
    isKingInCheck rookCheckBoard Color.w = true ∧
    ∃ moves raw : List Move,
      getValidMoves CastlingRights.all none 7 4 true rookCheckBoard Color.w = some moves ∧
      getValidMoves CastlingRights.all none 7 4 false rookCheckBoard Color.w = some raw ∧
      (isKingInCheck rookCheckBoard Color.w = true → ∀ m ∈ moves, m.isCastle = none) ∧
      (∀ side : CastleSide,
        isKingInCheck (pathBoard rookCheckBoard 7 4 ⟨Kind.k, Color.w⟩ side) Color.w = true →
        ∀ m ∈ moves, m.isCastle ≠ some side) ∧
      (moves.filter fun m => m.isCastle.isNone) = (raw.filter fun m => m.isCastle.isNone) :=
  ⟨by decide!, by decide!,
    C10_castling_safety_filter CastlingRights.all none rookCheckBoard 7 4 Color.w
      ⟨Kind.k, Color.w⟩ (by decide!) rfl⟩

/-! ## Classification by the game-over check -/

theorem hasAnyValidMovesFrom_false_iff (rights : CastlingRights) (ep : Option Square)
    (b : Board) (color : Color) (l : List (Int × Int)) :
    hasAnyValidMovesFrom rights ep b color l = some false ↔
      ∀ sq ∈ l, ∀ p, b.get sq.1 sq.2 = some p → p.color = color →
        getValidMoves rights ep sq.1 sq.2 true b color = some [] := by
  induction l with
  | nil => simp [hasAnyValidMovesFrom]
  | cons x rest ih =>
    obtain ⟨r, c⟩ := x
    have hstep : ∀ (P : Int × Int → Prop),
        (∀ sq ∈ (r, c) :: rest, P sq) ↔ (P (r, c) ∧ ∀ sq ∈ rest, P sq) := by
      intro P
      simp
    rw [hstep, ← ih]
    cases hg : b.get r c with
    | none => simp [hasAnyValidMovesFrom, hg]
    | some p =>
      by_cases hc : p.color = color
      · cases hv : getValidMoves rights ep r c true b color with
        | none => simp [hasAnyValidMovesFrom, hg, hc, hv]
        | some moves =>
          cases moves with
          | nil => simp [hasAnyValidMovesFrom, hg, hc, hv]
          | cons m ms => simp [hasAnyValidMovesFrom, hg, hc, hv]
      · simp only [hasAnyValidMovesFrom, hg, hc, if_false, Option.some.injEq]
        constructor
        · intro h
          refine ⟨?_, h⟩
          rintro p1 rfl h2
          exact absurd h2 hc
        · intro h
          exact h.2

theorem noValidMoves_iff_scan (s : State) :
    NoValidMoves s ↔
      hasAnyValidMoves s.castlingRights s.enPassantTarget s.board s.turn = some false := by
  unfold hasAnyValidMoves
  rw [hasAnyValidMovesFrom_false_iff]
  constructor
  · intro h sq _ p h1 h2
    exact h sq.1 sq.2 p h1 h2
  · intro h r c p h1 h2
    exact h (r, c) ((mem_allSquares r c).mpr (Board.inBounds_of_get _ _ _ _ h1)) p h1 h2

/-- The game state after the game-over effect, by cases on what the effect computes. -/
theorem gameStateAfterCheck_eq (s : State) :
    (NoValidMoves s → gameStateAfterCheck s =
      if isKingInCheck s.board s.turn = true then GameStatus.checkmate
        else GameStatus.stalemate) ∧
    (¬ NoValidMoves s → gameStateAfterCheck s = s.gameState) := by
  have hiff := noValidMoves_iff_scan s
  constructor
  · intro hn
    have hres := hiff.mp hn
    unfold gameStateAfterCheck gameOverCheck
    rw [hres]
    cases isKingInCheck s.board s.turn <;> rfl
  · intro hn
    unfold gameStateAfterCheck gameOverCheck
    cases hres : hasAnyValidMoves s.castlingRights s.enPassantTarget s.board s.turn with
    | none => cases isKingInCheck s.board s.turn <;> rfl
    | some res =>
      cases res with
      | false => exact absurd (hiff.mpr hres) hn
      | true => cases isKingInCheck s.board s.turn <;> rfl

/-- C6: for every board and side to move (game state `playing` before the check), the
game-over check sets the game state to `checkmate` exactly when `isKingInCheck(board,
turn)` is true and no piece of the side to move has any move in `getValidMoves`, to
`stalemate` exactly when `isKingInCheck(board, turn)` is false and no such piece has a
move, and leaves it `playing` otherwise, so the two outcomes are never both reported;
whenever no piece has a move the check runs to completion.  The position after 1.f3 e5
2.g4 Qh4 has white to move, zero valid moves, and is classified `checkmate`. -/
theorem C6_game_over_classification (s : State) (hplay : s.gameState = GameStatus.playing) :
    (gameStateAfterCheck s = GameStatus.checkmate ↔
      isKingInCheck s.board s.turn = true ∧ NoValidMoves s) ∧
    (gameStateAfterCheck s = GameStatus.stalemate ↔
      isKingInCheck s.board s.turn = false ∧ NoValidMoves s) ∧
    (¬ NoValidMoves s → gameStateAfterCheck s = GameStatus.playing) ∧
    (NoValidMoves s → ∃ s1, gameOverCheck s = some s1 ∧ s1.board = s.board ∧
      s1.turn = s.turn) ∧
    (∃ t t1, playAll State.initial foolsMate = some t ∧ t.turn = Color.w ∧
      countValidMoves t.castlingRights t.enPassantTarget t.board Color.w allSquares = some 0 ∧
      gameOverCheck t = some t1 ∧ t1.gameState = GameStatus.checkmate) := by
  obtain ⟨hyes, hno⟩ := gameStateAfterCheck_eq s
  refine ⟨?_, ?_, ?_, ?_, ?_⟩
  · by_cases hn : NoValidMoves s
    · rw [hyes hn]
      cases hchk : isKingInCheck s.board s.turn <;> simp [hn]
    · rw [hno hn, hplay]
      simp [hn]
  · by_cases hn : NoValidMoves s
    · rw [hyes hn]
      cases hchk : isKingInCheck s.board s.turn <;> simp [hn]
    · rw [hno hn, hplay]
      simp [hn]
  · intro hn
    rw [hno hn, hplay]
  · intro hn
    have hres := (noValidMoves_iff_scan s).mp hn
    unfold gameOverCheck
    rw [hres]
    cases isKingInCheck s.board s.turn
    · exact ⟨_, rfl, rfl, rfl⟩
    · exact ⟨_, rfl, rfl, rfl⟩
  · have h : ((playAll State.initial foolsMate).bind fun t =>
        (gameOverCheck t).map fun t1 =>
          (decide (t.turn = Color.w),
            countValidMoves t.castlingRights t.enPassantTarget t.board Color.w allSquares,
            t1.gameState)) = some (true, some 0, GameStatus.checkmate) := by decide!
    cases hp : playAll State.initial foolsMate with
    | none => simp [hp] at h
    | some t =>
      cases hg : gameOverCheck t with
      | none => simp [hp, hg] at h
      | some t1 =>
        simp only [hp, hg, Option.some_bind, Option.map_some', Option.some.injEq,
          Prod.mk.injEq, decide_eq_true_eq] at h
        exact ⟨t, t1, rfl, h.1, h.2.1, hg, h.2.2⟩

/-- C6 (witness): the classification applied to the initial state, which stays `playing`. -/
theorem C6_game_over_classification_witness :
    State.initial.gameState = GameStatus.playing ∧
    (gameStateAfterCheck State.initial = GameStatus.checkmate ↔
      isKingInCheck State.initial.board State.initial.turn = true ∧
        NoValidMoves State.initial) ∧
    (gameStateAfterCheck State.initial = GameStatus.stalemate ↔
      isKingInCheck State.initial.board State.initial.turn = false ∧
        NoValidMoves State.initial) ∧
    gameStateAfterCheck State.initial = GameStatus.playing :=
  ⟨rfl, (C6_game_over_classification State.initial rfl).1,
    (C6_game_over_classification State.initial rfl).2.1, by decide!⟩

/-- In `lonePawnState` the only valid white move is the pawn step b7-b8.  After
`executeMove` the board holds a white pawn on row 0 with white still to move; white is not
in check, and the game-over check throws at the pawn. -/
theorem gameOverCheck_throws_on_last_rank_pawn :
    ∃ s : State,
      getValidMoves lonePawnState.castlingRights lonePawnState.enPassantTarget 1 1 true
        lonePawnState.board lonePawnState.turn = some [Move.plain 0 1] ∧
      executeMove lonePawnState 1 1 (Move.plain 0 1) = some s ∧
      s.gameState = GameStatus.playing ∧ s.turn = Color.w ∧
      s.board.get 0 1 = some ⟨Kind.p, Color.w⟩ ∧
      isKingInCheck s.board s.turn = false ∧
      gameOverCheck s = none := by
  obtain ⟨s, he, _⟩ :=
    executeMove_some lonePawnState 1 1 (Move.plain 0 1) ⟨Kind.p, Color.w⟩ (by decide!)
  have hcomp : ((executeMove lonePawnState 1 1 (Move.plain 0 1)).map fun s =>
      (s.gameState, s.turn, s.board.get 0 1, isKingInCheck s.board s.turn,
        (gameOverCheck s).isNone)) =
      some (GameStatus.playing, Color.w, some ⟨Kind.p, Color.w⟩, false, true) := by
    decide!
  rw [he] at hcomp
  simp only [Option.map_some', Option.some.injEq, Prod.mk.injEq] at hcomp
  obtain ⟨h1, h2, h3, h4, h5⟩ := hcomp
  exact ⟨s, by decide!, he, h1, h2, h3, h4, Option.isNone_iff_eq_none.mp h5⟩

/-! ## Fuel of the ray loops -/

/-- Number of squares from `(tr, tc)` to the edge of the board along `(dr, dc)`. -/
theorem edge_distance (dr dc : Int) (hd : (dr, dc) ∈ queenDirs) :
    ∃ dist : Int → Int → Int,
      (∀ tr tc, inBounds tr tc = true → 1 ≤ dist tr tc ∧ dist tr tc ≤ 8) ∧
      (∀ tr tc, inBounds tr tc = true → inBounds (tr + dr) (tc + dc) = true →
        dist (tr + dr) (tc + dc) = dist tr tc - 1) := by
  simp only [queenDirs, List.mem_cons, List.mem_singleton, List.not_mem_nil, or_false,
    Prod.mk.injEq] at hd
  by_cases h1 : dr = 1
  · refine ⟨fun tr _ => 8 - tr, ?_, ?_⟩
    · intro tr tc hb
      rw [inBounds_iff] at hb
      simp only
      omega
    · intro tr tc _ _
      simp only
      omega
  · by_cases h2 : dr = -1
    · refine ⟨fun tr _ => tr + 1, ?_, ?_⟩
      · intro tr tc hb
        rw [inBounds_iff] at hb
        simp only
        omega
      · intro tr tc _ _
        simp only
        omega
    · by_cases h3 : dc = 1
      · refine ⟨fun _ tc => 8 - tc, ?_, ?_⟩
        · intro tr tc hb
          rw [inBounds_iff] at hb
          simp only
          omega
        · intro tr tc _ _
          simp only
          omega
      · refine ⟨fun _ tc => tc + 1, ?_, ?_⟩
        · intro tr tc hb
          rw [inBounds_iff] at hb
          simp only
          omega
        · intro tr tc _ _
          simp only
          omega

/-- The loop of `slide` ends within 8 iterations: more fuel does not change its result. -/
theorem slideLoop_fuel (b : Board) (color : Color) (dr dc : Int) (hd : (dr, dc) ∈ queenDirs)
    (n : Nat) (hn : 8 ≤ n) (tr tc : Int) :
    slideLoop b color dr dc n tr tc = slideLoop b color dr dc 8 tr tc := by
  obtain ⟨dist, hrange, hstep⟩ := edge_distance dr dc hd
  have key : ∀ (k m : Nat) (tr tc : Int), k ≤ m →
      (inBounds tr tc = true → dist tr tc ≤ k) →
      slideLoop b color dr dc m tr tc = slideLoop b color dr dc k tr tc := by
    intro k
    induction k with
    | zero =>
      intro m tr tc _ hk
      have hout : ¬ inBounds tr tc = true := by
        intro hb
        have := hrange tr tc hb
        have := hk hb
        omega
      cases m with
      | zero => rfl
      | succ m => simp [slideLoop, hout]
    | succ k ih =>
      intro m tr tc hm hk
      cases m with
      | zero => omega
      | succ m =>
        unfold slideLoop
        by_cases hb : inBounds tr tc = true
        · simp only [hb, if_true]
          cases b.get tr tc with
          | some t => rfl
          | none =>
            simp only
            rw [ih m (tr + dr) (tc + dc) (by omega) (by
              intro hb2
              have := hstep tr tc hb hb2
              have := hk hb
              omega)]
        · simp [hb]
  exact key 8 n tr tc hn (fun hb => (hrange tr tc hb).2)

/-- The loop of a sliding probe ends within 8 iterations: more fuel does not change its
result. -/
theorem rayLoop_fuel (b : Board) (opponent : Color) (k1 k2 : Kind) (dr dc : Int)
    (hd : (dr, dc) ∈ queenDirs) (n : Nat) (hn : 8 ≤ n) (tr tc : Int) :
    rayLoop b opponent k1 k2 dr dc n tr tc = rayLoop b opponent k1 k2 dr dc 8 tr tc := by
  obtain ⟨dist, hrange, hstep⟩ := edge_distance dr dc hd
  have key : ∀ (k m : Nat) (tr tc : Int), k ≤ m →
      (inBounds tr tc = true → dist tr tc ≤ k) →
      rayLoop b opponent k1 k2 dr dc m tr tc = rayLoop b opponent k1 k2 dr dc k tr tc := by
    intro k
    induction k with
    | zero =>
      intro m tr tc _ hk
      have hout : ¬ inBounds tr tc = true := by
        intro hb
        have := hrange tr tc hb
        have := hk hb
        omega
      cases m with
      | zero => rfl
      | succ m => simp [rayLoop, hout]
    | succ k ih =>
      intro m tr tc hm hk
      cases m with
      | zero => omega
      | succ m =>
        unfold rayLoop
        by_cases hb : inBounds tr tc = true
        · simp only [hb, if_true]
          cases b.get tr tc with
          | some t => rfl
          | none =>
            simp only
            rw [ih m (tr + dr) (tc + dc) (by omega) (by
              intro hb2
              have := hstep tr tc hb hb2
              have := hk hb
              omega)]
        · simp [hb]
  exact key 8 n tr tc hn (fun hb => (hrange tr tc hb).2)

/-! ## Rights after a move (C11, C12) -/

theorem SideRights.eq_false_false (x : SideRights) (h1 : x.kingSide = false)
    (h2 : x.queenSide = false) : x = ⟨false, false⟩ := by
  cases x
  simp only at h1 h2
  rw [h1, h2]

/-- C11: for every executed move of a piece of the side to move, the resulting castling
rights satisfy: if the moved piece is a king, both rights of the mover are false; if it is
a rook that started in column 0 the mover's `queenSide` right is false, and if it started
in column 7 the mover's `kingSide` right is false; if the destination square held a rook
before the move and is (0,0), (0,7), (7,0) or (7,7), then black `queenSide`, black
`kingSide`, white `queenSide` or white `kingSide` respectively is false. -/
theorem C11_rights_after_move (s : State) (r c : Int) (piece : Piece) (m : Move)
    (hp : s.board.get r c = some piece) (hc : piece.color = s.turn) :
    ∃ s1, executeMove s r c m = some s1 ∧
      (piece.kind = Kind.k → s1.castlingRights.get piece.color = ⟨false, false⟩) ∧
      (piece.kind = Kind.r → c = 0 → (s1.castlingRights.get piece.color).queenSide = false) ∧
      (piece.kind = Kind.r → c = 7 → (s1.castlingRights.get piece.color).kingSide = false) ∧
      (∀ cp : Piece, s.board.get m.r m.c = some cp → cp.kind = Kind.r →
        (m.r = 0 ∧ m.c = 0 → s1.castlingRights.b.queenSide = false) ∧
        (m.r = 0 ∧ m.c = 7 → s1.castlingRights.b.kingSide = false) ∧
        (m.r = 7 ∧ m.c = 0 → s1.castlingRights.w.queenSide = false) ∧
        (m.r = 7 ∧ m.c = 7 → s1.castlingRights.w.kingSide = false)) := by
  obtain ⟨s1, he, _, hrt, _⟩ := executeMove_some s r c m piece hp
  have kfalse : ∀ col : Color,
      ((piece.kind = Kind.k ∧ col = s.turn) ∨ (piece.kind = Kind.r ∧ c = 7 ∧ col = s.turn) ∨
        ((∃ cp, s.board.get m.r m.c = some cp ∧ cp.kind = Kind.r) ∧
          m.r = homeRow col ∧ m.c = 7)) →
      (s1.castlingRights.get col).kingSide = false := by
    intro col hcond
    cases hf : (s1.castlingRights.get col).kingSide with
    | false => rfl
    | true =>
      rw [hrt] at hf
      obtain ⟨_, h1, h2, h3⟩ := (moveRights_kingSide _ _ _ _ _ _ _).mp hf
      rcases hcond with h | h | h
      · exact absurd h h1
      · exact absurd h h2
      · exact absurd h h3
  have qfalse : ∀ col : Color,
      ((piece.kind = Kind.k ∧ col = s.turn) ∨ (piece.kind = Kind.r ∧ c = 0 ∧ col = s.turn) ∨
        ((∃ cp, s.board.get m.r m.c = some cp ∧ cp.kind = Kind.r) ∧
          m.r = homeRow col ∧ m.c = 0)) →
      (s1.castlingRights.get col).queenSide = false := by
    intro col hcond
    cases hf : (s1.castlingRights.get col).queenSide with
    | false => rfl
    | true =>
      rw [hrt] at hf
      obtain ⟨_, h1, h2, h3⟩ := (moveRights_queenSide _ _ _ _ _ _ _).mp hf
      rcases hcond with h | h | h
      · exact absurd h h1
      · exact absurd h h2
      · exact absurd h h3
  refine ⟨s1, he, ?_, ?_, ?_, ?_⟩
  · intro hkind
    exact SideRights.eq_false_false _ (kfalse _ (Or.inl ⟨hkind, hc⟩))
      (qfalse _ (Or.inl ⟨hkind, hc⟩))
  · intro hkind h0
    exact qfalse _ (Or.inr (Or.inl ⟨hkind, h0, hc⟩))
  · intro hkind h7
    exact kfalse _ (Or.inr (Or.inl ⟨hkind, h7, hc⟩))
  · intro cp hcp hkind
    refine ⟨?_, ?_, ?_, ?_⟩
    · intro h
      exact qfalse Color.b (Or.inr (Or.inr ⟨⟨cp, hcp, hkind⟩, h.1, h.2⟩))
    · intro h
      exact kfalse Color.b (Or.inr (Or.inr ⟨⟨cp, hcp, hkind⟩, h.1, h.2⟩))
    · intro h
      exact qfalse Color.w (Or.inr (Or.inr ⟨⟨cp, hcp, hkind⟩, h.1, h.2⟩))
    · intro h
      exact kfalse Color.w (Or.inr (Or.inr ⟨⟨cp, hcp, hkind⟩, h.1, h.2⟩))
/-! ## The executor, field by field -/

theorem executeMove_eq (s : State) (r c : Int) (move : Move) (piece : Piece)
    (hp : s.board.get r c = some piece) :
    executeMove s r c move =
      some (if piece.kind = Kind.p ∧ (move.r = 0 ∨ move.r = 7) then
        { s with
          board := moveBoard s.board r c piece move
          promotionSquare := some ⟨move.r, move.c, moveNotation s.board c piece move⟩
          validMoves := []
          selected := none
          enPassantTarget := moveEpTarget s.turn move
          castlingRights := moveRights s.board s.turn s.castlingRights c piece move }
      else
        finalizeMove s (moveBoard s.board r c piece move) s.turn.other
          (moveEpTarget s.turn move)
          (moveRights s.board s.turn s.castlingRights c piece move)
          (moveNotation s.board c piece move)) := by
  simp only [executeMove, hp]
  split <;> rfl

theorem executeMove_rights (s s1 : State) (r c : Int) (m : Move)
    (h : executeMove s r c m = some s1) :
    RightsLe s1.castlingRights s.castlingRights := by
  cases hp : s.board.get r c with
  | none => simp [executeMove, hp] at h
  | some piece =>
    obtain ⟨s2, he, _, hrt, _⟩ := executeMove_some s r c m piece hp
    rw [he] at h
    cases h
    rw [hrt]
    exact moveRights_le _ _ _ _ _ _

theorem handlePromotion_rights (s s1 : State) (kind : Kind)
    (h : handlePromotion s kind = some s1) :
    s1.castlingRights = s.castlingRights := by
  cases hp : s.promotionSquare with
  | none => simp [handlePromotion, hp] at h
  | some pr =>
    obtain ⟨s2, he, _, hrt, _⟩ := handlePromotion_some s kind pr hp
    rw [he] at h
    cases h
    exact hrt

/-- C12: castling rights are monotone along every sequence of `executeMove` and
`handlePromotion` steps: each of the four flags (white/black, king-side/queen-side) is
true in the resulting state only if it was true in the state the sequence started from, so
a flag that has become false never becomes true again. -/
theorem C12_rights_monotone (s s1 : State) (h : Relation.ReflTransGen EngineStep s s1) :
    (s1.castlingRights.w.kingSide = true → s.castlingRights.w.kingSide = true) ∧
    (s1.castlingRights.w.queenSide = true → s.castlingRights.w.queenSide = true) ∧
    (s1.castlingRights.b.kingSide = true → s.castlingRights.b.kingSide = true) ∧
    (s1.castlingRights.b.queenSide = true → s.castlingRights.b.queenSide = true) := by
  have key : RightsLe s1.castlingRights s.castlingRights := by
    induction h with
    | refl => exact RightsLe.refl _
    | tail _ hstep ih =>
      refine RightsLe.trans ?_ ih
      cases hstep with
      | move r c m he => exact executeMove_rights _ _ r c m he
      | promote kind he =>
        rw [handlePromotion_rights _ _ kind he]
        exact RightsLe.refl _
  exact ⟨(key Color.w).1, (key Color.w).2, (key Color.b).1, (key Color.b).2⟩

/-- C12 (witness): in `castleState` the rook move a1-b1 followed by the black king move
e8-e7 is a sequence of two steps. -/
theorem C12_rights_monotone_witness :
    ∃ s1 s2 : State,
      executeMove castleState 7 0 (Move.plain 7 1) = some s1 ∧
      executeMove s1 0 4 (Move.plain 1 4) = some s2 ∧
      (s2.castlingRights.w.kingSide = true → castleState.castlingRights.w.kingSide = true) ∧
      (s2.castlingRights.w.queenSide = true → castleState.castlingRights.w.queenSide = true) ∧
      (s2.castlingRights.b.kingSide = true → castleState.castlingRights.b.kingSide = true) ∧
      (s2.castlingRights.b.queenSide = true →
        castleState.castlingRights.b.queenSide = true) := by
  obtain ⟨s1, h1, hb1, _⟩ :=
    executeMove_some castleState 7 0 (Move.plain 7 1) ⟨Kind.r, Color.w⟩ (by decide!)
  have hk : s1.board.get 0 4 = some ⟨Kind.k, Color.b⟩ := by
    rw [hb1]
    decide!
  obtain ⟨s2, h2, _⟩ := executeMove_some s1 0 4 (Move.plain 1 4) ⟨Kind.k, Color.b⟩ hk
  exact ⟨s1, s2, h1, h2,
    C12_rights_monotone castleState s2
      ((Relation.ReflTransGen.single (EngineStep.move _ _ 7 0 _ h1)).tail
        (EngineStep.move _ _ 0 4 _ h2))⟩

/-- C11 (witness): in `castleState` the white rook leaves a1 (column 0), which clears
white's queen-side right. -/
theorem C11_rights_after_move_witness :
    castleState.board.get 7 0 = some ⟨Kind.r, Color.w⟩ ∧
    ∃ s1, executeMove castleState 7 0 (Move.plain 7 1) = some s1 ∧
      ((⟨Kind.r, Color.w⟩ : Piece).kind = Kind.k →
        s1.castlingRights.get (⟨Kind.r, Color.w⟩ : Piece).color = ⟨false, false⟩) ∧
      ((⟨Kind.r, Color.w⟩ : Piece).kind = Kind.r → (0 : Int) = 0 →
        (s1.castlingRights.get (⟨Kind.r, Color.w⟩ : Piece).color).queenSide = false) ∧
      ((⟨Kind.r, Color.w⟩ : Piece).kind = Kind.r → (0 : Int) = 7 →
        (s1.castlingRights.get (⟨Kind.r, Color.w⟩ : Piece).color).kingSide = false) ∧
      (∀ cp : Piece, castleState.board.get (Move.plain 7 1).r (Move.plain 7 1).c = some cp →
        cp.kind = Kind.r →
        ((Move.plain 7 1).r = 0 ∧ (Move.plain 7 1).c = 0 →
          s1.castlingRights.b.queenSide = false) ∧
        ((Move.plain 7 1).r = 0 ∧ (Move.plain 7 1).c = 7 →
          s1.castlingRights.b.kingSide = false) ∧
        ((Move.plain 7 1).r = 7 ∧ (Move.plain 7 1).c = 0 →
          s1.castlingRights.w.queenSide = false) ∧
        ((Move.plain 7 1).r = 7 ∧ (Move.plain 7 1).c = 7 →
          s1.castlingRights.w.kingSide = false)) :=
  ⟨by decide!,
    C11_rights_after_move castleState 7 0 ⟨Kind.r, Color.w⟩ (Move.plain 7 1) (by decide!) rfl⟩

/-! ## Plain moves and promotion (C20, C13) -/

/-- C20: for every executed move (a valid move of the piece on the origin square) that is
neither en passant nor a castle, the new board equals the old board except at two squares:
the origin is empty and the destination holds the moved piece (same kind and colour);
every other square is unchanged. -/
theorem C20_plain_move_frame (s : State) (r c : Int) (piece : Piece) (moves : List Move)
    (m : Move) (hp : s.board.get r c = some piece)
    (hv : getValidMoves s.castlingRights s.enPassantTarget r c true s.board s.turn = some moves)
    (hm : m ∈ moves) (hep : m.isEnPassant = false) (hcs : m.isCastle = none) :
    ∃ s1, executeMove s r c m = some s1 ∧
      s1.board.get r c = none ∧ s1.board.get m.r m.c = some piece ∧
      ∀ x y : Int, ¬ (x = r ∧ y = c) → ¬ (x = m.r ∧ y = m.c) →
        s1.board.get x y = s.board.get x y := by
  have hb := Board.inBounds_of_get _ _ _ _ hp
  obtain ⟨geo, hg, hall⟩ := getValidMoves_some _ _ _ _ _ _ _ _ _ hp hv
  have hgeo := (hall m hm).1
  have hin := (geometry_flags _ _ _ _ _ _ _ _ hb hg hgeo).1
  have hne : ¬ (m.r = r ∧ m.c = c) := by
    rintro ⟨h1, h2⟩
    rcases geometry_cases _ _ _ _ _ _ _ _ hb hg hgeo with h | h | h | h | h
    · have := h.2.2 piece (by rw [h1, h2]; exact hp)
      exact this rfl
    · have h3 := h.2.1
      rw [h3] at h1
      simp only at h1
      cases hcl : piece.color <;> rw [hcl] at h1 <;> simp only [forward] at h1 <;> omega
    · have h3 := h.2.1
      rw [h3] at hep
      cases hep
    · have h3 := h.2.1
      rw [h3] at hcs
      cases hcs
    · have h3 := h.2.1
      rw [h3] at hcs
      cases hcs
  obtain ⟨s1, he, hbd, _⟩ := executeMove_some s r c m piece hp
  refine ⟨s1, he, ?_, ?_, ?_⟩
  · rw [hbd]
    obtain ⟨mr, mc, dp, ep, cs⟩ := m
    simp only at hep hcs
    subst hep
    subst hcs
    rw [moveBoard_plain]
    exact Board.get_set_same _ _ _ _ hb
  · rw [hbd]
    obtain ⟨mr, mc, dp, ep, cs⟩ := m
    simp only at hep hcs hne hin ⊢
    subst hep
    subst hcs
    rw [moveBoard_plain, Board.get_set_ne _ _ _ _ _ _ hne]
    exact Board.get_set_same _ _ _ _ hin
  · intro x y h1 h2
    rw [hbd]
    refine moveBoard_get_other _ _ _ _ _ _ _ h2 h1 ?_ ?_ ?_
    · intro h
      rw [hep] at h
      cases h
    · intro h
      rw [hcs] at h
      cases h
    · intro h
      rw [hcs] at h
      cases h

/-- C20 (witness): the pawn step e2-e3 from the initial position. -/
theorem C20_plain_move_frame_witness :
    ∃ s1, executeMove State.initial 6 4 (Move.plain 5 4) = some s1 ∧
      s1.board.get 6 4 = none ∧
      s1.board.get (Move.plain 5 4).r (Move.plain 5 4).c = some ⟨Kind.p, Color.w⟩ ∧
      ∀ x y : Int, ¬ (x = 6 ∧ y = 4) → ¬ (x = (Move.plain 5 4).r ∧ y = (Move.plain 5 4).c) →
        s1.board.get x y = State.initial.board.get x y :=
  C20_plain_move_frame State.initial 6 4 ⟨Kind.p, Color.w⟩
    [Move.plain 5 4, Move.doublePush 4 4] (Move.plain 5 4)
    (by decide!) (by decide!) (by decide!) rfl rfl

theorem handlePromotion_eq (s : State) (kind : Kind) (pr : Promotion)
    (hp : s.promotionSquare = some pr) :
    handlePromotion s kind =
      some { finalizeMove s (s.board.set pr.r pr.c (some ⟨kind, s.turn⟩)) s.turn.other
                s.enPassantTarget s.castlingRights (pr.moveStr ++ "=" ++ kind.upper) with
             promotionSquare := none } := by
  simp only [handlePromotion, hp]

/-- C13: when `executeMove` moves a pawn of the side to move onto row 0 or row 7 the
half-move is not completed: the side to move and the history are unchanged and a pending
promotion holding the destination square and the notation prefix is recorded.
`handlePromotion kind` then places a piece of that kind in the mover's colour on the
pending square, leaves every other square unchanged, passes the turn to the opponent,
appends exactly one history entry, the prefix followed by `=` and the upper-case kind
letter (followed by `+` when the opponent is then in check), and clears the pending
promotion. -/
theorem C13_promotion (s : State) (r c : Int) (pawn : Piece) (m : Move) (kind : Kind)
    (hp : s.board.get r c = some pawn) (hk : pawn.kind = Kind.p) (hc : pawn.color = s.turn)
    (hrow : m.r = 0 ∨ m.r = 7) (hcol : inB m.c = true) :
    ∃ s1 s2 : State,
      executeMove s r c m = some s1 ∧
      s1.turn = s.turn ∧ s1.history = s.history ∧
      s1.promotionSquare = some ⟨m.r, m.c, moveNotation s.board c pawn m⟩ ∧
      handlePromotion s1 kind = some s2 ∧
      s2.board.get m.r m.c = some ⟨kind, pawn.color⟩ ∧
      (∀ x y : Int, ¬ (x = m.r ∧ y = m.c) → s2.board.get x y = s1.board.get x y) ∧
      s2.turn = pawn.color.other ∧
      s2.history = s.history ++
        [if isKingInCheck s2.board pawn.color.other = true then
          moveNotation s.board c pawn m ++ "=" ++ kind.upper ++ "+"
         else moveNotation s.board c pawn m ++ "=" ++ kind.upper] ∧
      s2.promotionSquare = none := by
  obtain ⟨s1, he, _, _, _, hpromo, _⟩ := executeMove_some s r c m pawn hp
  obtain ⟨ht, hh, hps⟩ := hpromo ⟨hk, hrow⟩
  have hin : inBounds m.r m.c = true := by
    rw [inBounds_iff]
    rw [inB_iff] at hcol
    omega
  refine ⟨s1, _, he, ht, hh, hps, handlePromotion_eq s1 kind _ hps, ?_, ?_, ?_, ?_, rfl⟩
  · simp only [finalizeMove, ht, hc]
    exact Board.get_set_same _ _ _ _ hin
  · intro x y hxy
    simp only [finalizeMove]
    exact Board.get_set_ne _ _ _ _ _ _ hxy
  · simp only [finalizeMove, ht, hc]
  · simp only [finalizeMove, ht, hc, hh]

/-- C13 (witness): in `promoCheckState` the pawn steps b7-b8 and promotes to a queen. -/
theorem C13_promotion_witness :
    ∃ s1 s2 : State,
      executeMove promoCheckState 1 1 (Move.plain 0 1) = some s1 ∧
      s1.turn = promoCheckState.turn ∧ s1.history = promoCheckState.history ∧
      s1.promotionSquare = some ⟨(Move.plain 0 1).r, (Move.plain 0 1).c,
        moveNotation promoCheckState.board 1 ⟨Kind.p, Color.w⟩ (Move.plain 0 1)⟩ ∧
      handlePromotion s1 Kind.q = some s2 ∧
      s2.board.get (Move.plain 0 1).r (Move.plain 0 1).c =
        some ⟨Kind.q, (⟨Kind.p, Color.w⟩ : Piece).color⟩ ∧
      (∀ x y : Int, ¬ (x = (Move.plain 0 1).r ∧ y = (Move.plain 0 1).c) →
        s2.board.get x y = s1.board.get x y) ∧
      s2.turn = (⟨Kind.p, Color.w⟩ : Piece).color.other ∧
      s2.history = promoCheckState.history ++
        [if isKingInCheck s2.board (⟨Kind.p, Color.w⟩ : Piece).color.other = true then
          moveNotation promoCheckState.board 1 ⟨Kind.p, Color.w⟩ (Move.plain 0 1) ++ "=" ++
            Kind.q.upper ++ "+"
         else moveNotation promoCheckState.board 1 ⟨Kind.p, Color.w⟩ (Move.plain 0 1) ++ "=" ++
            Kind.q.upper] ∧
      s2.promotionSquare = none :=
  C13_promotion promoCheckState 1 1 ⟨Kind.p, Color.w⟩ (Move.plain 0 1) Kind.q
    (by decide!) rfl rfl (Or.inl rfl) (by decide!)
/-! ## Rejected clicks (C14) -/

theorem handleSquareClick_select (s : State) (r c : Int)
    (hg : ¬ (s.gameState ≠ GameStatus.playing ∨ s.promotionSquare.isSome = true))
    (hnd : s.selected = none ∨ ∀ m ∈ s.validMoves, ¬ (m.r = r ∧ m.c = c)) :
    handleSquareClick s r c =
      match s.board.get r c with
      | some piece =>
        if piece.color = s.turn then
          (getValidMoves s.castlingRights s.enPassantTarget r c true s.board s.turn).map
            fun moves => { s with selected := some ⟨r, c⟩, validMoves := moves }
        else some { s with selected := none, validMoves := [] }
      | none => some { s with selected := none, validMoves := [] } := by
  unfold handleSquareClick
  rw [if_neg hg]
  rcases hnd with h | h
  · rw [h]
  · have hf : s.validMoves.find? (fun m => decide (m.r = r) && decide (m.c = c)) = none := by
      rw [List.find?_eq_none]
      intro m hm
      have := h m hm
      simpa using this
    rw [hf]
    cases s.selected <;> rfl

/-- C14: `handleSquareClick r c` returns the state as it is whenever the game state is
not `playing` or a promotion is pending; and whenever no piece is selected or `(r, c)` is
not a destination among the valid moves of the selected piece, the state it returns has
the same board, side to move, castling rights, en-passant target, history and game state.
In the second case the call returns unless the clicked square holds a pawn of the side to
move standing on its last rank; a clicked piece of the side not to move is not selected
(the selection is cleared) and nothing is moved. -/
theorem C14_rejected_click (s : State) (r c : Int) :
    ((s.gameState ≠ GameStatus.playing ∨ s.promotionSquare.isSome = true) →
      handleSquareClick s r c = some s) ∧
    ((s.selected = none ∨ ∀ m ∈ s.validMoves, ¬ (m.r = r ∧ m.c = c)) →
      (∀ s1, handleSquareClick s r c = some s1 →
        s1.board = s.board ∧ s1.turn = s.turn ∧ s1.castlingRights = s.castlingRights ∧
        s1.enPassantTarget = s.enPassantTarget ∧ s1.history = s.history ∧
        s1.gameState = s.gameState) ∧
      ((∀ p, s.board.get r c = some p → p.color = s.turn → p.kind = Kind.p →
          inB (r + forward p.color) = true) →
        ∃ s1, handleSquareClick s r c = some s1) ∧
      (∀ p, s.board.get r c = some p → p.color ≠ s.turn →
        ∃ s1, handleSquareClick s r c = some s1 ∧ s1.board = s.board ∧
          (s.gameState = GameStatus.playing → s.promotionSquare = none →
            s1.selected = none ∧ s1.validMoves = []))) := by
  constructor
  · intro hg
    unfold handleSquareClick
    rw [if_pos hg]
  · intro hnd
    by_cases hg : s.gameState ≠ GameStatus.playing ∨ s.promotionSquare.isSome = true
    · have hs : handleSquareClick s r c = some s := by
        unfold handleSquareClick
        rw [if_pos hg]
      refine ⟨?_, ?_, ?_⟩
      · intro s1 h1
        rw [hs] at h1
        cases h1
        exact ⟨rfl, rfl, rfl, rfl, rfl, rfl⟩
      · intro _
        exact ⟨s, hs⟩
      · intro p _ _
        refine ⟨s, hs, rfl, ?_⟩
        intro h1 h2
        rcases hg with h | h
        · exact absurd h1 h
        · rw [h2] at h
          cases h
    · have hs := handleSquareClick_select s r c hg hnd
      refine ⟨?_, ?_, ?_⟩
      · intro s1 h1
        rw [hs] at h1
        cases hp : s.board.get r c with
        | none =>
          simp only [hp, Option.some.injEq] at h1
          subst h1
          exact ⟨rfl, rfl, rfl, rfl, rfl, rfl⟩
        | some piece =>
          simp only [hp] at h1
          by_cases hc : piece.color = s.turn
          · rw [if_pos hc] at h1
            cases hv : getValidMoves s.castlingRights s.enPassantTarget r c true s.board s.turn with
            | none =>
              rw [hv] at h1
              cases h1
            | some moves =>
              rw [hv] at h1
              simp only [Option.map_some', Option.some.injEq] at h1
              subst h1
              exact ⟨rfl, rfl, rfl, rfl, rfl, rfl⟩
          · rw [if_neg hc] at h1
            simp only [Option.some.injEq] at h1
            subst h1
            exact ⟨rfl, rfl, rfl, rfl, rfl, rfl⟩
      · intro hrank
        rw [hs]
        cases hp : s.board.get r c with
        | none => exact ⟨_, rfl⟩
        | some piece =>
          simp only
          by_cases hc : piece.color = s.turn
          · rw [if_pos hc]
            obtain ⟨moves, hv⟩ := getValidMoves_total s.castlingRights s.enPassantTarget r c true
              s.board s.turn piece hp (hrank piece hp hc)
            rw [hv]
            exact ⟨_, rfl⟩
          · rw [if_neg hc]
            exact ⟨_, rfl⟩
      · intro p hp hc
        rw [hs]
        simp only [hp, if_neg hc]
        exact ⟨_, rfl, rfl, fun _ _ => ⟨rfl, rfl⟩⟩

/-- C14 (witness): from the initial position, with nothing selected, a click on the
black pawn e7 changes nothing and selects nothing. -/
theorem C14_rejected_click_witness :
    (∀ s1, handleSquareClick State.initial 1 4 = some s1 →
      s1.board = State.initial.board ∧ s1.turn = State.initial.turn ∧
      s1.castlingRights = State.initial.castlingRights ∧
      s1.enPassantTarget = State.initial.enPassantTarget ∧
      s1.history = State.initial.history ∧ s1.gameState = State.initial.gameState) ∧
    ((∀ p, State.initial.board.get 1 4 = some p → p.color = State.initial.turn →
        p.kind = Kind.p → inB (1 + forward p.color) = true) →
      ∃ s1, handleSquareClick State.initial 1 4 = some s1) ∧
    (∀ p, State.initial.board.get 1 4 = some p → p.color ≠ State.initial.turn →
      ∃ s1, handleSquareClick State.initial 1 4 = some s1 ∧ s1.board = State.initial.board ∧
        (State.initial.gameState = GameStatus.playing → State.initial.promotionSquare = none →
          s1.selected = none ∧ s1.validMoves = [])) :=
  (C14_rejected_click State.initial 1 4).2 (Or.inl rfl)

/-! ## Exact geometry of pawn, knight and king (C17, C19) -/

theorem color_ne_iff_other (a col : Color) : a ≠ col ↔ a = col.other := by
  cases a <;> cases col <;> decide

/-- C17: for every board, every in-bounds square `(r, c)` holding a pawn that is not on
its own last rank, and every en-passant target, `getGeometryMoves` returns exactly these
moves and no others, with `f = -1` for white and `+1` for black: `(r+f, c)` iff that square
is empty; `(r+2f, c)` flagged `isDoublePush` iff `r` is the start row (6 for white, 1 for
black) and both `(r+f, c)` and `(r+2f, c)` are empty; each in-bounds `(r+f, c-1)` and
`(r+f, c+1)` iff it holds a piece of the opposite colour; and each in-bounds `(r+f, c-1)`,
`(r+f, c+1)` flagged `isEnPassant` iff it equals the en-passant target.  In particular every
returned move that stays in column `c` lands on an empty square. -/
theorem C17_pawn_geometry (b : Board) (r c : Int) (pawn : Piece)
    (rights : Option CastlingRights) (ep : Option Square) (f start : Int)
    (hk : pawn.kind = Kind.p)
    (hf : f = if pawn.color = Color.w then -1 else 1)
    (hs : start = if pawn.color = Color.w then 6 else 1)
    (hlast : inB (r + f) = true) :
    ∃ geo, getGeometryMoves b r c pawn rights ep = some geo ∧
      (∀ m : Move, m ∈ geo ↔
        (m = Move.plain (r + f) c ∧ b.get (r + f) c = none) ∨
        (m = Move.doublePush (r + 2 * f) c ∧ r = start ∧ b.get (r + f) c = none ∧
          b.get (r + 2 * f) c = none) ∨
        (∃ dc : Int, (dc = -1 ∨ dc = 1) ∧ inBounds (r + f) (c + dc) = true ∧
          m = Move.plain (r + f) (c + dc) ∧
          ∃ t, b.get (r + f) (c + dc) = some t ∧ t.color = pawn.color.other) ∨
        (∃ dc : Int, (dc = -1 ∨ dc = 1) ∧ inBounds (r + f) (c + dc) = true ∧
          m = Move.enPassant (r + f) (c + dc) ∧ ep = some ⟨r + f, c + dc⟩)) ∧
      (∀ m ∈ geo, m.c = c → b.get m.r m.c = none) := by
  have hfw : f = forward pawn.color := by
    rw [hf]
    cases pawn.color <;> rfl
  have hst : start = startRow pawn.color := by
    rw [hs]
    cases pawn.color <;> rfl
  rw [hfw] at hlast
  have hsome := pawnMoves_isSome b pawn.color ep r c
  rw [hlast] at hsome
  obtain ⟨geo, hgeo⟩ := Option.isSome_iff_exists.mp hsome
  have hiff : ∀ m : Move, m ∈ geo ↔
      (m = Move.plain (r + f) c ∧ b.get (r + f) c = none) ∨
      (m = Move.doublePush (r + 2 * f) c ∧ r = start ∧ b.get (r + f) c = none ∧
        b.get (r + 2 * f) c = none) ∨
      (∃ dc : Int, (dc = -1 ∨ dc = 1) ∧ inBounds (r + f) (c + dc) = true ∧
        m = Move.plain (r + f) (c + dc) ∧
        ∃ t, b.get (r + f) (c + dc) = some t ∧ t.color = pawn.color.other) ∨
      (∃ dc : Int, (dc = -1 ∨ dc = 1) ∧ inBounds (r + f) (c + dc) = true ∧
        m = Move.enPassant (r + f) (c + dc) ∧ ep = some ⟨r + f, c + dc⟩) := by
    intro m
    rw [mem_pawnMoves b pawn.color ep r c geo hgeo m, mem_pawnCapture, mem_pawnCapture,
      hfw, hst]
    have e2 : r + 2 * forward pawn.color = r + forward pawn.color * 2 := by ring
    rw [e2]
    simp only [Move.doublePush, Move.enPassant, color_ne_iff_other]
    constructor
    · rintro (h | h | ⟨hin, h | h⟩ | ⟨hin, h | h⟩)
      · exact Or.inl h
      · exact Or.inr (Or.inl ⟨h.1, h.2.2.1, h.2.1, h.2.2.2⟩)
      · exact Or.inr (Or.inr (Or.inl ⟨-1, Or.inl rfl, hin, h⟩))
      · exact Or.inr (Or.inr (Or.inr ⟨-1, Or.inl rfl, hin, h⟩))
      · exact Or.inr (Or.inr (Or.inl ⟨1, Or.inr rfl, hin, h⟩))
      · exact Or.inr (Or.inr (Or.inr ⟨1, Or.inr rfl, hin, h⟩))
    · rintro (h | h | ⟨dc, hdc | hdc, hin, h⟩ | ⟨dc, hdc | hdc, hin, h⟩)
      · exact Or.inl h
      · exact Or.inr (Or.inl ⟨h.1, h.2.2.1, h.2.1, h.2.2.2⟩)
      · subst hdc
        exact Or.inr (Or.inr (Or.inl ⟨hin, Or.inl h⟩))
      · subst hdc
        exact Or.inr (Or.inr (Or.inr ⟨hin, Or.inl h⟩))
      · subst hdc
        exact Or.inr (Or.inr (Or.inl ⟨hin, Or.inr h⟩))
      · subst hdc
        exact Or.inr (Or.inr (Or.inr ⟨hin, Or.inr h⟩))
  refine ⟨geo, ?_, hiff, ?_⟩
  · rw [getGeometryMoves_pawn _ _ _ _ _ _ hk]
    exact hgeo
  · intro m hm hmc
    rcases (hiff m).mp hm with h | h | ⟨dc, hdc, _, h, _⟩ | ⟨dc, hdc, _, h, _⟩
    · rw [h.1]
      exact h.2
    · rw [h.1]
      exact h.2.2.2
    · rw [h] at hmc
      simp only [Move.plain] at hmc
      omega
    · rw [h] at hmc
      simp only [Move.enPassant] at hmc
      omega

/-- C17 (witness): the white pawn e2 of the initial position. -/
theorem C17_pawn_geometry_witness :
    ∃ geo, getGeometryMoves INITIAL_BOARD 6 4 ⟨Kind.p, Color.w⟩ none none = some geo ∧
      (∀ m : Move, m ∈ geo ↔
        (m = Move.plain (6 + -1) 4 ∧ INITIAL_BOARD.get (6 + -1) 4 = none) ∨
        (m = Move.doublePush (6 + 2 * -1) 4 ∧ (6 : Int) = 6 ∧
          INITIAL_BOARD.get (6 + -1) 4 = none ∧ INITIAL_BOARD.get (6 + 2 * -1) 4 = none) ∨
        (∃ dc : Int, (dc = -1 ∨ dc = 1) ∧ inBounds (6 + -1) (4 + dc) = true ∧
          m = Move.plain (6 + -1) (4 + dc) ∧
          ∃ t, INITIAL_BOARD.get (6 + -1) (4 + dc) = some t ∧
            t.color = (⟨Kind.p, Color.w⟩ : Piece).color.other) ∨
        (∃ dc : Int, (dc = -1 ∨ dc = 1) ∧ inBounds (6 + -1) (4 + dc) = true ∧
          m = Move.enPassant (6 + -1) (4 + dc) ∧ (none : Option Square) = some ⟨6 + -1, 4 + dc⟩)) ∧
      (∀ m ∈ geo, m.c = 4 → INITIAL_BOARD.get m.r m.c = none) :=
  C17_pawn_geometry INITIAL_BOARD 6 4 ⟨Kind.p, Color.w⟩ none none (-1) 6
    rfl rfl rfl (by decide!)

theorem mem_knightOffsets (dr dc : Int) : (dr, dc) ∈ knightOffsets ↔ knightJump dr dc = true := by
  simp only [knightOffsets, knightJump, List.mem_cons, List.mem_singleton, List.not_mem_nil,
    or_false, Prod.mk.injEq, Bool.or_eq_true, Bool.and_eq_true, decide_eq_true_eq]
  omega

theorem mem_kingOffsets (dr dc : Int) : (dr, dc) ∈ kingOffsets ↔ kingStep dr dc = true := by
  simp only [kingOffsets, kingStep, List.mem_cons, List.mem_singleton, List.not_mem_nil,
    or_false, Prod.mk.injEq, Bool.and_eq_true, decide_eq_true_eq, Bool.not_eq_true',
    Bool.and_eq_false_imp, decide_eq_false_iff_not]
  omega

theorem mem_flatMap_tryAdd (b : Board) (color : Color) (r c : Int) (offs : List (Int × Int))
    (m : Move) :
    m ∈ (offs.flatMap fun d => tryAdd b color (r + d.1) (c + d.2)) ↔
      ∃ dr dc : Int, (dr, dc) ∈ offs ∧ m = Move.plain (r + dr) (c + dc) ∧
        inBounds (r + dr) (c + dc) = true ∧
        ∀ t, b.get (r + dr) (c + dc) = some t → t.color ≠ color := by
  rw [List.mem_flatMap]
  constructor
  · rintro ⟨d, hd, hm⟩
    exact ⟨d.1, d.2, hd, (mem_tryAdd _ _ _ _ _).mp hm⟩
  · rintro ⟨dr, dc, hd, hm⟩
    exact ⟨(dr, dc), hd, (mem_tryAdd _ _ _ _ _).mpr hm⟩

/-- C19: for every board and square `(r, c)` holding a knight or a king of colour `C`, the
non-castling moves returned by `getGeometryMoves` are exactly the squares `(r+dr, c+dc)`,
for `(dr, dc)` in the piece's 8 fixed offsets (the knight's L-offsets; the king's 8
neighbours), that are inside the 8x8 board and do not hold a piece of colour `C`. -/
theorem C19_knight_king_geometry (b : Board) (r c : Int) (piece : Piece)
    (rights : Option CastlingRights) (ep : Option Square)
    (hk : piece.kind = Kind.n ∨ piece.kind = Kind.k) :
    ∃ geo, getGeometryMoves b r c piece rights ep = some geo ∧
      (∀ m : Move, (m ∈ geo ∧ m.isCastle = none) ↔
        ∃ dr dc : Int, stepOffset piece.kind dr dc = true ∧ m = Move.plain (r + dr) (c + dc) ∧
          inBounds (r + dr) (c + dc) = true ∧
          ∀ t, b.get (r + dr) (c + dc) = some t → t.color ≠ piece.color) ∧
      knightOffsets.length = 8 ∧ knightOffsets.Nodup ∧
      kingOffsets.length = 8 ∧ kingOffsets.Nodup := by
  rcases hk with hk | hk
  · refine ⟨_, getGeometryMoves_knight b r c piece rights ep hk, ?_, rfl, by decide, rfl,
      by decide⟩
    intro m
    rw [mem_flatMap_tryAdd, hk]
    simp only [stepOffset, ← mem_knightOffsets]
    constructor
    · rintro ⟨h, _⟩
      exact h
    · rintro ⟨dr, dc, hd, hm, hrest⟩
      refine ⟨⟨dr, dc, hd, hm, hrest⟩, ?_⟩
      rw [hm]
      rfl
  · refine ⟨_, getGeometryMoves_king b r c piece rights ep hk, ?_, rfl, by decide, rfl,
      by decide⟩
    intro m
    rw [List.mem_append, mem_flatMap_tryAdd, hk]
    simp only [stepOffset, ← mem_kingOffsets]
    constructor
    · rintro ⟨h | h, hc⟩
      · exact h
      · obtain ⟨rt, _, h1 | h1⟩ := (mem_castleMoves _ _ _ _ _ _).mp h
        · rw [h1.1] at hc
          cases hc
        · rw [h1.1] at hc
          cases hc
    · rintro ⟨dr, dc, hd, hm, hrest⟩
      refine ⟨Or.inl ⟨dr, dc, hd, hm, hrest⟩, ?_⟩
      rw [hm]
      rfl

/-- C19 (witness): the knight b1 of the initial position. -/
theorem C19_knight_king_geometry_witness :
    ∃ geo, getGeometryMoves INITIAL_BOARD 7 1 ⟨Kind.n, Color.w⟩ none none = some geo ∧
      (∀ m : Move, (m ∈ geo ∧ m.isCastle = none) ↔
        ∃ dr dc : Int, stepOffset (⟨Kind.n, Color.w⟩ : Piece).kind dr dc = true ∧
          m = Move.plain (7 + dr) (1 + dc) ∧ inBounds (7 + dr) (1 + dc) = true ∧
          ∀ t, INITIAL_BOARD.get (7 + dr) (1 + dc) = some t →
            t.color ≠ (⟨Kind.n, Color.w⟩ : Piece).color) ∧
      knightOffsets.length = 8 ∧ knightOffsets.Nodup ∧
      kingOffsets.length = 8 ∧ kingOffsets.Nodup :=
  C19_knight_king_geometry INITIAL_BOARD 7 1 ⟨Kind.n, Color.w⟩ none none (Or.inl rfl)

/-! ## Exact geometry of the sliding pieces (C18) -/

theorem mem_rookDirs (dr dc : Int) : (dr, dc) ∈ rookDirs ↔ orthogonalDir dr dc = true := by
  simp only [rookDirs, orthogonalDir, List.mem_cons, List.mem_singleton, List.not_mem_nil,
    or_false, Prod.mk.injEq, Bool.or_eq_true, Bool.and_eq_true, decide_eq_true_eq]
  omega

theorem mem_bishopDirs (dr dc : Int) : (dr, dc) ∈ bishopDirs ↔ diagonalDir dr dc = true := by
  simp only [bishopDirs, diagonalDir, List.mem_cons, List.mem_singleton, List.not_mem_nil,
    or_false, Prod.mk.injEq, Bool.and_eq_true, decide_eq_true_eq]
  omega

theorem queenDirs_unit (dr dc : Int) (h : (dr, dc) ∈ queenDirs) :
    (dr = -1 ∨ dr = 0 ∨ dr = 1) ∧ (dc = -1 ∨ dc = 0 ∨ dc = 1) ∧ ¬ (dr = 0 ∧ dc = 0) := by
  simp only [queenDirs, List.mem_cons, List.mem_singleton, List.not_mem_nil, or_false,
    Prod.mk.injEq] at h
  omega

/-- Equal multiples of two unit steps, with positive factors, come from the same step. -/
theorem unit_step_eq (x y : Int) (i j : Nat) (hx : x = -1 ∨ x = 0 ∨ x = 1)
    (hy : y = -1 ∨ y = 0 ∨ y = 1) (h : ((i : Int) + 1) * x = ((j : Int) + 1) * y) : x = y := by
  rcases hx with hx | hx | hx <;> rcases hy with hy | hy | hy <;> subst hx <;> subst hy <;>
    first | rfl | (exfalso; omega)

/-- On a ray between two squares of the board every square lies on the board, and the ray
is shorter than 8. -/
theorem ray_inBounds (r c dr dc : Int) (n : Nat) (hd : (dr, dc) ∈ queenDirs)
    (hb : inBounds r c = true) (ht : inBounds (r + n * dr) (c + n * dc) = true) :
    n < 8 ∧ ∀ j : Nat, j ≤ n → inBounds (r + j * dr) (c + j * dc) = true := by
  obtain ⟨h1, h2, h3⟩ := queenDirs_unit dr dc hd
  rw [inBounds_iff] at hb ht
  constructor
  · rcases h1 with h1 | h1 | h1 <;> rcases h2 with h2 | h2 | h2 <;> subst h1 <;> subst h2 <;>
      omega
  · intro j hj
    rw [inBounds_iff]
    rcases h1 with h1 | h1 | h1 <;> rcases h2 with h2 | h2 | h2 <;> subst h1 <;> subst h2 <;>
      omega

theorem slide_plain (b : Board) (color : Color) (r c dr dc : Int) (m : Move)
    (h : m ∈ slide b color r c dr dc) : m = Move.plain m.r m.c := by
  obtain ⟨k, _, hm, _⟩ := (mem_slide _ _ _ _ _ _ _).mp h
  rw [hm]
  rfl

theorem slideLoop_nodup (b : Board) (color : Color) (dr dc : Int) (hd : ¬ (dr = 0 ∧ dc = 0)) :
    ∀ (n : Nat) (r c : Int), (slideLoop b color dr dc n (r + dr) (c + dc)).Nodup := by
  intro n
  induction n with
  | zero =>
    intro r c
    simp [slideLoop]
  | succ n ih =>
    intro r c
    unfold slideLoop
    by_cases hb : inBounds (r + dr) (c + dc) = true
    · cases hg : b.get (r + dr) (c + dc) with
      | none =>
        simp only [hb, if_true]
        rw [List.nodup_cons]
        refine ⟨?_, ih (r + dr) (c + dc)⟩
        intro hmem
        obtain ⟨k, _, hm, _⟩ := (mem_slideLoop b color dr dc _ n (r + dr) (c + dc)).mp hmem
        simp only [Move.plain, Move.mk.injEq, and_true] at hm
        obtain ⟨h1, h2⟩ := hm
        have e1 : ((k : Int) + 1) * dr = 0 := by linarith
        have e2 : ((k : Int) + 1) * dc = 0 := by linarith
        have hk : ((k : Int) + 1) ≠ 0 := by omega
        exact hd ⟨(mul_eq_zero.mp e1).resolve_left hk, (mul_eq_zero.mp e2).resolve_left hk⟩
      | some t =>
        simp only [hb, if_true]
        split
        · exact List.nodup_singleton _
        · exact List.nodup_nil
    · simp [hb]

theorem slide_disjoint (b : Board) (color : Color) (r c : Int) (d1 d2 : Int × Int)
    (h1 : d1 ∈ queenDirs) (h2 : d2 ∈ queenDirs) (hne : d1 ≠ d2) :
    List.Disjoint (slide b color r c d1.1 d1.2) (slide b color r c d2.1 d2.2) := by
  intro m hm1 hm2
  obtain ⟨k1, _, e1, _⟩ := (mem_slide _ _ _ _ _ _ _).mp hm1
  obtain ⟨k2, _, e2, _⟩ := (mem_slide _ _ _ _ _ _ _).mp hm2
  rw [e1] at e2
  simp only [Move.plain, Move.mk.injEq, and_true] at e2
  obtain ⟨er, ec⟩ := e2
  obtain ⟨a1, a2, _⟩ := queenDirs_unit d1.1 d1.2 h1
  obtain ⟨b1, b2, _⟩ := queenDirs_unit d2.1 d2.2 h2
  have hr : d1.1 = d2.1 := unit_step_eq _ _ k1 k2 a1 b1 (by linarith)
  have hc : d1.2 = d2.2 := unit_step_eq _ _ k1 k2 a2 b2 (by linarith)
  exact hne (Prod.ext hr hc)

theorem slides_nodup (b : Board) (color : Color) (r c : Int) (dirs : List (Int × Int))
    (hsub : ∀ d ∈ dirs, d ∈ queenDirs) (hnd : dirs.Nodup) :
    ((dirs.flatMap fun d => slide b color r c d.1 d.2).map fun m => (m.r, m.c)).Nodup := by
  have hmoves : (dirs.flatMap fun d => slide b color r c d.1 d.2).Nodup := by
    rw [List.nodup_flatMap]
    constructor
    · intro d hd
      have := queenDirs_unit d.1 d.2 (hsub d hd)
      exact slideLoop_nodup b color d.1 d.2 this.2.2 8 r c
    · exact hnd.pairwise_of_forall_ne fun d1 h1 d2 h2 hne =>
        slide_disjoint b color r c d1 d2 (hsub d1 h1) (hsub d2 h2) hne
  refine List.Nodup.map_on ?_ hmoves
  intro m1 h1 m2 h2 heq
  obtain ⟨d1, _, hm1⟩ := List.mem_flatMap.mp h1
  obtain ⟨d2, _, hm2⟩ := List.mem_flatMap.mp h2
  rw [slide_plain _ _ _ _ _ _ _ hm1, slide_plain _ _ _ _ _ _ _ hm2]
  simp only [Prod.mk.injEq] at heq
  rw [heq.1, heq.2]
theorem target_free_iff (cell : Cell) (color : Color) :
    (∀ t, cell = some t → t.color ≠ color) ↔
      (cell = none ∨ ∃ t, cell = some t ∧ t.color = color.other) := by
  cases cell with
  | none => simp
  | some t =>
    simp only [Option.some.injEq, forall_eq', false_or, exists_eq_left', reduceCtorEq]
    cases t.color <;> cases color <;> decide

theorem mem_slides_square (b : Board) (color : Color) (r c : Int) (dirs : List (Int × Int))
    (hsub : ∀ d ∈ dirs, d ∈ queenDirs) (hb : inBounds r c = true) (tr tc : Int) :
    (∃ m ∈ dirs.flatMap fun d => slide b color r c d.1 d.2, m.r = tr ∧ m.c = tc) ↔
      inBounds tr tc = true ∧
      ∃ (dr dc : Int) (n : Nat), (dr, dc) ∈ dirs ∧ 0 < n ∧
        tr = r + n * dr ∧ tc = c + n * dc ∧
        (∀ j : Nat, 0 < j → j < n → b.get (r + j * dr) (c + j * dc) = none) ∧
        (b.get tr tc = none ∨ ∃ t, b.get tr tc = some t ∧ t.color = color.other) := by
  constructor
  · rintro ⟨m, hm, hr, hc⟩
    obtain ⟨d, hd, hms⟩ := List.mem_flatMap.mp hm
    obtain ⟨k, _, e, hclear, hin, htarget⟩ := (mem_slide _ _ _ _ _ _ _).mp hms
    rw [e] at hr hc
    simp only [Move.plain] at hr hc
    have er : tr = r + ((k + 1 : Nat) : Int) * d.1 := by rw [← hr]; push_cast; ring
    have ec : tc = c + ((k + 1 : Nat) : Int) * d.2 := by rw [← hc]; push_cast; ring
    rw [hr, hc] at hin htarget
    refine ⟨hin, d.1, d.2, k + 1, hd, by omega, er, ec, ?_, (target_free_iff _ _).mp htarget⟩
    intro j hj0 hjn
    have := (hclear (j - 1) (by omega)).2
    have ej : (((j - 1 : Nat)) : Int) + 1 = (j : Int) := by omega
    rw [ej] at this
    exact this
  · rintro ⟨hin, dr, dc, n, hd, hn, er, ec, hbetween, htarget⟩
    have hq := hsub _ hd
    have hray := ray_inBounds r c dr dc n hq hb (by rw [← er, ← ec]; exact hin)
    have en : (((n - 1 : Nat)) : Int) + 1 = (n : Int) := by omega
    refine ⟨Move.plain tr tc, ?_, rfl, rfl⟩
    rw [List.mem_flatMap]
    refine ⟨(dr, dc), hd, ?_⟩
    rw [mem_slide]
    refine ⟨n - 1, by omega, ?_, ?_, ?_, ?_⟩
    · rw [en, er, ec]
    · intro j hj
      have ej : (j : Int) + 1 = ((j + 1 : Nat) : Int) := by push_cast; ring
      rw [ej]
      exact ⟨hray.2 (j + 1) (by omega), hbetween (j + 1) (by omega) (by omega)⟩
    · rw [en, ← er, ← ec]
      exact hin
    · rw [en, ← er, ← ec]
      exact (target_free_iff _ _).mpr htarget

/-- C18: for every board and in-bounds square `(r, c)` holding a rook, bishop or queen of
colour `C`, a square `(tr, tc)` is among `getGeometryMoves` exactly when it lies on one of
the piece's rays from `(r, c)` (orthogonal for a rook, diagonal for a bishop, both for a
queen), every square strictly between `(r, c)` and it is empty, and it is empty or holds a
piece of the opposite colour; every returned move is a plain move and no square is
returned twice. -/
theorem C18_slider_geometry (b : Board) (r c : Int) (piece : Piece)
    (rights : Option CastlingRights) (ep : Option Square) (hb : inBounds r c = true)
    (hk : piece.kind = Kind.r ∨ piece.kind = Kind.b ∨ piece.kind = Kind.q) :
    ∃ geo, getGeometryMoves b r c piece rights ep = some geo ∧
      (∀ tr tc : Int, (∃ m ∈ geo, m.r = tr ∧ m.c = tc) ↔
        inBounds tr tc = true ∧
        ∃ (dr dc : Int) (n : Nat), rayDir piece.kind dr dc = true ∧ 0 < n ∧
          tr = r + n * dr ∧ tc = c + n * dc ∧
          (∀ j : Nat, 0 < j → j < n → b.get (r + j * dr) (c + j * dc) = none) ∧
          (b.get tr tc = none ∨ ∃ t, b.get tr tc = some t ∧ t.color = piece.color.other)) ∧
      (∀ m ∈ geo, m = Move.plain m.r m.c) ∧
      (geo.map fun m => (m.r, m.c)).Nodup := by
  have hplain : ∀ (dirs : List (Int × Int)),
      ∀ m ∈ dirs.flatMap fun d => slide b piece.color r c d.1 d.2, m = Move.plain m.r m.c := by
    intro dirs m hm
    obtain ⟨d, _, hms⟩ := List.mem_flatMap.mp hm
    exact slide_plain _ _ _ _ _ _ _ hms
  rcases hk with hk | hk | hk
  · have hsub : ∀ d ∈ rookDirs, d ∈ queenDirs := fun d hd =>
      (mem_queenDirs d).mpr (Or.inr hd)
    refine ⟨_, getGeometryMoves_rook b r c piece rights ep hk, ?_, hplain _,
      slides_nodup b piece.color r c rookDirs hsub (by decide)⟩
    intro tr tc
    rw [mem_slides_square b piece.color r c rookDirs hsub hb tr tc, hk]
    simp only [rayDir, ← mem_rookDirs]
  · have hsub : ∀ d ∈ bishopDirs, d ∈ queenDirs := fun d hd =>
      (mem_queenDirs d).mpr (Or.inl hd)
    refine ⟨_, getGeometryMoves_bishop b r c piece rights ep hk, ?_, hplain _,
      slides_nodup b piece.color r c bishopDirs hsub (by decide)⟩
    intro tr tc
    rw [mem_slides_square b piece.color r c bishopDirs hsub hb tr tc, hk]
    simp only [rayDir, ← mem_bishopDirs]
  · refine ⟨_, getGeometryMoves_queen b r c piece rights ep hk, ?_, hplain _,
      slides_nodup b piece.color r c queenDirs (fun _ hd => hd) (by decide)⟩
    intro tr tc
    rw [mem_slides_square b piece.color r c queenDirs (fun _ hd => hd) hb tr tc, hk]
    simp only [rayDir, Bool.or_eq_true, ← mem_rookDirs, ← mem_bishopDirs]
    have hq : ∀ dr dc : Int, (dr, dc) ∈ queenDirs ↔ ((dr, dc) ∈ rookDirs ∨ (dr, dc) ∈ bishopDirs) :=
      fun dr dc => (mem_queenDirs (dr, dc)).trans or_comm
    simp only [hq]

/-- C18 (witness): the rook a1 of `castleState` slides up the a-file and along the first
rank as far as its own king. -/
theorem C18_slider_geometry_witness :
    ∃ geo, getGeometryMoves castleState.board 7 0 ⟨Kind.r, Color.w⟩ none none = some geo ∧
      (∀ tr tc : Int, (∃ m ∈ geo, m.r = tr ∧ m.c = tc) ↔
        inBounds tr tc = true ∧
        ∃ (dr dc : Int) (n : Nat), rayDir (⟨Kind.r, Color.w⟩ : Piece).kind dr dc = true ∧ 0 < n ∧
          tr = 7 + n * dr ∧ tc = 0 + n * dc ∧
          (∀ j : Nat, 0 < j → j < n → castleState.board.get (7 + j * dr) (0 + j * dc) = none) ∧
          (castleState.board.get tr tc = none ∨
            ∃ t, castleState.board.get tr tc = some t ∧
              t.color = (⟨Kind.r, Color.w⟩ : Piece).color.other)) ∧
      (∀ m ∈ geo, m = Move.plain m.r m.c) ∧
      (geo.map fun m => (m.r, m.c)).Nodup :=
  C18_slider_geometry castleState.board 7 0 ⟨Kind.r, Color.w⟩ none none (by decide)
    (Or.inl rfl)

/-! ## Notation and the check suffix (C15, C16) -/

theorem fileLetter_eq_spec (c : Int) (h0 : 0 ≤ c) (h8 : c < 8) : fileLetter c = specFile c := by
  interval_cases c <;> decide

theorem rank_eq_spec (r : Int) (h0 : 0 ≤ r) (h8 : r < 8) : toString (8 - r) = specRank r := by
  interval_cases r <;> decide

theorem upper_eq_spec (kind : Kind) (h : kind ≠ Kind.p) : kind.upper = specLetter kind := by
  cases kind <;> first | rfl | exact absurd rfl h

theorem moveNotation_eq_spec (board : Board) (c0 : Int) (piece : Piece) (m : Move)
    (hc0 : 0 ≤ c0 ∧ c0 < 8) (hin : inBounds m.r m.c = true) :
    moveNotation board c0 piece m =
      specMoveStr (board.get m.r m.c).isSome c0 piece.kind m := by
  rw [inBounds_iff] at hin
  obtain ⟨mr, mc, dp, ep, cs⟩ := m
  simp only at hin
  simp only [moveNotation, specMoveStr, fileLetter_eq_spec c0 hc0.1 hc0.2,
    fileLetter_eq_spec mc hin.2.1 hin.2.2, rank_eq_spec mr hin.1.1 hin.1.2]
  cases cs with
  | some side => cases side <;> rfl
  | none =>
    simp only
    by_cases hk : piece.kind = Kind.p
    · cases ep <;> cases hocc : (board.get mr mc).isSome <;>
        simp [hk, String.append_assoc]
    · cases ep <;> cases hocc : (board.get mr mc).isSome <;>
        simp [hk, String.append_assoc, upper_eq_spec _ hk]

/-- C15: for every executed move from `(r0, c0)` to an in-bounds `(r, c)`, the notation
string built by `executeMove` (before any `=` or `+` suffix; it is recorded as the pending
promotion prefix, or appended to the history with `+` added when the opponent is in check)
is: for a castle exactly `O-O` (king-side) or `O-O-O` (queen-side); otherwise the
upper-case piece letter (empty for a pawn), then `x` if the destination was occupied or the
move is en passant (for a pawn the origin file letter `abcdefgh[c0]` followed by `x`
instead), then the destination file letter `abcdefgh[c]` and the rank digit `8 - r`, then
` e.p.` if the move is en passant. -/
theorem C15_move_string (s : State) (r0 c0 : Int) (piece : Piece) (m : Move)
    (hp : s.board.get r0 c0 = some piece) (hin : inBounds m.r m.c = true) :
    moveNotation s.board c0 piece m =
      specMoveStr (s.board.get m.r m.c).isSome c0 piece.kind m ∧
    ∃ s1, executeMove s r0 c0 m = some s1 ∧
      (piece.kind = Kind.p ∧ (m.r = 0 ∨ m.r = 7) →
        s1.promotionSquare =
          some ⟨m.r, m.c, specMoveStr (s.board.get m.r m.c).isSome c0 piece.kind m⟩) ∧
      (¬ (piece.kind = Kind.p ∧ (m.r = 0 ∨ m.r = 7)) →
        s1.history = s.history ++
          [if isKingInCheck s1.board s1.turn = true then
            specMoveStr (s.board.get m.r m.c).isSome c0 piece.kind m ++ "+"
           else specMoveStr (s.board.get m.r m.c).isSome c0 piece.kind m]) := by
  have hb := (inBounds_iff _ _).mp (Board.inBounds_of_get _ _ _ _ hp)
  have hn := moveNotation_eq_spec s.board c0 piece m hb.2 hin
  refine ⟨hn, _, executeMove_eq s r0 c0 m piece hp, ?_, ?_⟩
  · intro h
    rw [if_pos h, hn]
  · intro h
    rw [if_neg h, hn]
    rfl

/-- C15 (witness): the capture e4xd5 after 1.e4 d5 is written `exd5`, and the first move
of the game is written `e4`. -/
theorem C15_move_string_witness :
    moveNotation State.initial.board 4 ⟨Kind.p, Color.w⟩ (Move.doublePush 4 4) = "e4" ∧
    specMoveStr true 4 Kind.p (Move.plain 3 3) = "exd5" ∧
    specMoveStr true 6 Kind.n (Move.plain 2 5) = "Nxf6" ∧
    specMoveStr false 4 Kind.p (Move.enPassant 2 3) = "exd6 e.p." :=
  ⟨((C15_move_string State.initial 6 4 ⟨Kind.p, Color.w⟩ (Move.doublePush 4 4)
      (by decide!) (by decide!)).1).trans (by decide!),
    by decide!, by decide!, by decide!⟩
theorem endsWithPlus_append (a b : String) (hb : b.data ≠ []) :
    endsWithPlus (a ++ b) = endsWithPlus b := by
  simp only [endsWithPlus, String.data_append]
  rw [List.getLast?_append_of_ne_nil _ hb]

theorem endsWithPlus_plus (a : String) : endsWithPlus (a ++ "+") = true := by
  rw [endsWithPlus_append a "+" (by decide)]
  decide

theorem endsWithPlus_rank (r : Int) (h0 : 0 ≤ r) (h8 : r < 8) :
    (toString (8 - r)).data ≠ [] ∧ endsWithPlus (toString (8 - r)) = false := by
  interval_cases r <;> decide

theorem endsWithPlus_upper (kind : Kind) :
    kind.upper.data ≠ [] ∧ endsWithPlus kind.upper = false := by
  cases kind <;> decide

/-- The notation built by `executeMove` for an in-bounds destination never ends in `+`. -/
theorem endsWithPlus_moveNotation (board : Board) (c0 : Int) (piece : Piece) (m : Move)
    (hr : inB m.r = true) : endsWithPlus (moveNotation board c0 piece m) = false := by
  rw [inB_iff] at hr
  obtain ⟨mr, mc, dp, ep, cs⟩ := m
  simp only at hr
  obtain ⟨hne, hrank⟩ := endsWithPlus_rank mr hr.1 hr.2
  have hdest : ∀ pre : String,
      endsWithPlus (pre ++ (fileLetter mc ++ toString (8 - mr))) = false := by
    intro pre
    rw [← String.append_assoc, endsWithPlus_append _ _ hne]
    exact hrank
  simp only [moveNotation]
  cases cs with
  | some side => cases side <;> simp only <;> decide
  | none =>
    simp only
    cases ep with
    | true =>
      simp only [if_true]
      rw [endsWithPlus_append _ " e.p." (by decide)]
      decide
    | false =>
      simp only [Bool.false_eq_true, if_false]
      exact hdest _

theorem endsWithPlus_entry (str : String) (inCheck : Bool) (h : endsWithPlus str = false) :
    endsWithPlus (if inCheck = true then str ++ "+" else str) = true ↔ inCheck = true := by
  cases inCheck with
  | true => simp [endsWithPlus_plus]
  | false => simp [h]

/-- C16: the history entry appended for a completed half-move ends with `+` if and only
if `isKingInCheck newBoard opponent` is true on the final board of that half-move.  A move
that is not a promotion appends exactly one entry; a pawn move onto row 0 or row 7 appends
none, and `handlePromotion` then appends exactly one, tested on the board after the
promoted piece has been placed. -/
theorem C16_check_suffix (s : State) (r c : Int) (piece : Piece) (m : Move) (kind : Kind)
    (hp : s.board.get r c = some piece) (hr : inB m.r = true) :
    ∃ s1, executeMove s r c m = some s1 ∧
      (¬ (piece.kind = Kind.p ∧ (m.r = 0 ∨ m.r = 7)) →
        ∃ entry, s1.history = s.history ++ [entry] ∧
          (endsWithPlus entry = true ↔ isKingInCheck s1.board s.turn.other = true)) ∧
      (piece.kind = Kind.p ∧ (m.r = 0 ∨ m.r = 7) →
        s1.history = s.history ∧
        ∃ s2 entry, handlePromotion s1 kind = some s2 ∧
          s2.history = s.history ++ [entry] ∧
          s2.board = s1.board.set m.r m.c (some ⟨kind, s.turn⟩) ∧
          (endsWithPlus entry = true ↔ isKingInCheck s2.board s.turn.other = true)) := by
  refine ⟨_, executeMove_eq s r c m piece hp, ?_, ?_⟩
  · intro h
    rw [if_neg h]
    exact ⟨_, rfl, endsWithPlus_entry _ _ (endsWithPlus_moveNotation _ _ _ _ hr)⟩
  · intro h
    rw [if_pos h]
    refine ⟨rfl, _, _, handlePromotion_eq _ kind _ rfl, rfl, rfl, ?_⟩
    refine endsWithPlus_entry _ _ ?_
    rw [endsWithPlus_append _ _ (endsWithPlus_upper kind).1]
    exact (endsWithPlus_upper kind).2

/-- C16 (witness): in `promoCheckState` the pawn on b8 gives no check, the queen placed
there does, and the one entry appended is `b8=Q+`. -/
theorem C16_check_suffix_witness :
    (∃ s1, executeMove promoCheckState 1 1 (Move.plain 0 1) = some s1 ∧
      (¬ ((⟨Kind.p, Color.w⟩ : Piece).kind = Kind.p ∧
          ((Move.plain 0 1).r = 0 ∨ (Move.plain 0 1).r = 7)) →
        ∃ entry, s1.history = promoCheckState.history ++ [entry] ∧
          (endsWithPlus entry = true ↔
            isKingInCheck s1.board promoCheckState.turn.other = true)) ∧
      ((⟨Kind.p, Color.w⟩ : Piece).kind = Kind.p ∧
          ((Move.plain 0 1).r = 0 ∨ (Move.plain 0 1).r = 7) →
        s1.history = promoCheckState.history ∧
        ∃ s2 entry, handlePromotion s1 Kind.q = some s2 ∧
          s2.history = promoCheckState.history ++ [entry] ∧
          s2.board = s1.board.set (Move.plain 0 1).r (Move.plain 0 1).c
            (some ⟨Kind.q, promoCheckState.turn⟩) ∧
          (endsWithPlus entry = true ↔
            isKingInCheck s2.board promoCheckState.turn.other = true))) ∧
    ((executeMove promoCheckState 1 1 (Move.plain 0 1)).map fun s1 =>
      (isKingInCheck s1.board Color.b, (handlePromotion s1 Kind.q).map fun s2 => s2.history)) =
      some (false, some ["b8=Q+"]) :=
  ⟨C16_check_suffix promoCheckState 1 1 ⟨Kind.p, Color.w⟩ (Move.plain 0 1) Kind.q
    (by decide!) (by decide!), by decide!⟩

/-! ## Restart (C21) -/

/-- C21 (failing input): `restart` resets the board, the side to move, the castling
rights, the history and the game state, but leaves the en-passant target and the pending
promotion as they were.  After 1.e4 and `restart` the en-passant target is still e3: the
pawn d2 has the en-passant capture onto e3 among its valid moves, white has 22 valid moves
instead of 20, and executing that capture removes the white pawn e2.  After
1.a4 b5 2.axb5 a6 3.bxa6 h6 4.a7 h5 5.axb8 and `restart` a promotion is still pending, so
every click is ignored. -/
theorem C21_restart_keeps_en_passant_target :
    (∀ s : State, (restart s).board = INITIAL_BOARD ∧ (restart s).turn = Color.w ∧
      (restart s).castlingRights = CastlingRights.all ∧
      (restart s).gameState = GameStatus.playing ∧ (restart s).history = [] ∧
      (restart s).enPassantTarget = s.enPassantTarget ∧
      (restart s).promotionSquare = s.promotionSquare) ∧
    (∃ s s1 : State,
      playAll State.initial [(6, 4, Move.doublePush 4 4, Kind.q)] = some s ∧ Reachable s ∧
      (restart s).enPassantTarget = some ⟨5, 4⟩ ∧
      getValidMoves (restart s).castlingRights (restart s).enPassantTarget 6 3 true
        (restart s).board (restart s).turn =
        some [Move.plain 5 3, Move.doublePush 4 3, Move.enPassant 5 4] ∧
      countValidMoves (restart s).castlingRights (restart s).enPassantTarget (restart s).board
        (restart s).turn allSquares = some 22 ∧
      executeMove (restart s) 6 3 (Move.enPassant 5 4) = some s1 ∧
      s1.board.get 5 4 = wP ∧ s1.board.get 6 3 = none ∧ s1.board.get 6 4 = none) ∧
    (∃ s sA : State,
      playAll State.initial promotionRun = some s ∧
      executeMove s 1 0 (Move.plain 0 1) = some sA ∧
      (restart sA).promotionSquare.isSome = true ∧
      ∀ r c : Int, handleSquareClick (restart sA) r c = some (restart sA)) := by
  refine ⟨fun s => ⟨rfl, rfl, rfl, rfl, rfl, rfl, rfl⟩, ?_, ?_⟩
  · have h1 : ((playAll State.initial [(6, 4, Move.doublePush 4 4, Kind.q)]).map fun s =>
        ((restart s).enPassantTarget,
         getValidMoves (restart s).castlingRights (restart s).enPassantTarget 6 3 true
           (restart s).board (restart s).turn,
         countValidMoves (restart s).castlingRights (restart s).enPassantTarget
           (restart s).board (restart s).turn allSquares)) =
        some (some (⟨5, 4⟩ : Square),
          some [Move.plain 5 3, Move.doublePush 4 3, Move.enPassant 5 4], some 22) := by
      decide!
    have h2 : ((playAll State.initial [(6, 4, Move.doublePush 4 4, Kind.q)]).bind fun s =>
        (executeMove (restart s) 6 3 (Move.enPassant 5 4)).map fun s1 =>
          (s1.board.get 5 4, s1.board.get 6 3, s1.board.get 6 4)) =
        some (wP, none, none) := by
      decide!
    cases hp : playAll State.initial [(6, 4, Move.doublePush 4 4, Kind.q)] with
    | none => simp [hp] at h1
    | some s =>
      simp only [hp, Option.map_some', Option.some.injEq, Prod.mk.injEq] at h1
      simp only [hp, Option.some_bind] at h2
      cases he : executeMove (restart s) 6 3 (Move.enPassant 5 4) with
      | none => simp [he] at h2
      | some s1 =>
        simp only [he, Option.map_some', Option.some.injEq, Prod.mk.injEq] at h2
        exact ⟨s, s1, rfl, playAll_reachable _ State.initial s Reachable.init hp,
          h1.1, h1.2.1, h1.2.2, he, h2.1, h2.2.1, h2.2.2⟩
  · have h3 : ((playAll State.initial promotionRun).bind fun s =>
        (executeMove s 1 0 (Move.plain 0 1)).map fun sA =>
          (restart sA).promotionSquare.isSome) = some true := by
      decide!
    cases hp : playAll State.initial promotionRun with
    | none => simp [hp] at h3
    | some s =>
      simp only [hp, Option.some_bind] at h3
      cases he : executeMove s 1 0 (Move.plain 0 1) with
      | none => simp [he] at h3
      | some sA =>
        simp only [he, Option.map_some', Option.some.injEq] at h3
        refine ⟨s, sA, rfl, he, h3, ?_⟩
        intro r c
        unfold handleSquareClick
        rw [if_pos (Or.inr h3)]

/-! ## Rook moves off the home row (C24) -/

/-- C24 (failing input): after 1.h4 a6 2.Rh3 a5 3.Ra3 b6 the white king stands on e1 and a
white rook on a1, neither has moved, and white's queen-side right is true.  The move
Ra3-b3 of the other rook (it starts in column 0 on row 5, captures nothing) is a valid move,
and `executeMove` sets white's queen-side right to false. -/
theorem C24_rook_off_home_row_clears_right :
    ∃ s s1 : State, ∃ moves : List Move,
      playAll State.initial rookWander = some s ∧ Reachable s ∧
      s.turn = Color.w ∧ s.board.get 5 0 = wR ∧ s.board.get 5 1 = none ∧
      s.board.get 7 0 = wR ∧ s.board.get 7 4 = wK ∧
      s.castlingRights.w.queenSide = true ∧
      getValidMoves s.castlingRights s.enPassantTarget 5 0 true s.board s.turn = some moves ∧
      Move.plain 5 1 ∈ moves ∧
      executeMove s 5 0 (Move.plain 5 1) = some s1 ∧
      s1.castlingRights.w.queenSide = false ∧
      s1.board.get 7 0 = wR ∧ s1.board.get 7 4 = wK := by
  have h1 : ((playAll State.initial rookWander).map fun s =>
      (s.turn, s.board.get 5 0, s.board.get 5 1, s.board.get 7 0, s.board.get 7 4)) =
      some (Color.w, wR, none, wR, wK) := by
    decide!
  have h2 : ((playAll State.initial rookWander).bind fun s =>
      (getValidMoves s.castlingRights s.enPassantTarget 5 0 true s.board s.turn).bind fun mv =>
      (executeMove s 5 0 (Move.plain 5 1)).map fun s1 =>
        (decide (Move.plain 5 1 ∈ mv), s.castlingRights.w.queenSide,
          s1.castlingRights.w.queenSide, s1.board.get 7 0, s1.board.get 7 4)) =
      some (true, true, false, wR, wK) := by
    decide!
  cases hp : playAll State.initial rookWander with
  | none => simp [hp] at h1
  | some s =>
    simp only [hp, Option.map_some', Option.some.injEq, Prod.mk.injEq] at h1
    simp only [hp, Option.some_bind] at h2
    cases hv : getValidMoves s.castlingRights s.enPassantTarget 5 0 true s.board s.turn with
    | none => simp [hv] at h2
    | some moves =>
      simp only [hv, Option.some_bind] at h2
      cases he : executeMove s 5 0 (Move.plain 5 1) with
      | none => simp [he] at h2
      | some s1 =>
        simp only [he, Option.map_some', Option.some.injEq, Prod.mk.injEq,
          decide_eq_true_eq] at h2
        exact ⟨s, s1, moves, rfl, playAll_reachable _ State.initial s Reachable.init hp,
          h1.1, h1.2.1, h1.2.2.1, h1.2.2.2.1, h1.2.2.2.2, h2.2.1, hv, h2.1, he,
          h2.2.2.1, h2.2.2.2.1, h2.2.2.2.2⟩
/-! ## The game-over check and pawns on the last rank (C22) -/

/-- A piece on the board computed by `executeMove` stood in the same row before the move,
or is the moved piece on the destination square, or is the moved piece of a castle. -/
theorem moveBoard_get_row (b : Board) (r c : Int) (piece : Piece) (m : Move) (x y : Int)
    (v : Piece) (h : (moveBoard b r c piece m).get x y = some v) :
    (∃ y0 : Int, b.get x y0 = some v) ∨ (v = piece ∧ x = m.r ∧ y = m.c) ∨
      (v = piece ∧ m.isCastle ≠ none) := by
  obtain ⟨mr, mc, dp, ep, cs⟩ := m
  have base : ∀ x y : Int, ((b.set mr mc (some piece)).set r c none).get x y = some v →
      b.get x y = some v ∨ (v = piece ∧ x = mr ∧ y = mc) := by
    intro x y h
    rcases Board.get_set_some _ _ _ _ _ _ _ h with h1 | h1
    · cases h1.1
    · rcases Board.get_set_some _ _ _ _ _ _ _ h1 with h2 | h2
      · simp only [Option.some.injEq] at h2
        exact Or.inr ⟨h2.1.symm, h2.2⟩
      · exact Or.inl h2
  have base2 : ∀ x y : Int,
      (if ep = true then ((b.set mr mc (some piece)).set r c none).set r mc none
        else (b.set mr mc (some piece)).set r c none).get x y = some v →
      b.get x y = some v ∨ (v = piece ∧ x = mr ∧ y = mc) := by
    intro x y h
    cases ep with
    | false => exact base x y h
    | true =>
      simp only [if_true] at h
      rcases Board.get_set_some _ _ _ _ _ _ _ h with h1 | h1
      · cases h1.1
      · exact base x y h1
  cases cs with
  | none =>
    rcases base2 x y h with h1 | h1
    · exact Or.inl ⟨y, h1⟩
    · exact Or.inr (Or.inl h1)
  | some side =>
    have hcastle : ∀ (fromC toC : Int),
        (((if ep = true then ((b.set mr mc (some piece)).set r c none).set r mc none
            else (b.set mr mc (some piece)).set r c none).set r toC
          ((if ep = true then ((b.set mr mc (some piece)).set r c none).set r mc none
            else (b.set mr mc (some piece)).set r c none).get r fromC)).set r fromC none).get x y
          = some v →
        (∃ y0 : Int, b.get x y0 = some v) ∨ (v = piece ∧ x = mr ∧ y = mc) ∨
          (v = piece ∧ (some side : Option CastleSide) ≠ none) := by
      intro fromC toC h
      rcases Board.get_set_some _ _ _ _ _ _ _ h with h1 | h1
      · cases h1.1
      · rcases Board.get_set_some _ _ _ _ _ _ _ h1 with h2 | h2
        · rcases base2 r fromC h2.1 with h3 | h3
          · rw [h2.2.1]
            exact Or.inl ⟨fromC, h3⟩
          · exact Or.inr (Or.inr ⟨h3.1, fun e => Option.noConfusion e⟩)
        · rcases base2 x y h2 with h3 | h3
          · exact Or.inl ⟨y, h3⟩
          · exact Or.inr (Or.inl h3)
    cases side with
    | k => exact hcastle 7 5 h
    | q => exact hcastle 0 3 h

theorem noLastRankPawn_initial : NoLastRankPawn INITIAL_BOARD := by
  intro r c p hp hk
  have hb := Board.inBounds_of_get _ _ _ _ hp
  have := forall_squares
    (fun r c => (INITIAL_BOARD.get r c).all fun p =>
      decide (p.kind = Kind.p → inB (r + forward p.color) = true))
    (by decide!) r c hb
  simp only [hp, Option.all_some, decide_eq_true_eq] at this
  exact this hk

theorem noLastRankPawn_step (s s1 : State) (r c : Int) (move : Move) (promo : Kind)
    (hinv : Inv s) (hn : NoLastRankPawn s.board)
    (h : playMove s r c move promo = some s1) : NoLastRankPawn s1.board := by
  obtain ⟨piece, moves, sA, hp, hc, hv, hm, he, hrest⟩ := playMove_some s s1 r c move promo h
  obtain ⟨geo, hg, hall⟩ := getValidMoves_some _ _ _ _ _ _ _ piece moves hp hv
  have hb := Board.inBounds_of_get _ _ _ _ hp
  obtain ⟨hin, _, hck, hcq, _⟩ := geometry_flags _ _ _ _ _ _ _ _ hb hg (hall move hm).1
  rw [inBounds_iff] at hin
  obtain ⟨sB, he2, hbd, _, _, hpromo, hnopromo⟩ := executeMove_some s r c move piece hp
  rw [he] at he2
  cases he2
  have hking : move.isCastle ≠ none → piece.kind = Kind.k := by
    intro hne
    cases hcs : move.isCastle with
    | none => exact absurd hcs hne
    | some side =>
      cases side with
      | k => exact (hck hcs).1
      | q => exact (hcq hcs).1
  rcases hrest with ⟨hnone, rfl⟩ | ⟨hsome, hkind, hh⟩
  · have hnp : ¬ (piece.kind = Kind.p ∧ (move.r = 0 ∨ move.r = 7)) := by
      intro hpr
      have := (hpromo hpr).2.2
      rw [hnone] at this
      cases this
    intro x y v hv1 hvk
    rw [hbd] at hv1
    rcases moveBoard_get_row _ _ _ _ _ _ _ _ hv1 with ⟨y0, h1⟩ | h1 | h1
    · exact hn x y0 v h1 hvk
    · have hpk : piece.kind = Kind.p := by rw [← h1.1]; exact hvk
      have hrow : ¬ (move.r = 0 ∨ move.r = 7) := fun hrow => hnp ⟨hpk, hrow⟩
      rw [inB_iff, h1.2.1]
      cases v.color <;> simp only [forward] <;> omega
    · have := hking h1.2
      rw [← h1.1, hvk] at this
      cases this
  · have hpr : piece.kind = Kind.p ∧ (move.r = 0 ∨ move.r = 7) := by
      by_contra hcon
      have := (hnopromo hcon).2
      rw [hinv.noPromotion] at this
      rw [this] at hsome
      cases hsome
    obtain ⟨_, _, hsq⟩ := hpromo hpr
    obtain ⟨s2, hh2, hbd2, _⟩ := handlePromotion_some sA promo _ hsq
    rw [hh] at hh2
    cases hh2
    intro x y v hv1 hvk
    rw [hbd2] at hv1
    rcases Board.get_set_some_ne _ _ _ _ _ _ _ hv1 with h1 | ⟨hne, h1⟩
    · simp only [Option.some.injEq] at h1
      rw [← h1.1] at hvk
      simp only at hvk
      rw [hvk] at hkind
      simp [promotionKinds] at hkind
    · rw [hbd] at h1
      rcases moveBoard_get_row _ _ _ _ _ _ _ _ h1 with ⟨y0, h2⟩ | h2 | h2
      · exact hn x y0 v h2 hvk
      · exact absurd ⟨h2.2.1, h2.2.2⟩ hne
      · have := hking h2.2
        rw [← h2.1, hvk] at this
        cases this

theorem reachable_noLastRankPawn (s : State) (h : Reachable s) : NoLastRankPawn s.board := by
  induction h with
  | init => exact noLastRankPawn_initial
  | step s s1 r c move promo hreach hstep ih =>
    exact noLastRankPawn_step s s1 r c move promo (reachable_inv s hreach) ih hstep

theorem hasAnyValidMovesFrom_isSome (rights : CastlingRights) (ep : Option Square) (b : Board)
    (color : Color) (hn : NoLastRankPawn b) (l : List (Int × Int)) :
    ∃ v, hasAnyValidMovesFrom rights ep b color l = some v := by
  induction l with
  | nil => exact ⟨false, rfl⟩
  | cons sq rest ih =>
    obtain ⟨r, c⟩ := sq
    unfold hasAnyValidMovesFrom
    cases hp : b.get r c with
    | none => exact ih
    | some p =>
      simp only
      by_cases hc : p.color = color
      · rw [if_pos hc]
        obtain ⟨moves, hv⟩ := getValidMoves_total rights ep r c true b color p hp
          (fun hk => hn r c p hp hk)
        rw [hv]
        simp only
        by_cases hl : moves.length > 0
        · rw [if_pos hl]
          exact ⟨true, rfl⟩
        · rw [if_neg hl]
          exact ih
      · rw [if_neg hc]
        exact ih

/-- With no pawn on its last rank, the game-over check completes. -/
theorem gameOverCheck_isSome (s : State) (hn : NoLastRankPawn s.board) :
    ∃ s1, gameOverCheck s = some s1 := by
  obtain ⟨v, hv⟩ := hasAnyValidMovesFrom_isSome s.castlingRights s.enPassantTarget s.board
    s.turn hn allSquares
  unfold gameOverCheck hasAnyValidMoves
  rw [hv]
  cases isKingInCheck s.board s.turn <;> cases v <;> exact ⟨_, rfl⟩

/-- C22 (failing input): in every state between two half-moves of legal play the
game-over check completes, but not in every state awaiting a promotion.  After
1.a4 b5 2.axb5 a6 3.bxa6 h6 4.a7 h5 the only valid move of the pawn a7 is the capture on
b8; `executeMove` leaves the white pawn on b8 (row 0) with white still to move and the
promotion pending.  On that state white is not in check, the scan of `hasAnyValidMoves`
reaches the pawn on b8 first among the white pieces, `getGeometryMoves` reads row `-1`
there, and the check ends without a result. -/
theorem C22_check_throws_while_promotion_pending :
    (∀ s : State, Reachable s → ∃ s1, gameOverCheck s = some s1) ∧
    ∃ s sA : State,
      playAll State.initial promotionRun = some s ∧ Reachable s ∧
      getValidMoves s.castlingRights s.enPassantTarget 1 0 true s.board s.turn =
        some [Move.plain 0 1] ∧
      executeMove s 1 0 (Move.plain 0 1) = some sA ∧ Visited sA ∧
      sA.turn = Color.w ∧ sA.gameState = GameStatus.playing ∧
      sA.promotionSquare.isSome = true ∧
      sA.board.get 0 0 = bR ∧ sA.board.get 0 1 = wP ∧
      isKingInCheck sA.board sA.turn = false ∧
      getGeometryMoves sA.board 0 1 ⟨Kind.p, Color.w⟩ (some sA.castlingRights)
        sA.enPassantTarget = none ∧
      gameOverCheck sA = none := by
  refine ⟨fun s hs => gameOverCheck_isSome s (reachable_noLastRankPawn s hs), ?_⟩
  have h1 : ((playAll State.initial promotionRun).bind fun s =>
      (getValidMoves s.castlingRights s.enPassantTarget 1 0 true s.board s.turn).bind fun mv =>
      (executeMove s 1 0 (Move.plain 0 1)).map fun sA =>
        (mv, s.board.get 1 0, s.turn, sA.turn, sA.gameState)) =
      some ([Move.plain 0 1], wP, Color.w, Color.w, GameStatus.playing) := by
    decide!
  have h2 : ((playAll State.initial promotionRun).bind fun s =>
      (executeMove s 1 0 (Move.plain 0 1)).map fun sA =>
        (sA.promotionSquare.isSome, sA.board.get 0 0, sA.board.get 0 1,
          isKingInCheck sA.board sA.turn)) =
      some (true, bR, wP, false) := by
    decide!
  have h3 : ((playAll State.initial promotionRun).bind fun s =>
      (executeMove s 1 0 (Move.plain 0 1)).map fun sA =>
        ((getGeometryMoves sA.board 0 1 ⟨Kind.p, Color.w⟩ (some sA.castlingRights)
            sA.enPassantTarget).isNone, (gameOverCheck sA).isNone)) =
      some (true, true) := by
    decide!
  cases hp : playAll State.initial promotionRun with
  | none => simp [hp] at h1
  | some s =>
    simp only [hp, Option.some_bind] at h1 h2 h3
    cases hv : getValidMoves s.castlingRights s.enPassantTarget 1 0 true s.board s.turn with
    | none => simp [hv] at h1
    | some moves =>
      simp only [hv, Option.some_bind] at h1
      cases he : executeMove s 1 0 (Move.plain 0 1) with
      | none => simp [he] at h1
      | some sA =>
        simp only [he, Option.map_some', Option.some.injEq, Prod.mk.injEq] at h1 h2 h3
        have hreach := playAll_reachable _ State.initial s Reachable.init hp
        obtain ⟨hmv, hpawn, hturn, h4, h5⟩ := h1
        have hvis : Visited sA :=
          Visited.pending s sA 1 0 ⟨Kind.p, Color.w⟩ moves (Move.plain 0 1) hreach hpawn
            hturn.symm hv (by rw [hmv]; exact List.mem_singleton_self _) he
        exact ⟨s, sA, rfl, hreach, hmv ▸ hv, he, hvis, h4, h5, h2.1, h2.2.1, h2.2.2.1,
          h2.2.2.2, Option.isNone_iff_eq_none.mp h3.1, Option.isNone_iff_eq_none.mp h3.2⟩

/-- C22 (witness): the game-over check completes on the initial state. -/
theorem C22_check_throws_while_promotion_pending_witness :
    ∃ s1, gameOverCheck State.initial = some s1 :=
  C22_check_throws_while_promotion_pending.1 State.initial Reachable.init
/-! ## Castling candidates in legal play (C23) -/

/-- In every state the application passes through, a side with a castling right has its
king only on the home square, and each right implies the own rook on its corner. -/
theorem visited_castle_facts (s : State) (h : Visited s) :
    (∀ col : Color,
      ((s.castlingRights.get col).kingSide = true ∨
        (s.castlingRights.get col).queenSide = true) →
      ∀ r c : Int, s.board.get r c = some ⟨Kind.k, col⟩ → r = homeRow col ∧ c = 4) ∧
    (∀ col : Color, (s.castlingRights.get col).kingSide = true →
      s.board.get (homeRow col) 7 = some ⟨Kind.r, col⟩) ∧
    (∀ col : Color, (s.castlingRights.get col).queenSide = true →
      s.board.get (homeRow col) 0 = some ⟨Kind.r, col⟩) := by
  cases h with
  | settled _ hr =>
    have hinv := reachable_inv s hr
    exact ⟨hinv.kingHome, hinv.rookKing, hinv.rookQueen⟩
  | pending s0 _ r c piece moves m hr hp hc hv hm he =>
    have hinv := reachable_inv s0 hr
    obtain ⟨geo, hg, hall⟩ := getValidMoves_some _ _ _ _ _ _ _ piece moves hp hv
    obtain ⟨hK, hRK, hRQ, _⟩ := inv_move s0 r c piece geo m hinv hp hc hg (hall m hm).1
    obtain ⟨sB, he2, hbd, hrt, _⟩ := executeMove_some s0 r c m piece hp
    rw [he] at he2
    cases he2
    rw [hbd, hrt]
    exact ⟨hK, fun col hf => (hRK col hf).1, fun col hf => (hRQ col hf).1⟩

/-- C23: in every state the application passes through in legal play (between two
half-moves, or awaiting a promotion), whenever `getGeometryMoves` yields a castling
candidate for a king of the side to move, that king stands on its home square (row 7 for
white, row 0 for black, column 4) and a rook of the same colour stands on the corner of
that row (column 7 king-side, column 0 queen-side); executing the castle puts that own
rook next to the king (column 5, resp. column 3) and empties the corner. -/
theorem C23_castle_candidate_has_own_rook (s : State) (hvis : Visited s) (r c : Int)
    (geo : List Move) (m : Move)
    (hk : s.board.get r c = some ⟨Kind.k, s.turn⟩)
    (hg : getGeometryMoves s.board r c ⟨Kind.k, s.turn⟩ (some s.castlingRights)
      s.enPassantTarget = some geo)
    (hm : m ∈ geo) :
    (m.isCastle = some CastleSide.k →
      r = homeRow s.turn ∧ c = 4 ∧ s.board.get r 7 = some ⟨Kind.r, s.turn⟩ ∧
      ∃ s1, executeMove s r c m = some s1 ∧
        s1.board.get r 6 = some ⟨Kind.k, s.turn⟩ ∧
        s1.board.get r 5 = some ⟨Kind.r, s.turn⟩ ∧ s1.board.get r 7 = none) ∧
    (m.isCastle = some CastleSide.q →
      r = homeRow s.turn ∧ c = 4 ∧ s.board.get r 0 = some ⟨Kind.r, s.turn⟩ ∧
      ∃ s1, executeMove s r c m = some s1 ∧
        s1.board.get r 2 = some ⟨Kind.k, s.turn⟩ ∧
        s1.board.get r 3 = some ⟨Kind.r, s.turn⟩ ∧ s1.board.get r 0 = none) ∧
    (homeRow Color.w = 7 ∧ homeRow Color.b = 0) := by
  obtain ⟨hK, hRK, hRQ⟩ := visited_castle_facts s hvis
  have hb := Board.inBounds_of_get _ _ _ _ hk
  obtain ⟨_, _, hck, hcq, _⟩ := geometry_flags _ _ _ _ _ _ _ _ hb hg hm
  obtain ⟨s1, he, hbd, _⟩ := executeMove_some s r c m ⟨Kind.k, s.turn⟩ hk
  have hrow : ∀ y : Int, 0 ≤ y → y < 8 → inBounds r y = true := by
    intro y h0 h8
    rw [inBounds_iff] at hb ⊢
    exact ⟨hb.1, h0, h8⟩
  refine ⟨?_, ?_, rfl, rfl⟩
  · intro hcs
    obtain ⟨_, hmr, hmc, hep, hright, _⟩ := hck hcs
    obtain ⟨hr, hc⟩ := hK s.turn (Or.inl hright) r c hk
    have hrook := hRK s.turn hright
    rw [← hr] at hrook
    refine ⟨hr, hc, hrook, s1, he, ?_, ?_, ?_⟩
    all_goals
      rw [hbd]
      obtain ⟨mr, mc, dp, ep, cs⟩ := m
      simp only at hcs hmr hmc hep
      subst hcs
      subst hep
      subst hmr
      have hmc6 : mc = 6 := by omega
      subst hmc6
      subst hc
      rw [moveBoard_castle_k]
    · rw [Board.get_set_ne _ _ _ _ _ _ (by omega), Board.get_set_ne _ _ _ _ _ _ (by omega),
        Board.get_set_ne _ _ _ _ _ _ (by omega)]
      exact Board.get_set_same _ _ _ _ (hrow 6 (by omega) (by omega))
    · rw [Board.get_set_ne _ _ _ _ _ _ (by omega),
        Board.get_set_same _ _ _ _ (hrow 5 (by omega) (by omega)),
        Board.get_set_ne _ _ _ _ _ _ (by omega), Board.get_set_ne _ _ _ _ _ _ (by omega)]
      exact hrook
    · exact Board.get_set_same _ _ _ _ (hrow 7 (by omega) (by omega))
  · intro hcs
    obtain ⟨_, hmr, hmc, hep, hright, _⟩ := hcq hcs
    obtain ⟨hr, hc⟩ := hK s.turn (Or.inr hright) r c hk
    have hrook := hRQ s.turn hright
    rw [← hr] at hrook
    refine ⟨hr, hc, hrook, s1, he, ?_, ?_, ?_⟩
    all_goals
      rw [hbd]
      obtain ⟨mr, mc, dp, ep, cs⟩ := m
      simp only at hcs hmr hmc hep
      subst hcs
      subst hep
      subst hmr
      have hmc2 : mc = 2 := by omega
      subst hmc2
      subst hc
      rw [moveBoard_castle_q]
    · rw [Board.get_set_ne _ _ _ _ _ _ (by omega), Board.get_set_ne _ _ _ _ _ _ (by omega),
        Board.get_set_ne _ _ _ _ _ _ (by omega)]
      exact Board.get_set_same _ _ _ _ (hrow 2 (by omega) (by omega))
    · rw [Board.get_set_ne _ _ _ _ _ _ (by omega),
        Board.get_set_same _ _ _ _ (hrow 3 (by omega) (by omega)),
        Board.get_set_ne _ _ _ _ _ _ (by omega), Board.get_set_ne _ _ _ _ _ _ (by omega)]
      exact hrook
    · exact Board.get_set_same _ _ _ _ (hrow 0 (by omega) (by omega))
/-- C23 (witness): after 1.e4 e5 2.Nf3 Nc6 3.Bc4 Bc5 the white king on e1 has the king-side
castling candidate; the rook stands on h1 and the castle moves it to f1. -/
theorem C23_castle_candidate_has_own_rook_witness :
    ∃ s : State, playAll State.initial castleLine = some s ∧ s.turn = Color.w ∧
      (7 : Int) = homeRow s.turn ∧ s.board.get 7 7 = some ⟨Kind.r, s.turn⟩ ∧
      ∃ s1, executeMove s 7 4 (Move.castle 7 6 CastleSide.k) = some s1 ∧
        s1.board.get 7 6 = some ⟨Kind.k, s.turn⟩ ∧
        s1.board.get 7 5 = some ⟨Kind.r, s.turn⟩ ∧ s1.board.get 7 7 = none := by
  have h : ((playAll State.initial castleLine).map fun s =>
      (s.board.get 7 4, s.turn,
        (getGeometryMoves s.board 7 4 ⟨Kind.k, Color.w⟩ (some s.castlingRights)
          s.enPassantTarget).map fun l => decide (Move.castle 7 6 CastleSide.k ∈ l))) =
      some (some ⟨Kind.k, Color.w⟩, Color.w, some true) := by decide!
  cases hp : playAll State.initial castleLine with
  | none => simp [hp] at h
  | some s =>
    simp only [hp, Option.map_some', Option.some.injEq, Prod.mk.injEq] at h
    obtain ⟨h1, h2, h3⟩ := h
    cases hg : getGeometryMoves s.board 7 4 ⟨Kind.k, Color.w⟩ (some s.castlingRights)
        s.enPassantTarget with
    | none => simp [hg] at h3
    | some geo =>
      simp only [hg, Option.map_some', Option.some.injEq, decide_eq_true_eq] at h3
      have hreach := playAll_reachable castleLine State.initial s Reachable.init hp
      have key := (C23_castle_candidate_has_own_rook s (Visited.settled s hreach) 7 4 geo
        (Move.castle 7 6 CastleSide.k) (by rw [h2]; exact h1) (by rw [h2]; exact hg) h3).1 rfl
      exact ⟨s, rfl, h2, key.1, key.2.2.1, key.2.2.2⟩

/-! ## Boards without a king (C25) -/

theorem locateKing_eq_none (b : Board) (col : Color)
    (h : ∀ r c : Int, b.get r c ≠ some ⟨Kind.k, col⟩) : locateKing b col = none := by
  cases hl : locateKing b col with
  | none => rfl
  | some sq => exact absurd (locateKing_some b col sq hl).2 (h sq.r sq.c)

theorem isKingInCheck_no_king (b : Board) (col : Color)
    (h : ∀ r c : Int, b.get r c ≠ some ⟨Kind.k, col⟩) : isKingInCheck b col = true := by
  unfold isKingInCheck
  rw [locateKing_eq_none b col h]

theorem tempBoard_no_king (b : Board) (r c : Int) (piece : Piece) (m : Move) (col : Color)
    (h : ∀ x y : Int, b.get x y ≠ some ⟨Kind.k, col⟩) (hp : piece ≠ ⟨Kind.k, col⟩) :
    ∀ x y : Int, (tempBoard b r c piece m).get x y ≠ some ⟨Kind.k, col⟩ := by
  intro x y hk
  have base : ∀ x y : Int,
      ((b.set m.r m.c (some piece)).set r c none).get x y ≠ some ⟨Kind.k, col⟩ := by
    intro x y hxy
    rcases Board.get_set_some _ _ _ _ _ _ _ hxy with h1 | h1
    · cases h1.1
    · rcases Board.get_set_some _ _ _ _ _ _ _ h1 with h2 | h2
      · simp only [Option.some.injEq] at h2
        exact hp h2.1
      · exact h x y h2
  unfold tempBoard at hk
  by_cases hep : m.isEnPassant = true
  · simp only [hep, if_true] at hk
    rcases Board.get_set_some _ _ _ _ _ _ _ hk with h1 | h1
    · cases h1.1
    · exact base x y h1
  · simp only [hep] at hk
    exact base x y hk

/-- On a board without a king of `col`, every call of `getValidMoves` for `col` that
returns, returns the empty list. -/
theorem getValidMoves_no_king (rights : CastlingRights) (ep : Option Square) (r c : Int)
    (safety : Bool) (b : Board) (col : Color) (moves : List Move)
    (h : ∀ x y : Int, b.get x y ≠ some ⟨Kind.k, col⟩)
    (hv : getValidMoves rights ep r c safety b col = some moves) : moves = [] := by
  cases hp : b.get r c with
  | none =>
    simp only [getValidMoves, hp, Option.some.injEq] at hv
    exact hv.symm
  | some piece =>
    have hpk : piece ≠ ⟨Kind.k, col⟩ := by
      intro e
      rw [e] at hp
      exact h r c hp
    obtain ⟨geo, _, hall⟩ := getValidMoves_some rights ep r c safety b col piece moves hp hv
    rw [List.eq_nil_iff_forall_not_mem]
    intro m hm
    have h1 := (hall m hm).2.1
    rw [isKingInCheck_no_king _ col (tempBoard_no_king b r c piece m col h hpk)] at h1
    cases h1

/-- For every board that contains no king of the side to move and no pawn of that
side on its last rank, `isKingInCheck` returns true for that side, `getValidMoves` returns
the empty list for every piece of that side, and the game-over check completes and reports
`checkmate`. -/
theorem kingless_board_checkmate (s : State)
    (hno : ∀ r c : Int, s.board.get r c ≠ some ⟨Kind.k, s.turn⟩)
    (hpawn : ∀ r c : Int, s.board.get r c = some ⟨Kind.p, s.turn⟩ →
      inB (r + forward s.turn) = true) :
    isKingInCheck s.board s.turn = true ∧
    (∀ (r c : Int) (p : Piece), s.board.get r c = some p → p.color = s.turn →
      getValidMoves s.castlingRights s.enPassantTarget r c true s.board s.turn = some []) ∧
    ∃ s1, gameOverCheck s = some s1 ∧ s1.gameState = GameStatus.checkmate := by
  have hcheck := isKingInCheck_no_king s.board s.turn hno
  have hall : ∀ (r c : Int) (p : Piece), s.board.get r c = some p → p.color = s.turn →
      getValidMoves s.castlingRights s.enPassantTarget r c true s.board s.turn = some [] := by
    intro r c p hp hc
    obtain ⟨moves, hv⟩ := getValidMoves_total s.castlingRights s.enPassantTarget r c true
      s.board s.turn p hp (by
        intro hk
        have hpc : p = ⟨Kind.p, s.turn⟩ := by
          cases p
          simp only at hk hc
          rw [hk, hc]
        rw [hc]
        exact hpawn r c (by rw [← hpc]; exact hp))
    rw [hv, getValidMoves_no_king _ _ _ _ _ _ _ _ hno hv]
  refine ⟨hcheck, hall, ?_⟩
  have hscan := (noValidMoves_iff_scan s).mp hall
  unfold gameOverCheck
  rw [hcheck, hscan]
  exact ⟨_, rfl, rfl⟩

/-- An instance: `kinglessBoard` without its pawn on b8 has no white king and no white
pawn on row 0. -/
theorem kingless_board_checkmate_example :
    isKingInCheck ({ kinglessState with board := kinglessBoard.set 0 1 none }).board
        Color.w = true ∧
    (∀ (r c : Int) (p : Piece),
      ({ kinglessState with board := kinglessBoard.set 0 1 none }).board.get r c = some p →
      p.color = Color.w →
      getValidMoves kinglessState.castlingRights kinglessState.enPassantTarget r c true
        ({ kinglessState with board := kinglessBoard.set 0 1 none }).board Color.w = some []) ∧
    ∃ s1, gameOverCheck { kinglessState with board := kinglessBoard.set 0 1 none } = some s1 ∧
      s1.gameState = GameStatus.checkmate :=
  kingless_board_checkmate { kinglessState with board := kinglessBoard.set 0 1 none }
    (by
      intro r c
      by_cases hb : inBounds r c = true
      · exact of_decide_eq_true (forall_squares
          (fun r c => decide ((kinglessBoard.set 0 1 none).get r c ≠ some ⟨Kind.k, Color.w⟩))
          (by decide!) r c hb)
      · intro h
        exact hb (Board.inBounds_of_get _ _ _ _ h))
    (by
      intro r c h
      have hb := Board.inBounds_of_get _ _ _ _ h
      exact of_decide_eq_true (forall_squares
        (fun r c => decide ((kinglessBoard.set 0 1 none).get r c = some ⟨Kind.p, Color.w⟩ →
          inB (r + forward Color.w) = true))
        (by decide!) r c hb) h)

/-- Outside the states of play: `kinglessBoard` contains no white king and a white pawn
on row 0.  `isKingInCheck` returns true for white and the knight has no valid move, but
for the pawn on b8 `getGeometryMoves` reads row `-1`: the call of `getValidMoves` ends
without a result, and so does the game-over check. -/
theorem kingless_pawn_throws :
    (∀ r c : Int, kinglessBoard.get r c ≠ some ⟨Kind.k, Color.w⟩) ∧
    isKingInCheck kinglessBoard Color.w = true ∧
    kinglessBoard.get 0 1 = some ⟨Kind.p, Color.w⟩ ∧
    getValidMoves kinglessState.castlingRights kinglessState.enPassantTarget 0 1 true
      kinglessBoard Color.w = none ∧
    getValidMoves kinglessState.castlingRights kinglessState.enPassantTarget 7 6 true
      kinglessBoard Color.w = some [] ∧
    kinglessState.board = kinglessBoard ∧ kinglessState.turn = Color.w ∧
    gameOverCheck kinglessState = none := by
  refine ⟨?_, by decide!, by decide!, by decide!, by decide!, rfl, rfl,
    Option.isNone_iff_eq_none.mp (by decide!)⟩
  intro r c
  by_cases hb : inBounds r c = true
  · exact of_decide_eq_true (forall_squares
      (fun r c => decide (kinglessBoard.get r c ≠ some ⟨Kind.k, Color.w⟩))
      (by decide!) r c hb)
  · intro h
    exact hb (Board.inBounds_of_get _ _ _ _ h)

/-- A state the application passes through in legal play is a state between two
half-moves, unless it awaits the promotion of a pawn; the pawn move was then a valid move
of the side to move, so that side has a king on the board. -/
theorem visited_cases (s : State) (h : Visited s) :
    Reachable s ∨ ∃ r c : Int, s.board.get r c = some ⟨Kind.k, s.turn⟩ := by
  cases h with
  | settled _ hr => exact Or.inl hr
  | pending s0 _ r c piece moves m hr hp hc hv hm he =>
    have hinv := reachable_inv s0 hr
    have hb := Board.inBounds_of_get _ _ _ _ hp
    obtain ⟨geo, hg, hall⟩ := getValidMoves_some _ _ _ _ _ _ _ piece moves hp hv
    obtain ⟨_, _, hck, hcq, _⟩ := geometry_flags _ _ _ _ _ _ _ _ hb hg (hall m hm).1
    obtain ⟨sB, he2, hbd, _, _, hpromo, hnopromo⟩ := executeMove_some s0 r c m piece hp
    rw [he] at he2
    cases he2
    by_cases hpr : piece.kind = Kind.p ∧ (m.r = 0 ∨ m.r = 7)
    · right
      obtain ⟨hturn, _, _⟩ := hpromo hpr
      have hcs : m.isCastle = none := by
        cases hside : m.isCastle with
        | none => rfl
        | some side =>
          have hkk : piece.kind = Kind.k := by
            cases side with
            | k => exact (hck hside).1
            | q => exact (hcq hside).1
          rw [hpr.1] at hkk
          cases hkk
      have hsafe := (hall m hm).2.1
      rw [← moveBoard_eq_tempBoard _ _ _ _ _ hcs, ← hbd] at hsafe
      cases hl : locateKing s.board s0.turn with
      | none =>
        unfold isKingInCheck at hsafe
        rw [hl] at hsafe
        cases hsafe
      | some sq =>
        refine ⟨sq.r, sq.c, ?_⟩
        rw [hturn]
        exact (locateKing_some _ _ _ hl).2
    · left
      have hnone : s.promotionSquare = none := by
        rw [(hnopromo hpr).2]
        exact hinv.noPromotion
      have hplay : playMove s0 r c m Kind.q = some s := by
        simp [playMove, hp, hc, hv, hm, he, hnone]
      exact Reachable.step s0 s r c m Kind.q hr hplay

/-- C25: for every board that contains no king of the given colour, `isKingInCheck`
returns true for that colour, and every call of `getValidMoves` for that colour that
returns, returns the empty list.  Consequently, in every state the application passes
through in legal play whose board contains no king of the side to move, `getValidMoves`
returns the empty list for every piece of that side, and the game-over check completes and
reports `checkmate` for that side. -/
theorem C25_kingless_side_is_checkmated (b : Board) (col : Color)
    (hno : ∀ r c : Int, b.get r c ≠ some ⟨Kind.k, col⟩) :
    isKingInCheck b col = true ∧
    (∀ (rights : CastlingRights) (ep : Option Square) (r c : Int) (safety : Bool)
        (moves : List Move),
      getValidMoves rights ep r c safety b col = some moves → moves = []) ∧
    (∀ s : State, Visited s → s.board = b → s.turn = col →
      (∀ (r c : Int) (p : Piece), b.get r c = some p → p.color = col →
        getValidMoves s.castlingRights s.enPassantTarget r c true b col = some []) ∧
      ∃ s1, gameOverCheck s = some s1 ∧ s1.gameState = GameStatus.checkmate) := by
  refine ⟨isKingInCheck_no_king b col hno, ?_, ?_⟩
  · intro rights ep r c safety moves hv
    exact getValidMoves_no_king rights ep r c safety b col moves hno hv
  · intro s hvis hbd hturn
    subst hbd
    subst hturn
    rcases visited_cases s hvis with hr | ⟨r, c, hk⟩
    · have hn := reachable_noLastRankPawn s hr
      have key := kingless_board_checkmate s hno
        (fun r c hp => hn r c ⟨Kind.p, s.turn⟩ hp rfl)
      exact ⟨key.2.1, key.2.2⟩
    · exact absurd hk (hno r c)

/-- C25 (witness): after 1.e4 d5 2.Ke2 d4 3.Ke3 dxe3 the board holds no white king and
white is to move: `isKingInCheck` is true for white, no white piece has a valid move and
the game-over check reports `checkmate`. -/
theorem C25_kingless_side_is_checkmated_witness :
    ∃ s : State, playAll State.initial kingHunt = some s ∧ s.turn = Color.w ∧
      (∀ r c : Int, s.board.get r c ≠ some ⟨Kind.k, Color.w⟩) ∧
      isKingInCheck s.board Color.w = true ∧
      (∀ (r c : Int) (p : Piece), s.board.get r c = some p → p.color = Color.w →
        getValidMoves s.castlingRights s.enPassantTarget r c true s.board Color.w = some []) ∧
      ∃ s1, gameOverCheck s = some s1 ∧ s1.gameState = GameStatus.checkmate := by
  have h : ((playAll State.initial kingHunt).map fun s =>
      (s.turn, allSquares.all fun sq =>
        decide (s.board.get sq.1 sq.2 ≠ some ⟨Kind.k, Color.w⟩))) =
      some (Color.w, true) := by decide!
  cases hp : playAll State.initial kingHunt with
  | none => simp [hp] at h
  | some s =>
    simp only [hp, Option.map_some', Option.some.injEq, Prod.mk.injEq] at h
    obtain ⟨hturn, hall⟩ := h
    have hno : ∀ r c : Int, s.board.get r c ≠ some ⟨Kind.k, Color.w⟩ := by
      intro r c
      by_cases hb : inBounds r c = true
      · exact of_decide_eq_true (forall_squares
          (fun r c => decide (s.board.get r c ≠ some ⟨Kind.k, Color.w⟩)) hall r c hb)
      · intro hk
        exact hb (Board.inBounds_of_get _ _ _ _ hk)
    have hreach := playAll_reachable kingHunt State.initial s Reachable.init hp
    have key := C25_kingless_side_is_checkmated s.board Color.w hno
    have key2 := key.2.2 s (Visited.settled s hreach) rfl hturn
    exact ⟨s, rfl, hturn, hno, key.1, key2.1, key2.2⟩

end Chess
